import Mathlib

/-!
Verification of the selective tree-merge and round-trip restoration engine of
the File Merger application (src/extractor.py).

The development shallowly embeds the algorithmic core of the program:

* the tri-state selection tree mutated by `FileMergerApp.handle_item_changed`,
  `FileMergerApp.check_all_children` and `FileMergerApp.update_parent_state`;
* the ignore matcher `TreeLoaderThread.should_ignore_path`;
* the merge serializer `FileProcessor` (header, tree manifest, file blocks);
* the restore parser `FileRestorer` (section slicing, block extraction);
* the child ordering produced by `TreeLoaderThread.load_tree_data` together
  with the chunk sort in `FileMergerApp.update_tree_data`.

Strings are modelled as `List Char` (Python unicode strings are sequences of
code points).  File system reads always succeed in the model; read errors are
modelled only where a claim is about them.  Python float formatting in
`_format_file_size` is modelled by exact rational arithmetic with round half
to even, and the float comparison `ratio > 0.3` in `_is_binary_content` is
modelled by the exactly equivalent integer comparison (both operands are
quotients of integers below 1000, where double rounding cannot cross the
decision boundary).
-/

namespace FileMerger

/-- Python strings as sequences of code points. -/
abbrev Str := List Char

/-- Qt check states carried by every tree item: Qt.Checked, Qt.PartiallyChecked
and Qt.Unchecked, i.e. the Included / PartiallyIncluded / Excluded tri-state of
the selection tree. -/
inductive CheckSt where
  | checked
  | partiallyChecked
  | unchecked
deriving DecidableEq

/-- One QTreeWidgetItem of the selection tree: whether the underlying path is a
directory, the current check state, and the ordered children. -/
inductive SNode where
  | mk (isDir : Bool) (st : CheckSt) (children : List SNode)

def SNode.isDir : SNode → Bool
  | .mk d _ _ => d

def SNode.st : SNode → CheckSt
  | .mk _ s _ => s

def SNode.children : SNode → List SNode
  | .mk _ _ c => c

/-- State recomputation rule of FileMergerApp.update_parent_state: the parent
becomes Checked when checked_count equals the child count, Unchecked when no
child is checked or partially checked, and PartiallyChecked otherwise. -/
def recompute (cs : List SNode) : CheckSt :=
  if cs.countP (fun c => c.st == CheckSt.checked) = cs.length then
    CheckSt.checked
  else if cs.countP (fun c => c.st == CheckSt.checked) = 0 ∧
      cs.countP (fun c => c.st == CheckSt.partiallyChecked) = 0 then
    CheckSt.unchecked
  else CheckSt.partiallyChecked

mutual

/-- Downward propagation: the state written to the toggled item by Qt together
with FileMergerApp.check_all_children, which recursively copies that state to
every descendant. -/
def setAll (s : CheckSt) : SNode → SNode
  | .mk d _ cs => .mk d s (setAllKids s cs)

def setAllKids (s : CheckSt) : List SNode → List SNode
  | [] => []
  | c :: cs => setAll s c :: setAllKids s cs

end

/-- Effect of FileMergerApp.handle_item_changed on the toggled item itself: the
new state is stored, and only for Checked or Unchecked (never for
PartiallyChecked) it is propagated to all children. -/
def setDown (n : SNode) (s : CheckSt) : SNode :=
  if s = CheckSt.checked ∨ s = CheckSt.unchecked then setAll s n
  else SNode.mk n.isDir s n.children

/-- One full handle_item_changed pass inside one top-level tree, addressed by a
path of child indices: downward propagation at the target, then
update_parent_state recomputation on every ancestor on the way back up.  An
out-of-range index leaves the tree unchanged (no such item exists in the
widget, so the signal can never fire for it). -/
def setStateAt : SNode → List Nat → CheckSt → SNode
  | n, [], s => setDown n s
  | .mk d st cs, i :: p, s =>
    if h : i < cs.length then
      SNode.mk d (recompute (cs.set i (setStateAt cs[i] p s)))
        (cs.set i (setStateAt cs[i] p s))
    else SNode.mk d st cs

/-- The forest of top-level items under the invisible root item, whose own
state is never recomputed (QTreeWidgetItem.parent() of a top-level item is
None, ending the update_parent_state recursion). -/
def setStateF (f : List SNode) (i : Nat) (p : List Nat) (s : CheckSt) :
    List SNode :=
  if h : i < f.length then f.set i (setStateAt f[i] p s) else f

/-- One user toggle: target tree index, path inside it, and the new binary
state (true = Checked / Included, false = Unchecked / Excluded); users can
only set these two states, PartiallyChecked is derived. -/
inductive Toggle where
  | mk (tree : Nat) (path : List Nat) (inc : Bool)

def Toggle.tree : Toggle → Nat
  | .mk i _ _ => i

def Toggle.path : Toggle → List Nat
  | .mk _ p _ => p

def Toggle.state : Toggle → CheckSt
  | .mk _ _ true => CheckSt.checked
  | .mk _ _ false => CheckSt.unchecked

def applyToggle (f : List SNode) (t : Toggle) : List SNode :=
  setStateF f t.tree t.path t.state

def applyToggles (f : List SNode) (ts : List Toggle) : List SNode :=
  ts.foldl applyToggle f

/-- Shape of a scanned directory subtree (structure only, no states). -/
inductive Shape where
  | mk (isDir : Bool) (children : List Shape)

mutual

/-- Initial tree built by FileMergerApp.update_tree_data: every created item
gets setCheckState(0, Qt.Checked). -/
def initNode : Shape → SNode
  | .mk d cs => .mk d CheckSt.checked (initKids cs)

def initKids : List Shape → List SNode
  | [] => []
  | sh :: shs => initNode sh :: initKids shs

end

def initForest (shs : List Shape) : List SNode := initKids shs

mutual

/-- The tri-state propagation rule exactly as the claim words it, at every
directory node: state Included iff all children Included, Excluded iff all
children Excluded, PartiallyIncluded iff neither. -/
def claimInvB : SNode → Bool
  | .mk d st cs =>
    (if d then
      ((st == CheckSt.checked) ==
        cs.all (fun c => c.st == CheckSt.checked)) &&
      ((st == CheckSt.unchecked) ==
        cs.all (fun c => c.st == CheckSt.unchecked)) &&
      ((st == CheckSt.partiallyChecked) ==
        (!cs.all (fun c => c.st == CheckSt.checked) &&
         !cs.all (fun c => c.st == CheckSt.unchecked)))
     else true) && claimInvKidsB cs

def claimInvKidsB : List SNode → Bool
  | [] => true
  | c :: cs => claimInvB c && claimInvKidsB cs

end

/-- Derived directory state as a function of the children, for nodes that have
at least one child (on an empty child list the three claim cases overlap). -/
def ruleOf (cs : List SNode) : CheckSt :=
  if cs.all (fun c => c.st == CheckSt.checked) then CheckSt.checked
  else if cs.all (fun c => c.st == CheckSt.unchecked) then CheckSt.unchecked
  else CheckSt.partiallyChecked

mutual

/-- Amended tri-state invariant: every node with at least one child carries
exactly the state derived from its children. -/
def invB : SNode → Bool
  | .mk _ st cs =>
    (if cs.isEmpty then true else st == ruleOf cs) && invKidsB cs

def invKidsB : List SNode → Bool
  | [] => true
  | c :: cs => invB c && invKidsB cs

end

mutual

/-- Check that every node of a subtree carries the given state. -/
def subtreeAll (s : CheckSt) : SNode → Bool
  | .mk _ st cs => st == s && subtreeAllKids s cs

def subtreeAllKids (s : CheckSt) : List SNode → Bool
  | [] => true
  | c :: cs => subtreeAll s c && subtreeAllKids s cs

end

/-- Subtree lookup along a path of child indices. -/
def getAt : SNode → List Nat → Option SNode
  | n, [] => some n
  | n, i :: p =>
    if h : i < n.children.length then getAt n.children[i] p else none

def getF (f : List SNode) (i : Nat) (p : List Nat) : Option SNode :=
  if h : i < f.length then getAt f[i] p else none

-- Basic lemmas about the propagation machinery.

theorem setAllKids_eq_map (s : CheckSt) (cs : List SNode) :
    setAllKids s cs = cs.map (setAll s) := by
  induction cs with
  | nil => rfl
  | cons c cs ih => simp [setAllKids, ih]

theorem subtreeAllKids_eq_all (s : CheckSt) (cs : List SNode) :
    subtreeAllKids s cs = cs.all (subtreeAll s) := by
  induction cs with
  | nil => rfl
  | cons c cs ih => simp [subtreeAllKids, ih]

theorem invKidsB_eq_all (cs : List SNode) : invKidsB cs = cs.all invB := by
  induction cs with
  | nil => rfl
  | cons c cs ih => simp [invKidsB, ih]

theorem subtreeAll_setAll (s : CheckSt) (n : SNode) :
    subtreeAll s (setAll s n) = true := by
  induction n using SNode.rec (motive_2 := fun cs =>
      subtreeAllKids s (setAllKids s cs) = true) with
  | mk d st cs ih => simpa [setAll, subtreeAll] using ih
  | nil => rfl
  | cons c cs ihc ihcs => simp [setAllKids, subtreeAllKids, ihc, ihcs]

theorem st_setAll (s : CheckSt) (n : SNode) : (setAll s n).st = s := by
  cases n; rfl

theorem st_of_subtreeAll {s : CheckSt} {n : SNode}
    (h : subtreeAll s n = true) : n.st = s := by
  cases n with
  | mk d st cs =>
    simp only [subtreeAll, Bool.and_eq_true, beq_iff_eq] at h
    exact h.1

/-- Every state set by downward propagation of a binary state equals that
state throughout the subtree. -/
theorem subtreeAll_setDown (n : SNode) {s : CheckSt}
    (hs : s = CheckSt.checked ∨ s = CheckSt.unchecked) :
    subtreeAll s (setDown n s) = true := by
  unfold setDown
  rw [if_pos hs]
  exact subtreeAll_setAll s n

-- The counting rule of update_parent_state agrees with the derived rule on
-- every nonempty child list.

theorem recompute_eq_ruleOf (cs : List SNode) :
    recompute cs = ruleOf cs := by
  unfold recompute ruleOf
  by_cases hall : cs.all (fun c => c.st == CheckSt.checked) = true
  · have hcnt : cs.countP (fun c => c.st == CheckSt.checked) = cs.length := by
      rw [List.countP_eq_length]
      intro a ha
      exact (List.all_eq_true.mp hall) a ha
    rw [if_pos hcnt, if_pos hall]
  · have hne : ¬cs.countP (fun c => c.st == CheckSt.checked) = cs.length := by
      intro hc
      exact hall (List.all_eq_true.mpr (List.countP_eq_length.mp hc))
    by_cases hallu : cs.all (fun c => c.st == CheckSt.unchecked) = true
    · have hc0 : cs.countP (fun c => c.st == CheckSt.checked) = 0 := by
        rw [List.countP_eq_zero]
        intro a ha
        have := (List.all_eq_true.mp hallu) a ha
        simp only [beq_iff_eq] at this ⊢
        simp [this]
      have hp0 : cs.countP (fun c => c.st == CheckSt.partiallyChecked) = 0 := by
        rw [List.countP_eq_zero]
        intro a ha
        have := (List.all_eq_true.mp hallu) a ha
        simp only [beq_iff_eq] at this ⊢
        simp [this]
      rw [if_neg hne, if_pos ⟨hc0, hp0⟩, if_neg hall, if_pos hallu]
    · have hmix : ¬(cs.countP (fun c => c.st == CheckSt.checked) = 0 ∧
          cs.countP (fun c => c.st == CheckSt.partiallyChecked) = 0) := by
        rintro ⟨hc0, hp0⟩
        apply hallu
        rw [List.all_eq_true]
        intro a ha
        have h1 := (List.countP_eq_zero.mp hc0) a ha
        have h2 := (List.countP_eq_zero.mp hp0) a ha
        simp only [beq_iff_eq] at h1 h2 ⊢
        cases hst : a.st with
        | checked => exact absurd hst h1
        | partiallyChecked => exact absurd hst h2
        | unchecked => rfl
      rw [if_neg hne, if_neg hmix, if_neg hall, if_neg hallu]

theorem ruleOf_const {s : CheckSt} {cs : List SNode} (hne : cs ≠ [])
    (hall : ∀ c ∈ cs, c.st = s)
    (hs : s = CheckSt.checked ∨ s = CheckSt.unchecked) : ruleOf cs = s := by
  unfold ruleOf
  rcases hs with hs | hs
  · subst hs
    have : cs.all (fun c => c.st == CheckSt.checked) = true := by
      rw [List.all_eq_true]
      intro c hc
      simp [hall c hc]
    rw [if_pos this]
  · subst hs
    obtain ⟨c0, cs0, rfl⟩ := List.exists_cons_of_ne_nil hne
    have h1 : ¬((c0 :: cs0).all (fun c => c.st == CheckSt.checked) = true) := by
      simp only [List.all_cons, Bool.and_eq_true, beq_iff_eq]
      rintro ⟨hc, -⟩
      rw [hall c0 (by simp)] at hc
      exact absurd hc (by decide)
    have h2 : ((c0 :: cs0).all (fun c => c.st == CheckSt.unchecked)) = true := by
      rw [List.all_eq_true]
      intro c hc
      simp [hall c hc]
    rw [if_neg h1, if_pos h2]

theorem mem_initKids_st {shs : List Shape} {c : SNode}
    (hc : c ∈ initKids shs) : c.st = CheckSt.checked := by
  induction shs with
  | nil => simp [initKids] at hc
  | cons sh shs ih =>
    simp only [initKids, List.mem_cons] at hc
    rcases hc with rfl | hc
    · cases sh; rfl
    · exact ih hc

theorem mem_setAllKids_st {s : CheckSt} {cs : List SNode} {c : SNode}
    (hc : c ∈ setAllKids s cs) : c.st = s := by
  induction cs with
  | nil => simp [setAllKids] at hc
  | cons c0 cs ih =>
    simp only [setAllKids, List.mem_cons] at hc
    rcases hc with rfl | hc
    · exact st_setAll s c0
    · exact ih hc

theorem invB_of_invKidsB {cs : List SNode} (h : invKidsB cs = true) :
    ∀ c ∈ cs, invB c = true := by
  rw [invKidsB_eq_all, List.all_eq_true] at h
  exact h

theorem invKidsB_of_all (cs : List SNode) (h : ∀ c ∈ cs, invB c = true) :
    invKidsB cs = true := by
  rw [invKidsB_eq_all, List.all_eq_true]
  exact h

theorem invB_setAll {s : CheckSt} (n : SNode)
    (hs : s = CheckSt.checked ∨ s = CheckSt.unchecked) :
    invB (setAll s n) = true := by
  induction n using SNode.rec (motive_2 := fun cs =>
      invKidsB (setAllKids s cs) = true) with
  | mk d st cs ih =>
    show ((if (setAllKids s cs).isEmpty then true
        else s == ruleOf (setAllKids s cs)) &&
      invKidsB (setAllKids s cs)) = true
    rw [Bool.and_eq_true]
    refine ⟨?_, ih⟩
    by_cases hcs : setAllKids s cs = []
    · rw [hcs]
      rfl
    · have hemp : ¬((setAllKids s cs).isEmpty = true) := by
        simpa [List.isEmpty_iff] using hcs
      rw [if_neg hemp, beq_iff_eq]
      exact (ruleOf_const hcs (fun c hc => mem_setAllKids_st hc) hs).symm
  | nil => rfl
  | cons c cs ihc ihcs =>
    show (invB (setAll s c) && invKidsB (setAllKids s cs)) = true
    rw [Bool.and_eq_true]
    exact ⟨ihc, ihcs⟩

theorem invB_setDown {s : CheckSt} (n : SNode)
    (hs : s = CheckSt.checked ∨ s = CheckSt.unchecked) :
    invB (setDown n s) = true := by
  unfold setDown
  rw [if_pos hs]
  exact invB_setAll n hs

theorem invB_mk (d : Bool) (st : CheckSt) (cs : List SNode) :
    invB (SNode.mk d st cs) =
      ((if cs.isEmpty then true else st == ruleOf cs) && invKidsB cs) := rfl

theorem invB_setStateAt {s : CheckSt} (n : SNode) (p : List Nat)
    (hn : invB n = true)
    (hs : s = CheckSt.checked ∨ s = CheckSt.unchecked) :
    invB (setStateAt n p s) = true := by
  induction p generalizing n with
  | nil =>
    simp only [setStateAt]
    exact invB_setDown n hs
  | cons i p ih =>
    cases n with
    | mk d st cs =>
      show invB (if h : i < cs.length then
        SNode.mk d (recompute (cs.set i (setStateAt cs[i] p s)))
          (cs.set i (setStateAt cs[i] p s))
        else SNode.mk d st cs) = true
      by_cases h : i < cs.length
      · rw [dif_pos h, invB_mk, Bool.and_eq_true]
        constructor
        · by_cases hemp : (cs.set i (setStateAt cs[i] p s)).isEmpty = true
          · rw [if_pos hemp]
          · rw [if_neg hemp, beq_iff_eq]
            exact recompute_eq_ruleOf _
        · apply invKidsB_of_all
          intro c hc
          rcases List.mem_or_eq_of_mem_set hc with hc | rfl
          · rw [invB_mk, Bool.and_eq_true] at hn
            exact invB_of_invKidsB hn.2 c hc
          · apply ih
            rw [invB_mk, Bool.and_eq_true] at hn
            exact invB_of_invKidsB hn.2 _ (cs.getElem_mem h)
      · rw [dif_neg h]
        exact hn

theorem all_invB_applyToggle {f : List SNode} (t : Toggle)
    (hf : f.all invB = true) : (applyToggle f t).all invB = true := by
  cases t with
  | mk i p b =>
    show (setStateF f i p (Toggle.mk i p b).state).all invB = true
    unfold setStateF
    by_cases h : i < f.length
    · rw [dif_pos h, List.all_eq_true]
      intro c hc
      rcases List.mem_or_eq_of_mem_set hc with hc | rfl
      · exact (List.all_eq_true.mp hf) c hc
      · apply invB_setStateAt
        · exact (List.all_eq_true.mp hf) _ (f.getElem_mem h)
        · cases b <;> simp [Toggle.state]
    · rw [dif_neg h]
      exact hf

theorem all_invB_initForest (shs : List Shape) :
    (initForest shs).all invB = true := by
  have main : ∀ sh : Shape, invB (initNode sh) = true := by
    intro sh
    induction sh using Shape.rec (motive_2 := fun cs =>
        invKidsB (initKids cs) = true) with
    | mk d cs ih =>
      show ((if (initKids cs).isEmpty then true
          else CheckSt.checked == ruleOf (initKids cs)) &&
        invKidsB (initKids cs)) = true
      rw [Bool.and_eq_true]
      refine ⟨?_, ih⟩
      by_cases hcs : initKids cs = []
      · rw [hcs]
        rfl
      · have hemp : ¬((initKids cs).isEmpty = true) := by
          simpa [List.isEmpty_iff] using hcs
        rw [if_neg hemp, beq_iff_eq]
        exact (ruleOf_const hcs (fun c hc => mem_initKids_st hc)
          (Or.inl rfl)).symm
    | nil => rfl
    | cons sh shs ihc ihcs =>
      show (invB (initNode sh) && invKidsB (initKids shs)) = true
      rw [Bool.and_eq_true]
      exact ⟨ihc, ihcs⟩
  rw [List.all_eq_true]
  intro c hc
  unfold initForest at hc
  induction shs with
  | nil => simp [initKids] at hc
  | cons sh shs ih =>
    simp only [initKids, List.mem_cons] at hc
    rcases hc with rfl | hc
    · exact main sh
    · exact ih hc

/-- C2 counterexample: the claim, read literally, already fails with zero
drift from reality on a directory with no children.  Take the forest holding a
single empty directory (all items are created Checked) and exclude it by one
toggle; its state is Excluded, yet all of its (zero) children are vacuously
Included, so the claimed biconditional `Included iff all children Included`
forces the state to be Included — the rule as stated is violated. -/
theorem c2_claim_counterexample :
    (applyToggles (initForest [Shape.mk true []])
        [Toggle.mk 0 [] false]).all claimInvB = false := by
  decide

/-- C2 (amended, corrected): starting from a freshly scanned tree (all items
Checked) and applying any finite sequence of handle_item_changed toggles with
new state Included or Excluded, every node that has at least one child carries
exactly the derived tri-state: Included iff all children Included, Excluded
iff all children Excluded, PartiallyIncluded otherwise.  Directory nodes with
zero children are exempt (for them the three claimed biconditionals are
contradictory; see the counterexample). -/
theorem c2_tri_state_invariant (shs : List Shape) (ops : List Toggle) :
    (applyToggles (initForest shs) ops).all invB = true := by
  suffices h : ∀ f : List SNode, f.all invB = true →
      (applyToggles f ops).all invB = true from
    h _ (all_invB_initForest shs)
  unfold applyToggles
  induction ops with
  | nil => intro f hf; exact hf
  | cons op ops ih =>
    intro f hf
    exact ih _ (all_invB_applyToggle op hf)

theorem getAt_setStateAt {n t : SNode} {p : List Nat} {s : CheckSt}
    (h : getAt n p = some t) :
    getAt (setStateAt n p s) p = some (setDown t s) := by
  induction p generalizing n with
  | nil =>
    simp only [getAt, Option.some.injEq] at h
    subst h
    simp only [setStateAt, getAt]
  | cons i p ih =>
    cases n with
    | mk d st cs =>
      simp only [getAt, SNode.children] at h
      by_cases hi : i < cs.length
      · rw [dif_pos hi] at h
        show getAt (if h : i < cs.length then
          SNode.mk d (recompute (cs.set i (setStateAt cs[i] p s)))
            (cs.set i (setStateAt cs[i] p s))
          else SNode.mk d st cs) (i :: p) = some (setDown t s)
        rw [dif_pos hi]
        have hlen : i < (cs.set i (setStateAt cs[i] p s)).length := by
          simpa using hi
        simp only [getAt, SNode.children]
        rw [dif_pos hlen, List.getElem_set_self hlen]
        exact ih h
      · rw [dif_neg hi] at h
        exact absurd h (by simp)

/-- C3 (confirmed): setting any node to Included (resp. Excluded) replaces the
whole subtree at that node by the same subtree with that exact state written
into every node, so in particular every descendant leaf carries it. -/
theorem c3_downward_propagation (f : List SNode) (i : Nat) (p : List Nat)
    (b : Bool) (t : SNode) (h : getF f i p = some t) :
    getF (applyToggle f (Toggle.mk i p b)) i p =
      some (setAll (Toggle.mk i p b).state t) ∧
    subtreeAll (Toggle.mk i p b).state
      (setAll (Toggle.mk i p b).state t) = true := by
  have hsb : (Toggle.mk i p b).state = CheckSt.checked ∨
      (Toggle.mk i p b).state = CheckSt.unchecked := by
    cases b <;> simp [Toggle.state]
  constructor
  · unfold getF at h
    by_cases hi : i < f.length
    · rw [dif_pos hi] at h
      show getF (setStateF f i p (Toggle.mk i p b).state) i p =
        some (setAll (Toggle.mk i p b).state t)
      unfold setStateF
      rw [dif_pos hi]
      unfold getF
      have hlen : i <
          (f.set i (setStateAt f[i] p (Toggle.mk i p b).state)).length := by
        simpa using hi
      rw [dif_pos hlen, List.getElem_set_self hlen, getAt_setStateAt h]
      unfold setDown
      rw [if_pos hsb]
    · rw [dif_neg hi] at h
      exact absurd h (by simp)
  · exact subtreeAll_setAll _ t

/-- Witness for C3 at a concrete forest: excluding the single top-level
directory (one file child) leaves the whole subtree Excluded. -/
theorem c3_downward_propagation_witness :
    getF (applyToggle (initForest [Shape.mk true [Shape.mk false []]])
        (Toggle.mk 0 [] false)) 0 [] =
      some (setAll CheckSt.unchecked
        (initNode (Shape.mk true [Shape.mk false []]))) ∧
    subtreeAll CheckSt.unchecked (setAll CheckSt.unchecked
      (initNode (Shape.mk true [Shape.mk false []]))) = true :=
  c3_downward_propagation (initForest [Shape.mk true [Shape.mk false []]])
    0 [] false (initNode (Shape.mk true [Shape.mk false []])) rfl

/-- C10 (confirmed): the update_parent_state counting rule classifies a node
with zero children as Checked (Included), because checked_count = 0 equals the
child count 0; it is never classified Excluded or PartiallyIncluded. -/
theorem c10_empty_dir_recompute (n : SNode) (h : n.children = []) :
    recompute n.children = CheckSt.checked ∧
    recompute n.children ≠ CheckSt.unchecked ∧
    recompute n.children ≠ CheckSt.partiallyChecked := by
  rw [h]
  exact ⟨rfl, by decide, by decide⟩

/-- Witness for C10: an empty directory node. -/
theorem c10_empty_dir_recompute_witness :
    recompute (SNode.mk true CheckSt.checked []).children = CheckSt.checked ∧
    recompute (SNode.mk true CheckSt.checked []).children ≠
      CheckSt.unchecked ∧
    recompute (SNode.mk true CheckSt.checked []).children ≠
      CheckSt.partiallyChecked :=
  c10_empty_dir_recompute (SNode.mk true CheckSt.checked []) rfl

-- Ignore matcher: TreeLoaderThread.should_ignore_path.

/-- Convenience conversion of a Lean string literal to the Python string
model. -/
def lit (s : String) : Str := s.data

/-- Model of os.path.basename on POSIX: everything after the last slash. -/
def basename (p : Str) : Str :=
  (p.reverse.takeWhile (fun c => c ≠ '/')).reverse

/-- Scan of a glob character class up to the closing bracket, returning the
class body and the remaining pattern. -/
def findClose : Str → Option (Str × Str)
  | [] => none
  | c :: rest =>
    if c = ']' then some ([], rest)
    else (findClose rest).map (fun pr => (c :: pr.1, pr.2))

theorem findClose_length {ps b r : Str}
    (h : findClose ps = some (b, r)) : r.length < ps.length := by
  induction ps generalizing b with
  | nil => exact Option.noConfusion h
  | cons c t ih =>
    simp only [findClose] at h
    by_cases hc : c = ']'
    · rw [if_pos hc] at h
      simp only [Option.some.injEq, Prod.mk.injEq] at h
      rw [← h.2]
      simp
    · rw [if_neg hc] at h
      cases hf : findClose t with
      | none =>
        rw [hf] at h
        exact Option.noConfusion h
      | some pr =>
        rw [hf] at h
        simp only [Option.map_some', Option.some.injEq, Prod.mk.injEq] at h
        have hih := ih (b := pr.1)
          (by rw [hf]; exact congrArg some (Prod.ext rfl h.2))
        simp only [List.length_cons]
        omega

/-- Body of the fnmatch class parser, after the optional negation marker has
been consumed: a closing bracket in first position is a literal member, then
everything up to the next closing bracket is the class. -/
def splitClassBody (neg : Bool) (ps1 : Str) : Option (Bool × Str × Str) :=
  if ps1.head? = some ']' then
    (findClose ps1.tail).map (fun pr => (neg, ']' :: pr.1, pr.2))
  else
    (findClose ps1).map (fun pr => (neg, pr.1, pr.2))

/-- Parse of a fnmatch character class directly after the opening bracket:
optional leading negation, then the class body up to the closing bracket.
None when no closing bracket exists (the opening bracket is then a literal,
as in fnmatch.translate). -/
def splitClass (ps : Str) : Option (Bool × Str × Str) :=
  if ps.head? = some '!' then splitClassBody true ps.tail
  else splitClassBody false ps

theorem splitClassBody_length {ps1 body rest : Str} {neg neg1 : Bool}
    (h : splitClassBody neg ps1 = some (neg1, body, rest)) :
    rest.length < ps1.length + 1 := by
  unfold splitClassBody at h
  by_cases hh : ps1.head? = some ']'
  · rw [if_pos hh] at h
    cases hf : findClose ps1.tail with
    | none =>
      rw [hf] at h
      exact Option.noConfusion h
    | some pr =>
      rw [hf] at h
      simp only [Option.map_some', Option.some.injEq, Prod.mk.injEq] at h
      have hlt := findClose_length (b := pr.1) (r := pr.2) (by rw [hf])
      have htl : ps1.tail.length ≤ ps1.length := by
        cases ps1 <;> simp
      rw [← h.2.2]
      omega
  · rw [if_neg hh] at h
    cases hf : findClose ps1 with
    | none =>
      rw [hf] at h
      exact Option.noConfusion h
    | some pr =>
      rw [hf] at h
      simp only [Option.map_some', Option.some.injEq, Prod.mk.injEq] at h
      have hlt := findClose_length (b := pr.1) (r := pr.2) (by rw [hf])
      rw [← h.2.2]
      omega

theorem splitClass_length {ps body rest : Str} {neg : Bool}
    (h : splitClass ps = some (neg, body, rest)) :
    rest.length < ps.length + 1 := by
  unfold splitClass at h
  by_cases hh : ps.head? = some '!'
  · rw [if_pos hh] at h
    have h1 := splitClassBody_length h
    have : ps.tail.length ≤ ps.length := by cases ps <;> simp
    omega
  · rw [if_neg hh] at h
    exact splitClassBody_length h

/-- Membership in a fnmatch character class body, with dash ranges. -/
def inClass : Str → Char → Bool
  | [], _ => false
  | a :: '-' :: b :: rest, c =>
    (decide (a ≤ c) && decide (c ≤ b)) || inClass rest c
  | a :: rest, c => (a == c) || inClass rest c

/-- Model of fnmatch.fnmatch on a case-sensitive file system: a star matches
any run of characters, a question mark any single character, a bracketed
class one character from the class (or outside it when negated), any other
character itself. -/
def globMatch : Str → Str → Bool
  | [], s => s.isEmpty
  | '*' :: ps, [] => globMatch ps []
  | '*' :: ps, c :: s => globMatch ps (c :: s) || globMatch ('*' :: ps) s
  | '?' :: _, [] => false
  | '?' :: ps, _ :: s => globMatch ps s
  | '[' :: ps, s =>
    match h : splitClass ps with
    | some (neg, body, rest) =>
      match s with
      | [] => false
      | c :: s' => (neg != inClass body c) && globMatch rest s'
    | none =>
      match s with
      | [] => false
      | c :: s' => ('[' == c) && globMatch ps s'
  | p :: ps, [] => false
  | p :: ps, c :: s => (p == c) && globMatch ps s
termination_by p s => p.length + s.length
decreasing_by
  all_goals simp_wf
  all_goals first
  | omega
  | (rename_i hsc _ _; have h9 := splitClass_length hsc; omega)
  | (have h9 := splitClass_length h; omega)

/-- One iteration of the pattern loop in should_ignore_path, as a pure
predicate: a pattern starting with a star matches as suffix, a pattern ending
with a star matches as prefix, any other pattern containing a star is matched
with fnmatch.  The loop returns True as soon as one pattern hits, which for a
boolean result is the disjunction over its conditions. -/
def patternHits (item : Str) (pat : Str) : Bool :=
  (pat.head? == some '*' && (pat.drop 1).isSuffixOf item) ||
  (pat.getLast? == some '*' && pat.dropLast.isPrefixOf item) ||
  (pat.contains '*' && globMatch pat item)

/-- TreeLoaderThread.should_ignore_path: hidden names (leading dot, unless
hidden files are included), then exact membership in the ignore list, then
the wildcard pattern loop. -/
def should_ignore_path (ignoreList : List Str) (includeHidden : Bool)
    (path : Str) : Bool :=
  let item := basename path
  if !includeHidden && (item.head? == some '.') then true
  else if ignoreList.any (fun p => p == item) then true
  else ignoreList.any (patternHits item)

unseal globMatch in
/-- C4 (confirmed): on the rule set of the claim with hidden files excluded,
the matcher ignores a suffix hit, an exact hit, a prefix hit and a hidden
name, and accepts main.go; moreover with includeHidden false every name whose
base name starts with a dot is ignored, for every rule set. -/
theorem c4_ignore_matcher :
    (should_ignore_path
        [lit "*.pyc", lit "node_modules", lit "build*"] false
        (lit "app.pyc") = true ∧
      should_ignore_path
        [lit "*.pyc", lit "node_modules", lit "build*"] false
        (lit "node_modules") = true ∧
      should_ignore_path
        [lit "*.pyc", lit "node_modules", lit "build*"] false
        (lit "build_output") = true ∧
      should_ignore_path
        [lit "*.pyc", lit "node_modules", lit "build*"] false
        (lit ".env") = true ∧
      should_ignore_path
        [lit "*.pyc", lit "node_modules", lit "build*"] false
        (lit "main.go") = false) ∧
    ∀ (rules : List Str) (p : Str), (basename p).head? = some '.' →
      should_ignore_path rules false p = true := by
  constructor
  · exact ⟨by decide, by decide, by decide, by decide, by decide⟩
  · intro rules p hp
    unfold should_ignore_path
    simp [hp]

/-- Witness for the hypothesis-bearing part of C4: the hidden-name rule fires
on an empty rule set. -/
theorem c4_ignore_matcher_witness :
    should_ignore_path [] false (lit ".bashrc") = true :=
  c4_ignore_matcher.2 [] (lit ".bashrc") rfl

-- Python string utilities shared by serializer and restorer.

/-- Python str.strip whitespace (the ASCII whitespace characters; Python also
strips rarer unicode space characters, which never occur in the artifacts
considered here). -/
def isPyWs (c : Char) : Bool :=
  c == ' ' || c == '\t' || c == '\n' || c == '\r' ||
  c == Char.ofNat 11 || c == Char.ofNat 12

def pyLstrip (s : Str) : Str := s.dropWhile isPyWs

def pyRstrip (s : Str) : Str := (s.reverse.dropWhile isPyWs).reverse

def pyStrip (s : Str) : Str := pyRstrip (pyLstrip s)

/-- Python substring containment, needle in hay. -/
def hasSub (needle : Str) : Str → Bool
  | [] => needle.isEmpty
  | c :: t => needle.isPrefixOf (c :: t) || hasSub needle t

/-- Single quote, left brace and right brace characters (used inside the
repr of the settings dictionary). -/
def sq : Char := Char.ofNat 39

def lbr : Char := Char.ofNat 123

def rbr : Char := Char.ofNat 125

-- Merge serializer: FileProcessor.

/-- Output formats offered by the format combo box (txt and md; the html
branch in the source is dead code, the combo box never offers it). -/
inductive Fmt where
  | txt
  | md
deriving DecidableEq

def fmtStr : Fmt → Str
  | .txt => lit "txt"
  | .md => lit "md"

/-- The output_settings dictionary assembled by FileMergerApp.merge_files. -/
structure POpts where
  outputFolder : Str
  fmt : Fmt
  maxFileSize : Nat
  includeBinary : Bool
  includeHidden : Bool

/-- Decimal digit character. -/
def digitChar (n : Nat) : Char := Char.ofNat (48 + n % 10)

/-- Decimal rendering of a natural number (the str() of a nonnegative
Python int). -/
def natToStr (n : Nat) : Str :=
  if n < 10 then [digitChar n]
  else natToStr (n / 10) ++ [digitChar (n % 10)]
termination_by n
decreasing_by
  simp_wf
  rename_i hn
  omega

/-- Round half to even of a rational, modelling the rounding of Python float
formatting (formatting rounds the nearest double, which agrees with exact
rational rounding except when the binary representation error of a quotient
crosses a decimal boundary; no theorem below depends on the digits). -/
def roundHalfEven (q : ℚ) : ℤ :=
  if q - ⌊q⌋ < 1 / 2 then ⌊q⌋
  else if q - ⌊q⌋ > 1 / 2 then ⌊q⌋ + 1
  else if ⌊q⌋ % 2 = 0 then ⌊q⌋ else ⌊q⌋ + 1

/-- Python f-string formatting with one decimal digit, for a nonnegative
quantity (file sizes are nonnegative, so the integer parts are rendered as
naturals). -/
def fmtOneDecimal (q : ℚ) : Str :=
  natToStr (roundHalfEven (q * 10) / 10).toNat ++
    '.' :: natToStr ((roundHalfEven (q * 10) % 10).toNat)

/-- Unit loop of FileProcessor._format_file_size. -/
def fmtSizeLoop (q : ℚ) : List Str → Str
  | [] => fmtOneDecimal q ++ lit "TB"
  | u :: us => if q < 1024 then fmtOneDecimal q ++ u else fmtSizeLoop (q / 1024) us

/-- FileProcessor._format_file_size. -/
def formatFileSize (sizeBytes : Nat) : Str :=
  fmtSizeLoop (sizeBytes : ℚ) [lit "B", lit "KB", lit "MB", lit "GB"]

/-- Control characters counted by the binary heuristic: code point below 32
and not tab, newline or carriage return. -/
def isCtrl (c : Char) : Bool :=
  c.toNat < 32 && !(c == '\t' || c == '\n' || c == '\r')

/-- FileProcessor._is_binary_content: empty content is not binary, a NUL
character makes content binary, otherwise more than 30 percent control
characters among the first 1000.  The float comparison
non_printable / min(len, 1000) > 0.3 is replaced by the exactly equivalent
integer comparison 10 * non_printable > 3 * min(len, 1000): both quotient
operands are integers at most 1000, where the double error of the division
and of the literal 0.3 cannot cross the decision boundary. -/
def isBinaryContent (content : Str) : Bool :=
  if content.length = 0 then false
  else if content.contains (Char.ofNat 0) then true
  else decide (10 * (content.take 1000).countP isCtrl >
    3 * min content.length 1000)

/-- The repr of the output_settings dictionary interpolated into the plain
text header (insertion order of FileMergerApp.merge_files). -/
def settingsRepr (o : POpts) : Str :=
  lbr :: sq :: lit "output_folder" ++ sq :: lit ": " ++
  sq :: o.outputFolder ++ sq :: lit ", " ++
  sq :: lit "format" ++ sq :: lit ": " ++ sq :: fmtStr o.fmt ++
  sq :: lit ", " ++
  sq :: lit "max_file_size" ++ sq :: lit ": " ++
  natToStr o.maxFileSize ++ lit ", " ++
  sq :: lit "include_binary" ++ sq :: lit ": " ++
  (if o.includeBinary then lit "True" else lit "False") ++ lit ", " ++
  sq :: lit "include_hidden" ++ sq :: lit ": " ++
  (if o.includeHidden then lit "True" else lit "False") ++ [rbr]

/-- The 80 equals signs separator line. -/
def eqLine : Str := List.replicate 80 '='

/-- Python str.center(80) (for even width the extra padding goes right). -/
def center80 (s : Str) : Str :=
  if 80 ≤ s.length then s
  else List.replicate ((80 - s.length) / 2) ' ' ++ s ++
    List.replicate (80 - s.length - (80 - s.length) / 2) ' '

/-- FileProcessor._write_header.  The generation timestamp is a parameter. -/
def writeHeader (o : POpts) (root ts : Str) : Str :=
  match o.fmt with
  | .md =>
    lit "# File Merge Report\n\n" ++ lit "**Generated:** " ++ ts ++
    lit "\n\n" ++ lit "**Source Directory:** `" ++ root ++ lit "`\n\n"
  | .txt =>
    lit "FILE MERGE REPORT\n" ++ eqLine ++ lit "\n\n" ++
    lit "Generated: " ++ ts ++ lit "\n" ++
    lit "Source Directory: " ++ root ++ lit "\n" ++
    lit "Output Settings: " ++ settingsRepr o ++ lit "\n\n"

/-- FileProcessor._get_section_header. -/
def sectionHeader (fmt : Fmt) (title : Str) (isContent : Bool) : Str :=
  match fmt with
  | .md =>
    if isContent then lit "\n```\n\n## " ++ title ++ lit "\n\n"
    else lit "\n## " ++ title ++ lit "\n\n```\n"
  | .txt =>
    lit "\n\n" ++ eqLine ++ lit "\n" ++ center80 title ++ lit "\n" ++
    eqLine ++ lit "\n\n"

/-- The selection tree as the serializer sees it: per file the base name,
check state, decoded content and metadata size; per directory the base name,
check state and ordered children.  Reads succeed in this model (a read error
would yield an error-status block and continue). -/
inductive FTree where
  | file (name : Str) (st : CheckSt) (content : Str) (size : Nat)
  | dir (name : Str) (st : CheckSt) (children : List FTree)

def FTree.fname : FTree → Str
  | .file n _ _ _ => n
  | .dir n _ _ => n

def FTree.fst : FTree → CheckSt
  | .file _ s _ _ => s
  | .dir _ s _ => s

def FTree.isDirF : FTree → Bool
  | .file _ _ _ _ => false
  | .dir _ _ _ => true

/-- Lowercased extension, as os.path.splitext(path)[1].lower(): from the last
dot of the base name, unless only dots precede it. -/
def extOfLower (p : Str) : Str :=
  let base := basename p
  if base.contains '.' then
    let after := (base.reverse.takeWhile (fun c => c != '.')).reverse
    let pre := base.take (base.length - after.length - 1)
    if pre.any (fun c => c != '.') then
      ('.' :: after).map Char.toLower
    else []
  else []

/-- Language tag map of FileProcessor._write_file_content. -/
def langOf (ext : Str) : Str :=
  if ext = lit ".py" then lit "python"
  else if ext = lit ".js" then lit "javascript"
  else if ext = lit ".java" then lit "java"
  else if ext = lit ".cpp" then lit "cpp"
  else if ext = lit ".cs" then lit "csharp"
  else if ext = lit ".html" then lit "html"
  else if ext = lit ".css" then lit "css"
  else if ext = lit ".json" then lit "json"
  else if ext = lit ".xml" then lit "xml"
  else if ext = lit ".php" then lit "php"
  else if ext = lit ".rb" then lit "ruby"
  else if ext = lit ".go" then lit "go"
  else if ext = lit ".rs" then lit "rust"
  else if ext = lit ".kt" then lit "kotlin"
  else if ext = lit ".swift" then lit "swift"
  else lit "text"

/-- FileProcessor._write_file_header (the status argument defaults to the
empty string in the source and is only written when nonempty; None models the
empty default). -/
def writeFileHeader (fmt : Fmt) (name rel : Str) (status : Option Str) :
    Str :=
  match fmt with
  | .md =>
    lit "\n### 📄 " ++ name ++ lit "\n\n" ++
    lit "**Path:** `" ++ rel ++ lit "`\n" ++
    (match status with
     | some st => lit "**Status:** " ++ st ++ lit "\n"
     | none => []) ++ lit "\n"
  | .txt =>
    lit "\n" ++ eqLine ++ lit "\n" ++
    lit "📄 File: " ++ name ++ lit "\n" ++
    lit "📁 Path: " ++ rel ++ lit "\n" ++
    (match status with
     | some st => lit "⚠️ Status: " ++ st ++ lit "\n"
     | none => []) ++
    eqLine ++ lit "\n\n"

/-- FileProcessor._write_file_content. -/
def writeFileContent (fmt : Fmt) (name content : Str) : Str :=
  match fmt with
  | .md =>
    lit "```" ++ langOf (extOfLower name) ++ lit "\n" ++ content ++
    lit "\n```\n\n"
  | .txt => content ++ lit "\n\n"

/-- FileProcessor._write_single_file: a file above the size ceiling gets a
status-only header before any read happens; then content is read (reads
succeed in this model) and binary content gets a status-only header; a normal
file gets header plus verbatim content. -/
def writeSingleFile (o : POpts) (name rel content : Str) (size : Nat) :
    Str :=
  if size > o.maxFileSize then
    writeFileHeader o.fmt name rel
      (some (lit "⚠️ Skipped - File too large (" ++ formatFileSize size ++
        lit ")"))
  else if isBinaryContent content then
    writeFileHeader o.fmt name rel
      (some (lit "📎 Binary file (" ++ formatFileSize size ++ lit ")"))
  else
    writeFileHeader o.fmt name rel none ++ writeFileContent o.fmt name content

mutual

/-- FileProcessor._write_tree_summary for one child at its position. -/
def summaryNode (pfx : Str) (isLast : Bool) (t : FTree) : Str :=
  pfx ++ (if isLast then lit "└── " else lit "├── ") ++
  (match t.fst with
   | .checked => lit "✓"
   | .partiallyChecked => lit "◐"
   | .unchecked => lit "✗") ++ lit " " ++ t.fname ++
  (match t with
   | .file _ CheckSt.checked _ size =>
     lit " (" ++ formatFileSize size ++ lit ")"
   | _ => []) ++ lit "\n" ++
  (match t with
   | .dir _ st cs =>
     if st ≠ CheckSt.unchecked then
       summaryKids (pfx ++ (if isLast then lit "    " else lit "│   ")) cs
     else []
   | _ => [])

/-- FileProcessor._write_tree_summary over a child list (the last child gets
the closing connector). -/
def summaryKids (pfx : Str) : List FTree → Str
  | [] => []
  | [t] => summaryNode pfx true t
  | t :: ts => summaryNode pfx false t ++ summaryKids pfx ts

end

mutual

/-- FileProcessor._write_files for one node: checked files are emitted, not
unchecked directories are descended into. -/
def writeFilesNode (o : POpts) (relPfx : Str) : FTree → Str
  | .file name st content size =>
    if st = CheckSt.checked then
      writeSingleFile o name (relPfx ++ name) content size
    else []
  | .dir name st cs =>
    if st ≠ CheckSt.unchecked then
      writeFilesKids o (relPfx ++ name ++ lit "/") cs
    else []

def writeFilesKids (o : POpts) (relPfx : Str) : List FTree → Str
  | [] => []
  | t :: ts => writeFilesNode o relPfx t ++ writeFilesKids o relPfx ts

end

/-- FileProcessor.process_files, for the txt and md formats (the html footer
branch is dead code): header, File Structure section with the tree summary,
File Contents section with the file blocks. -/
def mergeOutput (o : POpts) (root ts : Str) (forest : List FTree) : Str :=
  writeHeader o root ts ++
  sectionHeader o.fmt (lit "File Structure") false ++
  summaryKids [] forest ++
  sectionHeader o.fmt (lit "File Contents") true ++
  writeFilesKids o [] forest

/-- C5 (confirmed): a selected file whose metadata size exceeds the
configured maximum is emitted as a status-only too-large header, and the
emitted text is the same whatever the content is (the file is never read:
the size check happens before open in the source). -/
theorem c5_large_file_policy (o : POpts) (name rel content : Str)
    (size : Nat) (h : size > o.maxFileSize) :
    writeSingleFile o name rel content size =
      writeFileHeader o.fmt name rel
        (some (lit "⚠️ Skipped - File too large (" ++ formatFileSize size ++
          lit ")")) ∧
    ∀ content' : Str,
      writeSingleFile o name rel content' size =
        writeSingleFile o name rel content size := by
  constructor
  · unfold writeSingleFile
    rw [if_pos h]
  · intro content'
    unfold writeSingleFile
    rw [if_pos h, if_pos h]

/-- Witness for C5: an 11 byte file against a 10 byte ceiling. -/
theorem c5_large_file_policy_witness :
    writeSingleFile (POpts.mk (lit "outputFolder") Fmt.txt 10 false false)
        (lit "a.txt") (lit "a.txt") (lit "hello hello") 11 =
      writeFileHeader Fmt.txt (lit "a.txt") (lit "a.txt")
        (some (lit "⚠️ Skipped - File too large (" ++ formatFileSize 11 ++
          lit ")")) ∧
    ∀ content' : Str,
      writeSingleFile (POpts.mk (lit "outputFolder") Fmt.txt 10 false false)
          (lit "a.txt") (lit "a.txt") content' 11 =
        writeSingleFile (POpts.mk (lit "outputFolder") Fmt.txt 10 false false)
          (lit "a.txt") (lit "a.txt") (lit "hello hello") 11 :=
  c5_large_file_policy (POpts.mk (lit "outputFolder") Fmt.txt 10 false false)
    (lit "a.txt") (lit "a.txt") (lit "hello hello") 11 (by decide)

/-- C6 counterexample: a file whose content holds a NUL character but whose
size exceeds the configured maximum is recorded with the too-large status,
not with the binary marker the claim promises (the size check short-circuits
before the binary check). -/
theorem c6_counterexample :
    isBinaryContent (Char.ofNat 0 :: lit "binarydata") = true ∧
    writeSingleFile (POpts.mk (lit "outputFolder") Fmt.txt 10 false false)
        (lit "a.bin") (lit "a.bin") (Char.ofNat 0 :: lit "binarydata") 11 ≠
      writeFileHeader Fmt.txt (lit "a.bin") (lit "a.bin")
        (some (lit "📎 Binary file (" ++ formatFileSize 11 ++ lit ")")) := by
  constructor
  · decide
  · decide

/-- C6 (amended, corrected): for a selected file whose size does not exceed
the configured maximum, content holding a NUL character, or with more than 30
percent control characters among the first 1000 characters, is recorded as a
status-only binary header — its content is never embedded. -/
theorem c6_binary_detection (o : POpts) (name rel content : Str) (size : Nat)
    (hsize : size ≤ o.maxFileSize)
    (hbin : content.contains (Char.ofNat 0) = true ∨
      10 * (content.take 1000).countP isCtrl > 3 * min content.length 1000) :
    writeSingleFile o name rel content size =
      writeFileHeader o.fmt name rel
        (some (lit "📎 Binary file (" ++ formatFileSize size ++ lit ")")) := by
  have hnot : ¬size > o.maxFileSize := by omega
  have hb : isBinaryContent content = true := by
    unfold isBinaryContent
    rcases hbin with hnul | hratio
    · have hne : content.length ≠ 0 := by
        intro h0
        rw [List.length_eq_zero] at h0
        rw [h0] at hnul
        exact Bool.noConfusion hnul
      rw [if_neg hne, if_pos hnul]
    · have hne : content.length ≠ 0 := by
        intro h0
        rw [List.length_eq_zero] at h0
        subst h0
        simp at hratio
      rw [if_neg hne]
      by_cases hnul : content.contains (Char.ofNat 0) = true
      · rw [if_pos hnul]
      · rw [if_neg hnul]
        exact decide_eq_true hratio
  unfold writeSingleFile
  rw [if_neg hnot, if_pos hb]

/-- Witness for C6: a small NUL-containing file below the ceiling. -/
theorem c6_binary_detection_witness :
    writeSingleFile (POpts.mk (lit "outputFolder") Fmt.txt 10 false false)
        (lit "a.bin") (lit "a.bin") (Char.ofNat 0 :: lit "ab") 3 =
      writeFileHeader Fmt.txt (lit "a.bin") (lit "a.bin")
        (some (lit "📎 Binary file (" ++ formatFileSize 3 ++ lit ")")) :=
  c6_binary_detection (POpts.mk (lit "outputFolder") Fmt.txt 10 false false)
    (lit "a.bin") (lit "a.bin") (Char.ofNat 0 :: lit "ab") 3 (by decide)
    (Or.inl (by decide))

-- Restore parser: FileRestorer.

/-- Literal matcher of the parser: consumes an expected literal prefix. -/
def matchLit : Str → Str → Option Str
  | [], s => some s
  | _ :: _, [] => none
  | p :: ps, c :: s => if p = c then matchLit ps s else none

/-- Split at the first newline (group before it, rest after it). -/
def splitAtNl : Str → Option (Str × Str)
  | [] => none
  | c :: s =>
    if c = '\n' then some ([], s)
    else (splitAtNl s).map (fun pr => (c :: pr.1, pr.2))

/-- One regex group of shape ([^\n]+) followed by a literal newline: the
maximal nonempty run up to the next newline, which is consumed. -/
def takeLine (s : Str) : Option (Str × Str) :=
  (splitAtNl s).bind fun pr => if pr.1.isEmpty then none else some pr

/-- Tail of the plain text header regex after the path line newline: the
optional status line is tried first (greedy option), falling back to the
closing separator line alone. -/
def parseHdrTail (s : Str) : Option Str :=
  match matchLit (lit "⚠️ Status: ") s with
  | some s1 =>
    match takeLine s1 with
    | some (_, s2) =>
      match matchLit (eqLine ++ ['\n']) s2 with
      | some rest => some rest
      | none => matchLit (eqLine ++ ['\n']) s
    | none => matchLit (eqLine ++ ['\n']) s
  | none => matchLit (eqLine ++ ['\n']) s

/-- One attempted match of the plain text file header regex of
FileRestorer._extract_file_blocks at the current position, returning the file
name group, the path group and the text after the match. -/
def parseHdrAt (s : Str) : Option (Str × Str × Str) :=
  (matchLit ('\n' :: eqLine ++ ['\n']) s).bind fun s1 =>
  (matchLit (lit "📄 File: ") s1).bind fun s2 =>
  (takeLine s2).bind fun pr2 =>
  (matchLit (lit "📁 Path: ") pr2.2).bind fun s4 =>
  (takeLine s4).bind fun pr4 =>
  (parseHdrTail pr4.2).map fun rest => (pr2.1, pr4.1, rest)

/-- Leftmost match scan of re.finditer for the plain text header pattern:
text before the match, the path group, and the text after the match. -/
def findHdr : Str → Option (Str × Str × Str)
  | [] => none
  | c :: t =>
    match parseHdrAt (c :: t) with
    | some pr => some ([], pr.2.1, pr.2.2)
    | none => (findHdr t).map (fun r => (c :: r.1, r.2.1, r.2.2))

theorem matchLit_length {pat s r : Str} (h : matchLit pat s = some r) :
    r.length + pat.length = s.length := by
  induction pat generalizing s with
  | nil =>
    simp only [matchLit, Option.some.injEq] at h
    subst h
    simp
  | cons p ps ih =>
    cases s with
    | nil => exact Option.noConfusion h
    | cons c t =>
      simp only [matchLit] at h
      by_cases hpc : p = c
      · rw [if_pos hpc] at h
        have := ih h
        simp only [List.length_cons]
        omega
      · rw [if_neg hpc] at h
        exact Option.noConfusion h

theorem splitAtNl_length {s g r : Str} (h : splitAtNl s = some (g, r)) :
    r.length < s.length := by
  induction s generalizing g with
  | nil => exact Option.noConfusion h
  | cons c t ih =>
    simp only [splitAtNl] at h
    by_cases hc : c = '\n'
    · rw [if_pos hc] at h
      simp only [Option.some.injEq, Prod.mk.injEq] at h
      rw [← h.2]
      simp
    · rw [if_neg hc] at h
      cases hs : splitAtNl t with
      | none =>
        rw [hs] at h
        exact Option.noConfusion h
      | some pr =>
        rw [hs] at h
        simp only [Option.map_some', Option.some.injEq, Prod.mk.injEq] at h
        have := ih (g := pr.1) (by rw [hs]; exact congrArg some (Prod.ext rfl h.2))
        simp only [List.length_cons]
        omega

theorem takeLine_length {s g r : Str} (h : takeLine s = some (g, r)) :
    r.length < s.length := by
  unfold takeLine at h
  cases hs : splitAtNl s with
  | none =>
    rw [hs] at h
    exact Option.noConfusion h
  | some pr =>
    rw [hs, Option.some_bind] at h
    by_cases hg : pr.1.isEmpty = true
    · rw [if_pos hg] at h
      exact Option.noConfusion h
    · rw [if_neg hg] at h
      simp only [Option.some.injEq] at h
      subst h
      exact splitAtNl_length (by rw [hs])

theorem parseHdrTail_length {s r : Str} (h : parseHdrTail s = some r) :
    r.length < s.length := by
  have heq : (eqLine ++ ['\n']).length = 81 := by decide
  unfold parseHdrTail at h
  cases h1 : matchLit (lit "⚠️ Status: ") s with
  | none =>
    simp only [h1] at h
    have := matchLit_length h
    rw [heq] at this
    omega
  | some s1 =>
    simp only [h1] at h
    have hlen1 := matchLit_length h1
    cases h2 : takeLine s1 with
    | none =>
      simp only [h2] at h
      have := matchLit_length h
      rw [heq] at this
      omega
    | some pr =>
      simp only [h2] at h
      have hlen2 := takeLine_length (g := pr.1) (r := pr.2) (by rw [h2])
      cases h3 : matchLit (eqLine ++ ['\n']) pr.2 with
      | none =>
        simp only [h3] at h
        have := matchLit_length h
        rw [heq] at this
        omega
      | some rest =>
        simp only [h3, Option.some.injEq] at h
        subst h
        have := matchLit_length h3
        rw [heq] at this
        have hst : (lit "⚠️ Status: ").length = 11 := by decide
        rw [hst] at hlen1
        omega

theorem parseHdrAt_length {s f p r : Str}
    (h : parseHdrAt s = some (f, p, r)) : r.length < s.length := by
  unfold parseHdrAt at h
  cases h1 : matchLit ('\n' :: eqLine ++ ['\n']) s with
  | none => rw [h1] at h; exact Option.noConfusion h
  | some s1 =>
    rw [h1] at h
    have l1 := matchLit_length h1
    simp only [Option.bind_eq_bind, Option.some_bind] at h
    cases h2 : matchLit (lit "📄 File: ") s1 with
    | none => rw [h2] at h; exact Option.noConfusion h
    | some s2 =>
      rw [h2] at h
      have l2 := matchLit_length h2
      simp only [Option.some_bind] at h
      cases h3 : takeLine s2 with
      | none => rw [h3] at h; exact Option.noConfusion h
      | some pr2 =>
        rw [h3] at h
        have l3 := takeLine_length (g := pr2.1) (r := pr2.2) (by rw [h3])
        simp only [Option.some_bind] at h
        cases h4 : matchLit (lit "📁 Path: ") pr2.2 with
        | none => rw [h4] at h; exact Option.noConfusion h
        | some s4 =>
          rw [h4] at h
          have l4 := matchLit_length h4
          simp only [Option.some_bind] at h
          cases h5 : takeLine s4 with
          | none => rw [h5] at h; exact Option.noConfusion h
          | some pr4 =>
            rw [h5] at h
            have l5 := takeLine_length (g := pr4.1) (r := pr4.2) (by rw [h5])
            simp only [Option.some_bind] at h
            cases h6 : parseHdrTail pr4.2 with
            | none => rw [h6] at h; exact Option.noConfusion h
            | some rest =>
              rw [h6] at h
              have l6 := parseHdrTail_length h6
              simp only [Option.map_some', Option.some.injEq,
                Prod.mk.injEq] at h
              rw [← h.2.2]
              omega

theorem findHdr_length {s q p r : Str}
    (h : findHdr s = some (q, p, r)) : r.length < s.length := by
  induction s generalizing q with
  | nil => exact Option.noConfusion h
  | cons c t ih =>
    simp only [findHdr] at h
    cases hp : parseHdrAt (c :: t) with
    | some pr =>
      simp only [hp, Option.some.injEq, Prod.mk.injEq] at h
      have := parseHdrAt_length (f := pr.1) (p := pr.2.1) (r := pr.2.2)
        (by rw [hp])
      rw [← h.2.2]
      omega
    | none =>
      simp only [hp] at h
      cases hf : findHdr t with
      | none =>
        rw [hf] at h
        exact Option.noConfusion h
      | some tr =>
        rw [hf] at h
        simp only [Option.map_some', Option.some.injEq, Prod.mk.injEq] at h
        have := ih (q := tr.1) (by
          rw [hf]
          exact congrArg some (Prod.ext rfl (Prod.ext h.2.1 h.2.2)))
        simp only [List.length_cons]
        omega

theorem dropWhile_length_le (p : Char → Bool) (l : Str) :
    (l.dropWhile p).length ≤ l.length := by
  induction l with
  | nil => simp
  | cons c t ih =>
    by_cases h : p c
    · rw [List.dropWhile_cons_of_pos h]
      simp only [List.length_cons]
      omega
    · rw [List.dropWhile_cons_of_neg h]

theorem pyRstrip_length_le (s : Str) : (pyRstrip s).length ≤ s.length := by
  unfold pyRstrip
  calc (s.reverse.dropWhile isPyWs).reverse.length
      = (s.reverse.dropWhile isPyWs).length := by simp
    _ ≤ s.reverse.length := dropWhile_length_le _ _
    _ = s.length := by simp

/-- Python list slice file_content[:-81] followed by rstrip, looped while the
stripped content still ends in a newline plus the 80 equals signs line
(trailing separator cleanup of the txt branch). -/
def eqTrim (s : Str) : Str :=
  if ('\n' :: eqLine).isSuffixOf s then
    eqTrim (pyRstrip (s.take (s.length - 81)))
  else s
termination_by s.length
decreasing_by
  simp_wf
  rename_i hsuf
  have hlen : 81 ≤ s.length := by
    have := List.IsSuffix.length_le (List.isSuffixOf_iff_suffix.mp hsuf)
    simpa using this
  have h1 : (pyRstrip (s.take (s.length - 81))).length ≤
      (s.take (s.length - 81)).length := pyRstrip_length_le _
  have h2 : (s.take (s.length - 81)).length = s.length - 81 := by
    simp only [List.length_take]
    omega
  omega

/-- Cleanup applied to one raw txt chunk: strip, then the trailing separator
loop. -/
def cleanChunk (chunk : Str) : Str := eqTrim (pyStrip chunk)

/-- Per-block guard of FileRestorer._extract_file_blocks: a pair is appended
only when both the stripped path and the cleaned content are nonempty. -/
def emitBlock (p fc : Str) (acc : List (Str × Str)) : List (Str × Str) :=
  if p ≠ [] ∧ fc ≠ [] then (p, fc) :: acc else acc

/-- The loop over txt header matches: each chunk reaches from the end of one
match to the start of the next (or to the end of the text). -/
def txtBlocksGo (p rest : Str) : List (Str × Str) :=
  match hf : findHdr rest with
  | none => emitBlock (pyStrip p) (cleanChunk rest) []
  | some (pre, p2, rest2) =>
    emitBlock (pyStrip p) (cleanChunk pre) (txtBlocksGo p2 rest2)
termination_by rest.length
decreasing_by
  simp_wf
  exact findHdr_length hf

/-- TXT branch of FileRestorer._extract_file_blocks. -/
def txtBlocks (s : Str) : List (Str × Str) :=
  match findHdr s with
  | none => []
  | some (_, p, rest) => txtBlocksGo p rest

-- Markdown branch of the block extractor.

/-- Python regex word characters (the ASCII reading of [\w\d]; the only
language tags the serializer emits are ASCII). -/
def isWordChar (c : Char) : Bool := c.isAlphanum || c == '_'

/-- A fence line of the markdown patterns: three backticks, a greedy run of
word characters, then a newline. -/
def mdFence (s : Str) : Option Str :=
  (matchLit (lit "```") s).bind fun s1 =>
  matchLit ['\n'] (s1.drop (s1.takeWhile isWordChar).length)

/-- One or more newlines (greedy) followed by a fence line. -/
def mdNlFence (s : Str) : Option Str :=
  if (s.takeWhile (fun c => c == '\n')).isEmpty then none
  else mdFence (s.drop (s.takeWhile (fun c => c == '\n')).length)

/-- Tail of the markdown header regex after the closing backtick of the path:
the optional status line is tried first, falling back to newlines plus fence
alone. -/
def mdHdrTail (s : Str) : Option Str :=
  match matchLit (lit "\n**Status:** ") s with
  | some s1 =>
    if (s1.takeWhile (fun c => c ≠ '\n')).isEmpty then mdNlFence s
    else
      match mdNlFence (s1.drop (s1.takeWhile (fun c => c ≠ '\n')).length) with
      | some rest => some rest
      | none => mdNlFence s
  | none => mdNlFence s

/-- One attempted match of the markdown file header regex at a line start,
returning the name group, the path group and the text after the match. -/
def parseMdHdrAt (s : Str) : Option (Str × Str × Str) :=
  (matchLit (lit "### 📄 ") s).bind fun s1 =>
  if (s1.takeWhile (fun c => c ≠ '\n')).isEmpty then none
  else
    if ((s1.drop (s1.takeWhile (fun c => c ≠ '\n')).length).takeWhile
        (fun c => c == '\n')).isEmpty then none
    else
      (matchLit (lit "**Path:** `")
        ((s1.drop (s1.takeWhile (fun c => c ≠ '\n')).length).drop
          ((s1.drop (s1.takeWhile (fun c => c ≠ '\n')).length).takeWhile
            (fun c => c == '\n')).length)).bind fun s3 =>
      if (s3.takeWhile (fun c => c ≠ '`')).isEmpty then none
      else
        (matchLit ['`']
          (s3.drop (s3.takeWhile (fun c => c ≠ '`')).length)).bind fun s4 =>
        (mdHdrTail s4).map fun rest =>
          (s1.takeWhile (fun c => c ≠ '\n'),
            s3.takeWhile (fun c => c ≠ '`'), rest)

/-- Leftmost match scan for the markdown header pattern under re.MULTILINE:
matches may start only at the start of the scanned text or right after a
newline. -/
def findMdHdr : Bool → Str → Option (Str × Str × Str)
  | _, [] => none
  | ls, c :: t =>
    match (if ls then parseMdHdrAt (c :: t) else none) with
    | some pr => some ([], pr.2.1, pr.2.2)
    | none => (findMdHdr (c == '\n') t).map (fun r => (c :: r.1, r.2.1, r.2.2))

/-- First occurrence split of a needle: text before it and text after it. -/
def findSubSplit (needle : Str) : Str → Option (Str × Str)
  | [] => if needle.isEmpty then some ([], []) else none
  | c :: t =>
    if needle.isPrefixOf (c :: t) then some ([], (c :: t).drop needle.length)
    else (findSubSplit needle t).map (fun pr => (c :: pr.1, pr.2))

/-- re.search of the inner code block pattern of the md branch: the earliest
fence line with a later closing newline-plus-backticks, returning the second
group (the fenced body). -/
def mdSearch : Str → Option Str
  | [] => none
  | c :: t =>
    match mdFence (c :: t) with
    | some rest =>
      match findSubSplit (lit "\n```") rest with
      | some pr => some pr.1
      | none => mdSearch t
    | none => mdSearch t

/-- Cleanup applied to one raw markdown chunk: strip, unwrap an inner fenced
code block when present (else the startswith-backticks fallback), then strip
trailing backticks, newlines and spaces. -/
def mdClean (chunk : Str) : Str :=
  let fc := pyStrip chunk
  let fc2 :=
    match mdSearch fc with
    | some g2 => g2
    | none =>
      if (lit "```").isPrefixOf fc then
        match findSubSplit (lit "\n```") (fc.drop 3) with
        | some pr => pr.1
        | none => fc.drop 3
      else fc
  (fc2.reverse.dropWhile (fun c => c == '`' || c == '\n' || c == ' ')).reverse

theorem mdHdrTail_length {s r : Str} (h : mdHdrTail s = some r) :
    r.length ≤ s.length := by
  have hfence : ∀ {u v : Str}, mdFence u = some v → v.length < u.length := by
    intro u v hu
    unfold mdFence at hu
    cases h1 : matchLit (lit "```") u with
    | none => rw [h1] at hu; exact Option.noConfusion hu
    | some u1 =>
      rw [h1, Option.some_bind] at hu
      have l1 := matchLit_length h1
      have l2 := matchLit_length hu
      have l3 : (u1.drop (u1.takeWhile isWordChar).length).length ≤
          u1.length := by simp
      simp only [List.length_singleton] at l2
      have : (lit "```").length = 3 := by decide
      omega
  have hnl : ∀ {u v : Str}, mdNlFence u = some v → v.length < u.length := by
    intro u v hu
    unfold mdNlFence at hu
    by_cases hempty : (u.takeWhile (fun c => c == '\n')).isEmpty = true
    · rw [if_pos hempty] at hu
      exact Option.noConfusion hu
    · rw [if_neg hempty] at hu
      have := hfence hu
      have : (u.drop (u.takeWhile (fun c => c == '\n')).length).length ≤
          u.length := by simp
      omega
  unfold mdHdrTail at h
  cases h1 : matchLit (lit "\n**Status:** ") s with
  | none =>
    simp only [h1] at h
    exact Nat.le_of_lt (hnl h)
  | some s1 =>
    simp only [h1] at h
    by_cases hempty : (s1.takeWhile (fun c => c ≠ '\n')).isEmpty = true
    · rw [if_pos hempty] at h
      exact Nat.le_of_lt (hnl h)
    · rw [if_neg hempty] at h
      cases h2 : mdNlFence
          (s1.drop (s1.takeWhile (fun c => c ≠ '\n')).length) with
      | none =>
        simp only [h2] at h
        exact Nat.le_of_lt (hnl h)
      | some rest =>
        simp only [h2, Option.some.injEq] at h
        subst h
        have l1 := matchLit_length h1
        have l2 := hnl h2
        have l3 : ((s1.drop
            (s1.takeWhile (fun c => c ≠ '\n')).length)).length ≤
            s1.length := by simp
        have : (lit "\n**Status:** ").length = 13 := by decide
        omega

theorem parseMdHdrAt_length {s f p r : Str}
    (h : parseMdHdrAt s = some (f, p, r)) : r.length < s.length := by
  unfold parseMdHdrAt at h
  cases h1 : matchLit (lit "### 📄 ") s with
  | none => rw [h1] at h; exact Option.noConfusion h
  | some s1 =>
    rw [h1, Option.some_bind] at h
    have l1 := matchLit_length h1
    by_cases he1 : (s1.takeWhile (fun c => c ≠ '\n')).isEmpty = true
    · rw [if_pos he1] at h
      exact Option.noConfusion h
    · rw [if_neg he1] at h
      by_cases he2 : ((s1.drop (s1.takeWhile (fun c => c ≠ '\n')).length
          ).takeWhile (fun c => c == '\n')).isEmpty = true
      · rw [if_pos he2] at h
        exact Option.noConfusion h
      · rw [if_neg he2] at h
        cases h3 : matchLit (lit "**Path:** `")
            ((s1.drop (s1.takeWhile (fun c => c ≠ '\n')).length).drop
              ((s1.drop (s1.takeWhile (fun c => c ≠ '\n')).length
                ).takeWhile (fun c => c == '\n')).length) with
        | none => rw [h3] at h; exact Option.noConfusion h
        | some s3 =>
          rw [h3, Option.some_bind] at h
          have l3 := matchLit_length h3
          by_cases he3 : (s3.takeWhile (fun c => c ≠ '`')).isEmpty = true
          · rw [if_pos he3] at h
            exact Option.noConfusion h
          · rw [if_neg he3] at h
            cases h4 : matchLit ['`']
                (s3.drop (s3.takeWhile (fun c => c ≠ '`')).length) with
            | none => rw [h4] at h; exact Option.noConfusion h
            | some s4 =>
              rw [h4, Option.some_bind] at h
              have l4 := matchLit_length h4
              cases h5 : mdHdrTail s4 with
              | none => rw [h5] at h; exact Option.noConfusion h
              | some rest =>
                rw [h5] at h
                simp only [Option.map_some', Option.some.injEq,
                  Prod.mk.injEq] at h
                have l5 := mdHdrTail_length h5
                have d2 : ((s1.drop (s1.takeWhile (fun c => c ≠ '\n')).length
                    ).drop ((s1.drop (s1.takeWhile (fun c => c ≠ '\n')).length
                    ).takeWhile (fun c => c == '\n')).length).length ≤
                    s1.length := by
                  simp only [List.length_drop]
                  omega
                have d3 : (s3.drop (s3.takeWhile (fun c => c ≠ '`')).length
                    ).length ≤ s3.length := by
                  simp only [List.length_drop]
                  omega
                have hp : (lit "### 📄 ").length = 6 := by decide
                have hpp : (lit "**Path:** `").length = 11 := by decide
                have hq : (['`'] : Str).length = 1 := by decide
                rw [hq] at l4
                rw [← h.2.2]
                omega

theorem findMdHdr_length {b : Bool} {s q p r : Str}
    (h : findMdHdr b s = some (q, p, r)) : r.length < s.length := by
  induction s generalizing b q with
  | nil => exact Option.noConfusion h
  | cons c t ih =>
    simp only [findMdHdr] at h
    cases hp : (if b then parseMdHdrAt (c :: t) else none) with
    | some pr =>
      simp only [hp, Option.some.injEq, Prod.mk.injEq] at h
      have hps : parseMdHdrAt (c :: t) = some pr := by
        by_cases hls : b = true
        · rw [hls] at hp
          simpa using hp
        · rw [Bool.not_eq_true] at hls
          rw [hls] at hp
          simp at hp
      have := parseMdHdrAt_length (f := pr.1) (p := pr.2.1) (r := pr.2.2)
        (by rw [hps])
      rw [← h.2.2]
      omega
    | none =>
      simp only [hp] at h
      cases hf : findMdHdr (c == '\n') t with
      | none =>
        rw [hf] at h
        exact Option.noConfusion h
      | some tr =>
        rw [hf] at h
        simp only [Option.map_some', Option.some.injEq, Prod.mk.injEq] at h
        have := ih (b := (c == '\n')) (q := tr.1) (by
          rw [hf]
          exact congrArg some (Prod.ext rfl (Prod.ext h.2.1 h.2.2)))
        simp only [List.length_cons]
        omega

/-- The loop over markdown header matches (the text after a match begins
right after the newline of the fence line, hence at a line start). -/
def mdBlocksGo (p rest : Str) : List (Str × Str) :=
  match hf : findMdHdr true rest with
  | none => emitBlock (pyStrip p) (mdClean rest) []
  | some (pre, p2, rest2) =>
    emitBlock (pyStrip p) (mdClean pre) (mdBlocksGo p2 rest2)
termination_by rest.length
decreasing_by
  simp_wf
  exact findMdHdr_length hf

/-- Markdown branch of FileRestorer._extract_file_blocks. -/
def mdBlocks (s : Str) : List (Str × Str) :=
  match findMdHdr true s with
  | none => []
  | some (_, p, rest) => mdBlocksGo p rest

/-- FileRestorer._extract_file_blocks: the markdown branch is chosen when the
markdown file marker occurs anywhere in the text, else the txt branch. -/
def extractFileBlocks (content : Str) : List (Str × Str) :=
  if hasSub (lit "### 📄 ") content then mdBlocks content
  else txtBlocks content

-- FileRestorer.restore_files.

/-- Python str.find based slice content[content.find(marker):], as an option
(None when the marker does not occur). -/
def sliceFromMarker (marker : Str) : Str → Option Str
  | [] => if marker.isEmpty then some [] else none
  | c :: t =>
    if marker.isPrefixOf (c :: t) then some (c :: t)
    else sliceFromMarker marker t

/-- Result of one restore run: overall success flag and message as returned
by restore_files, plus the (relative path, content) pairs actually written
under the output directory. -/
structure RestoreRes where
  success : Bool
  message : Str
  written : List (Str × Str)

/-- FileRestorer.restore_files without cancellation: the input is the read
merge file text or the text of the read exception; writeOk tells whether
writing the i-th block succeeds (a failing write is logged and skipped, the
loop continues).  Restored count and total count appear in the success
message. -/
def restoreFiles (input : Except Str Str) (writeOk : Nat → Bool) :
    RestoreRes :=
  match input with
  | .error e => ⟨false, lit "Could not read merge file: " ++ e, []⟩
  | .ok content =>
    match sliceFromMarker (lit "File Contents") content with
    | none =>
      ⟨false, lit "Could not find " ++ sq :: lit "File Contents" ++
        sq :: lit " section in merge file", []⟩
    | some relevant =>
      if (extractFileBlocks relevant).isEmpty then
        ⟨false, lit "No files found to restore", []⟩
      else
        ⟨true, lit "Successfully restored " ++
          natToStr (((extractFileBlocks relevant).enum.filter
            (fun ib => writeOk ib.1)).map (fun ib => ib.2)).length ++
          lit " of " ++
          natToStr (extractFileBlocks relevant).length ++
          lit " files",
          ((extractFileBlocks relevant).enum.filter
            (fun ib => writeOk ib.1)).map (fun ib => ib.2)⟩

theorem emitBlock_mem {p fc : Str} {acc : List (Str × Str)}
    {pr : Str × Str} (h : pr ∈ emitBlock p fc acc) :
    (pr = (p, fc) ∧ p ≠ [] ∧ fc ≠ []) ∨ pr ∈ acc := by
  unfold emitBlock at h
  by_cases hg : p ≠ [] ∧ fc ≠ []
  · rw [if_pos hg] at h
    rcases List.mem_cons.mp h with h | h
    · exact Or.inl ⟨h, hg⟩
    · exact Or.inr h
  · rw [if_neg hg] at h
    exact Or.inr h

theorem txtBlocksGo_nonempty (p rest : Str) :
    ∀ pr ∈ txtBlocksGo p rest, pr.1 ≠ [] ∧ pr.2 ≠ [] := by
  induction p, rest using txtBlocksGo.induct with
  | case1 p rest hf =>
    intro pr hpr
    rw [txtBlocksGo, hf] at hpr
    rcases emitBlock_mem hpr with ⟨heq, hp, hc⟩ | habs
    · subst heq
      exact ⟨hp, hc⟩
    · exact absurd habs (List.not_mem_nil pr)
  | case2 p rest pre p2 rest2 hf ih =>
    intro pr hpr
    rw [txtBlocksGo, hf] at hpr
    rcases emitBlock_mem hpr with ⟨heq, hp, hc⟩ | htail
    · subst heq
      exact ⟨hp, hc⟩
    · exact ih pr htail

theorem mdBlocksGo_nonempty (p rest : Str) :
    ∀ pr ∈ mdBlocksGo p rest, pr.1 ≠ [] ∧ pr.2 ≠ [] := by
  induction p, rest using mdBlocksGo.induct with
  | case1 p rest hf =>
    intro pr hpr
    rw [mdBlocksGo, hf] at hpr
    rcases emitBlock_mem hpr with ⟨heq, hp, hc⟩ | habs
    · subst heq
      exact ⟨hp, hc⟩
    · exact absurd habs (List.not_mem_nil pr)
  | case2 p rest pre p2 rest2 hf ih =>
    intro pr hpr
    rw [mdBlocksGo, hf] at hpr
    rcases emitBlock_mem hpr with ⟨heq, hp, hc⟩ | htail
    · subst heq
      exact ⟨hp, hc⟩
    · exact ih pr htail

unseal mdBlocksGo in
/-- C9 counterexample: a crafted markdown artifact whose fenced body is
whitespace only.  The inner code block search of the md branch replaces the
stripped chunk by the raw fenced body, and the final rstrip removes only
backticks, newlines and spaces, so a tab survives: the extractor emits a pair
whose content is nonempty but strips to empty, against the claimed
non-emptiness after stripping. -/
theorem c9_counterexample :
    extractFileBlocks
        (lit "### 📄 a\n**Path:** `p`\n```\nx\n```\n \t \n```") =
      [(lit "p", lit " \t")] ∧
    pyStrip (lit " \t") = [] := by
  constructor
  · decide
  · decide

/-- C9 (amended, corrected): every pair produced by the restore block
extractor has a nonempty path and nonempty content (the guard before
appending), so restore never writes a file with empty content and empty,
whitespace-only or status-only blocks are dropped; but in the markdown branch
the content can be whitespace irreducible to nonempty by stripping (see the
counterexample), so non-emptiness after stripping holds only for the path
group, which the extractor itself strips. -/
theorem c9_extracted_blocks_nonempty (s : Str) :
    ∀ pr ∈ extractFileBlocks s, pr.1 ≠ [] ∧ pr.2 ≠ [] := by
  intro pr hpr
  unfold extractFileBlocks at hpr
  by_cases hmd : hasSub (lit "### 📄 ") s = true
  · rw [if_pos hmd] at hpr
    unfold mdBlocks at hpr
    cases hf : findMdHdr true s with
    | none =>
      rw [hf] at hpr
      exact absurd hpr (List.not_mem_nil pr)
    | some tr =>
      rw [hf] at hpr
      exact mdBlocksGo_nonempty tr.2.1 tr.2.2 pr hpr
  · rw [if_neg hmd] at hpr
    unfold txtBlocks at hpr
    cases hf : findHdr s with
    | none =>
      rw [hf] at hpr
      exact absurd hpr (List.not_mem_nil pr)
    | some tr =>
      rw [hf] at hpr
      exact txtBlocksGo_nonempty tr.2.1 tr.2.2 pr hpr

/-- Witness for C9: the block extracted from the counterexample artifact has
nonempty path and content. -/
theorem c9_extracted_blocks_nonempty_witness :
    (lit "p", lit " \t").1 ≠ [] ∧ (lit "p", lit " \t").2 ≠ [] :=
  c9_extracted_blocks_nonempty
    (lit "### 📄 a\n**Path:** `p`\n```\nx\n```\n \t \n```")
    (lit "p", lit " \t") (by rw [c9_counterexample.1]; exact List.mem_singleton.mpr rfl)

/-- C7 (confirmed): an unreadable artifact, a missing File Contents marker
and zero extracted blocks each yield an overall failure with its descriptive
message; otherwise the run succeeds, every block is attempted in order, and
exactly the blocks whose write succeeds are written and counted. -/
theorem c7_restore_failure_modes :
    (∀ (e : Str) (w : Nat → Bool),
      restoreFiles (Except.error e) w =
        ⟨false, lit "Could not read merge file: " ++ e, []⟩) ∧
    (∀ (content : Str) (w : Nat → Bool),
      sliceFromMarker (lit "File Contents") content = none →
      restoreFiles (Except.ok content) w =
        ⟨false, lit "Could not find " ++ sq :: lit "File Contents" ++
          sq :: lit " section in merge file", []⟩) ∧
    (∀ (content relevant : Str) (w : Nat → Bool),
      sliceFromMarker (lit "File Contents") content = some relevant →
      extractFileBlocks relevant = [] →
      restoreFiles (Except.ok content) w =
        ⟨false, lit "No files found to restore", []⟩) ∧
    (∀ (content relevant : Str) (w : Nat → Bool),
      sliceFromMarker (lit "File Contents") content = some relevant →
      extractFileBlocks relevant ≠ [] →
      restoreFiles (Except.ok content) w =
        ⟨true, lit "Successfully restored " ++
          natToStr (((extractFileBlocks relevant).enum.filter
            (fun ib => w ib.1)).map (fun ib => ib.2)).length ++
          lit " of " ++
          natToStr (extractFileBlocks relevant).length ++
          lit " files",
          ((extractFileBlocks relevant).enum.filter
            (fun ib => w ib.1)).map (fun ib => ib.2)⟩) := by
  refine ⟨fun e w => rfl, fun content w h => ?_, ?_, ?_⟩
  · unfold restoreFiles
    simp only [h]
  · intro content relevant w h1 h2
    unfold restoreFiles
    simp only [h1]
    rw [if_pos (by rw [h2]; rfl)]
  · intro content relevant w h1 h2
    unfold restoreFiles
    simp only [h1]
    rw [if_neg (by simpa [List.isEmpty_iff] using h2)]

/-- Witness for C7: restoring a text without the File Contents marker fails
with the descriptive message. -/
theorem c7_restore_failure_modes_witness :
    restoreFiles (Except.ok (lit "hello")) (fun _ => true) =
      ⟨false, lit "Could not find " ++ sq :: lit "File Contents" ++
        sq :: lit " section in merge file", []⟩ :=
  c7_restore_failure_modes.2.1 (lit "hello") (fun _ => true) (by decide)

-- Tree loader ordering: TreeLoaderThread.load_tree_data together with the
-- chunk sort of FileMergerApp.update_tree_data.

/-- Raw filesystem contents handed to the loader by os.walk. -/
inductive RawFS where
  | file (name : Str) (content : Str) (size : Nat)
  | dir (name : Str) (entries : List RawFS)

def RawFS.rname : RawFS → Str
  | .file n _ _ => n
  | .dir n _ => n

def RawFS.isDirR : RawFS → Bool
  | .file _ _ _ => false
  | .dir _ _ => true

/-- Python str.lower (ASCII model of unicode lowercasing; the only characters
interpreted by any theorem are ASCII). -/
def pyLower (s : Str) : Str := s.map Char.toLower

/-- Python string comparison: lexicographic on code points. -/
def strLe : Str → Str → Bool
  | [], _ => true
  | _ :: _, [] => false
  | a :: as, b :: bs => if a = b then strLe as bs else decide (a < b)

/-- Stable insertion of one element after all existing elements that compare
at or below it. -/
def insertLe (le : α → α → Bool) (x : α) : List α → List α
  | [] => [x]
  | y :: ys => if le y x then y :: insertLe le x ys else x :: y :: ys

/-- Stable sort by repeated insertion from the left; any stable sort (such as
the Timsort behind Python sorted) produces the same list for a total
preorder. -/
def stableSort (le : α → α → Bool) (l : List α) : List α :=
  l.foldl (fun acc x => insertLe le x acc) []

/-- One tree_data entry as _create_item_data builds it, with the fields the
chunk sort and the insertion logic read: base name, full path, parent path
and kind. -/
structure QItem where
  name : Str
  path : Str
  parentPath : Str
  isDir : Bool

/-- POSIX os.path.join of a directory path and a base name. -/
def joinP (p n : Str) : Str := p ++ '/' :: n

/-- The key order of sorted(..., key=str.lower) on names. -/
def lowLe (a b : Str) : Bool := strLe (pyLower a) (pyLower b)

/-- The key order of the chunk sort, tuple key (not is_dir, name.lower()):
directories before files, inside one kind by lowercased name. -/
def qLe (a b : QItem) : Bool :=
  if a.isDir == b.isDir then lowLe a.name b.name else a.isDir

/-- The child ordering the claim asserts for two adjacent children: a
directory never follows a file, and inside one kind the case-insensitive
names are ordered. -/
def qOrderedPair (a b : QItem) : Prop :=
  (a.isDir = false → b.isDir = false) ∧
  (a.isDir = b.isDir → lowLe a.name b.name = true)

/-- The items one os.walk step at path p emits, in load_tree_data order:
retained directories sorted by lowercased name, then files sorted by
lowercased name with ignored names skipped after sorting (the directory
filter runs before its sort, the file filter inside the emission loop). -/
def stepItems (ign : List Str) (ih : Bool) (p : Str) (es : List RawFS) :
    List QItem :=
  (stableSort lowLe ((es.filter (fun e => e.isDirR &&
      !should_ignore_path ign ih (joinP p e.rname))).map RawFS.rname)).map
    (fun n => QItem.mk n (joinP p n) p true) ++
  ((stableSort lowLe ((es.filter (fun e => !e.isDirR)).map
      RawFS.rname)).filter
    (fun n => !should_ignore_path ign ih (joinP p n))).map
    (fun n => QItem.mk n (joinP p n) p false)

mutual

/-- The walk steps below one raw entry, topdown: a directory contributes its
own step and then the steps of its retained subdirectories in raw order
(the in-place dirs filter prunes ignored directories from traversal; the
per-step emission sort does not reorder the traversal itself). -/
def walkN (ign : List Str) (ih : Bool) (p : Str) : RawFS → List (List QItem)
  | .file _ _ _ => []
  | .dir n es =>
    stepItems ign ih (joinP p n) es :: walkK ign ih (joinP p n) es

def walkK (ign : List Str) (ih : Bool) (p : Str) :
    List RawFS → List (List QItem)
  | [] => []
  | e :: es =>
    (if e.isDirR && !should_ignore_path ign ih (joinP p e.rname) then
      walkN ign ih p e else []) ++ walkK ign ih p es

end

/-- All the walk steps of one scan: the root step, then the subtree steps. -/
def walkAll (ign : List Str) (ih : Bool) (root : Str) (es : List RawFS) :
    List (List QItem) :=
  stepItems ign ih root es :: walkK ign ih root es

/-- The chunking of load_tree_data: items accumulate across walk steps and
are flushed as one chunk once at least 100 are buffered (one step is never
split), and a nonempty remainder is flushed at the end. -/
def chunkify (buf : List QItem) : List (List QItem) → List (List QItem)
  | [] => if buf.isEmpty then [] else [buf]
  | step :: rest =>
    if 100 ≤ (buf ++ step).length then (buf ++ step) :: chunkify [] rest
    else chunkify (buf ++ step) rest

/-- The widget state update_tree_data threads: the items_by_path keys, the
attached children of every item in attach order, the top level items, and
the pending list. -/
structure TState where
  created : List Str
  kids : List (Str × List Str)
  top : List Str
  pending : List (Str × Str)

/-- The attached children recorded for one path (none before any attach). -/
def kidsOf (m : List (Str × List Str)) (p : Str) : List Str :=
  match m with
  | [] => []
  | (q, l) :: rest => if q = p then l else kidsOf rest p

/-- QTreeWidgetItem.addChild: append one child to a parent's children. -/
def addKid : List (Str × List Str) → Str → Str → List (Str × List Str)
  | [], p, c => [(p, [c])]
  | (q, l) :: rest, p, c =>
    if q = p then (q, l ++ [c]) :: rest else (q, l) :: addKid rest p c

/-- One iteration of the update_tree_data loop: a child of the root becomes
a top level item, an item whose parent is already in items_by_path is
attached to it, any other item is deferred to the pending list; the item is
registered in items_by_path in every case. -/
def procItem (root : Str) (st : TState) (it : QItem) : TState :=
  if it.parentPath = root then
    ⟨st.created ++ [it.path], st.kids, st.top ++ [it.path], st.pending⟩
  else if it.parentPath ∈ st.created then
    ⟨st.created ++ [it.path], addKid st.kids it.parentPath it.path, st.top,
      st.pending⟩
  else
    ⟨st.created ++ [it.path], st.kids, st.top,
      st.pending ++ [(it.path, it.parentPath)]⟩

/-- One pass of process_pending_items over the pending list: every entry
whose parent item now exists is attached, the others are kept in order. -/
def sweepGo (created : List Str) (kids : List (Str × List Str)) :
    List (Str × Str) → List (Str × List Str) × List (Str × Str)
  | [] => (kids, [])
  | (c, p) :: rest =>
    if p ∈ created then sweepGo created (addKid kids p c) rest
    else ((sweepGo created kids rest).1,
      (c, p) :: (sweepGo created kids rest).2)

def sweep (st : TState) : TState :=
  ⟨st.created, (sweepGo st.created st.kids st.pending).1, st.top,
    (sweepGo st.created st.kids st.pending).2⟩

/-- update_tree_data on one chunk: sort the chunk by (not is_dir, lowercased
name), run the insertion loop, then the pending pass. -/
def procChunk (root : Str) (st : TState) (c : List QItem) : TState :=
  sweep ((stableSort qLe c).foldl (procItem root) st)

/-- The whole load: every chunk in arrival order, then the final pending
pass of finalize_tree_building. -/
def procChunks (root : Str) (st : TState) (cs : List (List QItem)) :
    TState :=
  sweep (cs.foldl (procChunk root) st)

def initState : TState := ⟨[], [], [], []⟩

/-- End to end load: scan the raw tree, chunk the walk output, build the
widget state. -/
def loadState (ign : List Str) (ih : Bool) (root : Str) (es : List RawFS) :
    TState :=
  procChunks root initState (chunkify [] (walkAll ign ih root es))

/-- One emitted file of the content pass, with the parameters the serializer
passes to _write_single_file. -/
structure Emit where
  name : Str
  rel : Str
  content : Str
  size : Nat

mutual

/-- The ordered list of files the content pass visits: checked files in tree
order, descending into every not unchecked directory. -/
def emissionN (pfx : Str) : FTree → List Emit
  | .file n st c sz =>
    if st = CheckSt.checked then [⟨n, pfx ++ n, c, sz⟩] else []
  | .dir n st cs =>
    if st ≠ CheckSt.unchecked then emissionK (pfx ++ n ++ lit "/") cs else []

def emissionK (pfx : Str) : List FTree → List Emit
  | [] => []
  | t :: ts => emissionN pfx t ++ emissionK pfx ts

end

def renderEmit (o : POpts) (e : Emit) : Str :=
  writeSingleFile o e.name e.rel e.content e.size

-- Order lemmas.

theorem strLe_total (a b : Str) : strLe a b = true ∨ strLe b a = true := by
  induction a generalizing b with
  | nil => exact Or.inl rfl
  | cons x xs ih =>
    cases b with
    | nil => exact Or.inr rfl
    | cons y ys =>
      by_cases hxy : x = y
      · subst hxy
        simp only [strLe, if_pos rfl]
        exact ih ys
      · rcases lt_trichotomy x y with hlt | heq | hgt
        · left
          simp only [strLe, if_neg hxy]
          exact decide_eq_true hlt
        · exact absurd heq hxy
        · right
          simp only [strLe, if_neg (Ne.symm hxy)]
          exact decide_eq_true hgt

theorem strLe_trans {a b c : Str} (h1 : strLe a b = true)
    (h2 : strLe b c = true) : strLe a c = true := by
  induction a generalizing b c with
  | nil => rfl
  | cons x xs ih =>
    cases b with
    | nil => exact Bool.noConfusion h1
    | cons y ys =>
      cases c with
      | nil => exact Bool.noConfusion h2
      | cons z zs =>
        simp only [strLe] at h1 h2 ⊢
        by_cases hxy : x = y
        · rw [if_pos hxy] at h1
          by_cases hyz : y = z
          · rw [if_pos hyz] at h2
            rw [if_pos (hxy.trans hyz)]
            exact ih h1 h2
          · rw [if_neg hyz] at h2
            have hltyz : y < z := of_decide_eq_true h2
            have hxz : x ≠ z := by
              subst hxy
              exact hyz
            rw [if_neg hxz]
            subst hxy
            exact decide_eq_true hltyz
        · rw [if_neg hxy] at h1
          have hltxy : x < y := of_decide_eq_true h1
          by_cases hyz : y = z
          · subst hyz
            rw [if_neg hxy]
            exact decide_eq_true hltxy
          · rw [if_neg hyz] at h2
            have hltyz : y < z := of_decide_eq_true h2
            have hltxz : x < z := lt_trans hltxy hltyz
            rw [if_neg (ne_of_lt hltxz)]
            exact decide_eq_true hltxz

theorem lowLe_total (a b : Str) : lowLe a b = true ∨ lowLe b a = true :=
  strLe_total _ _

theorem lowLe_trans {a b c : Str} (h1 : lowLe a b = true)
    (h2 : lowLe b c = true) : lowLe a c = true :=
  strLe_trans h1 h2

theorem qLe_total (a b : QItem) : qLe a b = true ∨ qLe b a = true := by
  unfold qLe
  by_cases h : a.isDir = b.isDir
  · rw [if_pos (beq_iff_eq.mpr h), if_pos (beq_iff_eq.mpr h.symm)]
    exact lowLe_total _ _
  · rw [if_neg (fun hc => h (beq_iff_eq.mp hc)),
      if_neg (fun hc => h (beq_iff_eq.mp hc).symm)]
    cases ha : a.isDir
    · cases hb : b.isDir
      · exact absurd (ha.trans hb.symm) h
      · exact Or.inr rfl
    · exact Or.inl rfl

theorem qLe_trans {a b c : QItem} (h1 : qLe a b = true)
    (h2 : qLe b c = true) : qLe a c = true := by
  unfold qLe at h1 h2 ⊢
  by_cases hab : a.isDir = b.isDir
  · rw [if_pos (beq_iff_eq.mpr hab)] at h1
    by_cases hbc : b.isDir = c.isDir
    · rw [if_pos (beq_iff_eq.mpr hbc)] at h2
      rw [if_pos (beq_iff_eq.mpr (hab.trans hbc))]
      exact lowLe_trans h1 h2
    · rw [if_neg (fun hc => hbc (beq_iff_eq.mp hc))] at h2
      rw [if_neg (fun hc => hbc (hab.symm.trans (beq_iff_eq.mp hc)))]
      exact hab.trans h2
  · rw [if_neg (fun hc => hab (beq_iff_eq.mp hc))] at h1
    have hbf : b.isDir = false := by
      cases hb : b.isDir
      · rfl
      · exact absurd (h1.trans hb.symm) hab
    by_cases hbc : b.isDir = c.isDir
    · have hcf : c.isDir = false := hbc.symm.trans hbf
      rw [if_neg (fun hc2 => by
        rw [beq_iff_eq.mp hc2, hcf] at h1
        exact Bool.noConfusion h1)]
      exact h1
    · rw [if_neg (fun hc2 => hbc (beq_iff_eq.mp hc2))] at h2
      rw [hbf] at h2
      exact Bool.noConfusion h2

theorem qLe_imp_ordered {a b : QItem} (h : qLe a b = true) :
    qOrderedPair a b := by
  unfold qLe at h
  by_cases hab : a.isDir = b.isDir
  · rw [if_pos (beq_iff_eq.mpr hab)] at h
    exact ⟨fun ha => hab.symm.trans ha, fun _ => h⟩
  · rw [if_neg (fun hc => hab (beq_iff_eq.mp hc))] at h
    exact ⟨fun ha => Bool.noConfusion (ha.symm.trans h),
      fun he => absurd he hab⟩

theorem mem_insertLe {le : α → α → Bool} {x a : α} :
    ∀ {l : List α}, a ∈ insertLe le x l ↔ a = x ∨ a ∈ l := by
  intro l
  induction l with
  | nil => simp [insertLe]
  | cons y ys ih =>
    unfold insertLe
    by_cases hle : le y x = true
    · rw [if_pos hle, List.mem_cons, ih, List.mem_cons]
      tauto
    · rw [if_neg hle, List.mem_cons, List.mem_cons]

theorem insertLe_pairwise {le : α → α → Bool}
    (htot : ∀ a b, le a b = true ∨ le b a = true)
    (htrans : ∀ {a b c}, le a b = true → le b c = true → le a c = true)
    (x : α) :
    ∀ {l : List α}, l.Pairwise (fun a b => le a b = true) →
      (insertLe le x l).Pairwise (fun a b => le a b = true) := by
  intro l
  induction l with
  | nil =>
    intro _
    exact List.pairwise_singleton _ x
  | cons y ys ih =>
    intro hp
    rcases List.pairwise_cons.mp hp with ⟨hy, hys⟩
    unfold insertLe
    by_cases hle : le y x = true
    · rw [if_pos hle]
      refine List.pairwise_cons.mpr ⟨?_, ih hys⟩
      intro a ha
      rcases mem_insertLe.mp ha with rfl | ha
      · exact hle
      · exact hy a ha
    · rw [if_neg hle]
      have hxy : le x y = true := by
        rcases htot x y with h | h
        · exact h
        · exact absurd h hle
      refine List.pairwise_cons.mpr ⟨?_, hp⟩
      intro a ha
      rcases List.mem_cons.mp ha with rfl | ha
      · exact hxy
      · exact htrans hxy (hy a ha)

theorem mem_stableSort {le : α → α → Bool} {l : List α} {a : α} :
    a ∈ stableSort le l ↔ a ∈ l := by
  suffices h : ∀ (l : List α) (acc : List α),
      ∀ x, x ∈ l.foldl (fun acc x => insertLe le x acc) acc ↔
        x ∈ acc ∨ x ∈ l by
    unfold stableSort
    rw [h l []]
    simp
  intro l
  induction l with
  | nil => simp
  | cons y ys ih =>
    intro acc x
    simp only [List.foldl_cons, ih, mem_insertLe, List.mem_cons]
    tauto

theorem stableSort_pairwise {le : α → α → Bool}
    (htot : ∀ a b, le a b = true ∨ le b a = true)
    (htrans : ∀ {a b c}, le a b = true → le b c = true → le a c = true)
    (l : List α) :
    (stableSort le l).Pairwise (fun a b => le a b = true) := by
  suffices h : ∀ (l : List α) (acc : List α),
      acc.Pairwise (fun a b => le a b = true) →
      (l.foldl (fun acc x => insertLe le x acc) acc).Pairwise
        (fun a b => le a b = true) from
    h l [] List.Pairwise.nil
  intro l
  induction l with
  | nil =>
    intro acc h
    exact h
  | cons y ys ih =>
    intro acc h
    exact ih _ (insertLe_pairwise htot htrans y h)

theorem kidsOf_addKid_self (m : List (Str × List Str)) (p c : Str) :
    kidsOf (addKid m p c) p = kidsOf m p ++ [c] := by
  induction m with
  | nil => simp [addKid, kidsOf]
  | cons e rest ih =>
    rcases e with ⟨q, l⟩
    by_cases hq : q = p
    · simp only [addKid, if_pos hq, kidsOf]
    · simp only [addKid, if_neg hq, kidsOf]
      exact ih

theorem kidsOf_addKid_other {q p : Str} (hne : q ≠ p)
    (m : List (Str × List Str)) (c : Str) :
    kidsOf (addKid m q c) p = kidsOf m p := by
  induction m with
  | nil =>
    simp only [addKid, kidsOf]
    rw [if_neg hne]
  | cons e rest ih =>
    rcases e with ⟨r, l⟩
    by_cases hr : r = q
    · simp only [addKid, if_pos hr, kidsOf]
      rw [if_neg (fun hrp => hne (hr.symm.trans hrp)),
        if_neg (fun hrp => hne (hr.symm.trans hrp))]
    · simp only [addKid, if_neg hr, kidsOf]
      by_cases hrp : r = p
      · rw [if_pos hrp, if_pos hrp]
      · rw [if_neg hrp, if_neg hrp]
        exact ih

theorem procItem_created (root : Str) (st : TState) (it : QItem) :
    (procItem root st it).created = st.created ++ [it.path] := by
  unfold procItem
  by_cases h1 : it.parentPath = root
  · rw [if_pos h1]
  · rw [if_neg h1]
    by_cases h2 : it.parentPath ∈ st.created
    · rw [if_pos h2]
    · rw [if_neg h2]

theorem kidsOf_foldl (root p : Str) (hne : p ≠ root) :
    ∀ (S : List QItem) (st : TState), p ∈ st.created →
      kidsOf ((S.foldl (procItem root) st).kids) p =
        kidsOf st.kids p ++
          (S.filter (fun it => it.parentPath == p)).map QItem.path := by
  intro S
  induction S with
  | nil =>
    intro st hp
    simp
  | cons it S ih =>
    intro st hp
    rw [List.foldl_cons]
    by_cases h1 : it.parentPath = root
    · rw [show procItem root st it = TState.mk (st.created ++ [it.path])
        st.kids (st.top ++ [it.path]) st.pending by
          unfold procItem; rw [if_pos h1]]
      rw [ih (TState.mk (st.created ++ [it.path]) st.kids
        (st.top ++ [it.path]) st.pending) (List.mem_append_left _ hp)]
      rw [List.filter_cons_of_neg (p := fun it2 : QItem =>
          it2.parentPath == p)
        (fun hc => hne ((beq_iff_eq.mp hc).symm.trans h1))]
    · by_cases h2 : it.parentPath ∈ st.created
      · rw [show procItem root st it = TState.mk (st.created ++ [it.path])
          (addKid st.kids it.parentPath it.path) st.top st.pending by
            unfold procItem; rw [if_neg h1, if_pos h2]]
        rw [ih (TState.mk (st.created ++ [it.path])
          (addKid st.kids it.parentPath it.path) st.top st.pending)
          (List.mem_append_left _ hp)]
        by_cases h3 : it.parentPath = p
        · rw [List.filter_cons_of_pos (p := fun it2 : QItem =>
              it2.parentPath == p) (beq_iff_eq.mpr h3)]
          rw [h3, kidsOf_addKid_self]
          simp [List.append_assoc]
        · rw [List.filter_cons_of_neg (p := fun it2 : QItem =>
              it2.parentPath == p) (fun hc => h3 (beq_iff_eq.mp hc))]
          rw [kidsOf_addKid_other h3]
      · have h3 : it.parentPath ≠ p := fun he => h2 (by rw [he]; exact hp)
        rw [show procItem root st it = TState.mk (st.created ++ [it.path])
          st.kids st.top (st.pending ++ [(it.path, it.parentPath)]) by
            unfold procItem; rw [if_neg h1, if_neg h2]]
        rw [ih (TState.mk (st.created ++ [it.path]) st.kids st.top
          (st.pending ++ [(it.path, it.parentPath)]))
          (List.mem_append_left _ hp)]
        rw [List.filter_cons_of_neg (p := fun it2 : QItem =>
            it2.parentPath == p) (fun hc => h3 (beq_iff_eq.mp hc))]

theorem pending_foldl (root p : Str) :
    ∀ (S : List QItem) (st : TState), p ∈ st.created →
      (∀ pr ∈ st.pending, pr.2 ≠ p) →
      ∀ pr ∈ (S.foldl (procItem root) st).pending, pr.2 ≠ p := by
  intro S
  induction S with
  | nil =>
    intro st hp hpend
    exact hpend
  | cons it S ih =>
    intro st hp hpend
    rw [List.foldl_cons]
    by_cases h1 : it.parentPath = root
    · rw [show procItem root st it = TState.mk (st.created ++ [it.path])
        st.kids (st.top ++ [it.path]) st.pending by
          unfold procItem; rw [if_pos h1]]
      exact ih _ (List.mem_append_left _ hp) hpend
    · by_cases h2 : it.parentPath ∈ st.created
      · rw [show procItem root st it = TState.mk (st.created ++ [it.path])
          (addKid st.kids it.parentPath it.path) st.top st.pending by
            unfold procItem; rw [if_neg h1, if_pos h2]]
        exact ih _ (List.mem_append_left _ hp) hpend
      · rw [show procItem root st it = TState.mk (st.created ++ [it.path])
          st.kids st.top (st.pending ++ [(it.path, it.parentPath)]) by
            unfold procItem; rw [if_neg h1, if_neg h2]]
        refine ih _ (List.mem_append_left _ hp) ?_
        intro pr hpr
        rcases List.mem_append.mp hpr with h | h
        · exact hpend pr h
        · rcases List.mem_singleton.mp h with rfl
          intro he
          have he2 : it.parentPath = p := he
          exact h2 (by rw [he2]; exact hp)

theorem kidsOf_sweepGo (created : List Str) (p : Str) :
    ∀ (pend : List (Str × Str)) (kids : List (Str × List Str)),
      (∀ pr ∈ pend, pr.2 ≠ p) →
      kidsOf (sweepGo created kids pend).1 p = kidsOf kids p := by
  intro pend
  induction pend with
  | nil =>
    intro kids h
    rfl
  | cons pr rest ih =>
    rcases pr with ⟨c, q⟩
    intro kids h
    have hq : q ≠ p := h (c, q) (List.mem_cons_self _ _)
    by_cases hc : q ∈ created
    · rw [show sweepGo created kids ((c, q) :: rest) =
        (if q ∈ created then sweepGo created (addKid kids q c) rest
         else ((sweepGo created kids rest).1,
           (c, q) :: (sweepGo created kids rest).2)) from rfl,
        if_pos hc]
      rw [ih _ (fun pr2 hpr2 => h pr2 (List.mem_cons_of_mem _ hpr2)),
        kidsOf_addKid_other hq]
    · rw [show sweepGo created kids ((c, q) :: rest) =
        (if q ∈ created then sweepGo created (addKid kids q c) rest
         else ((sweepGo created kids rest).1,
           (c, q) :: (sweepGo created kids rest).2)) from rfl,
        if_neg hc]
      exact ih _ (fun pr2 hpr2 => h pr2 (List.mem_cons_of_mem _ hpr2))

theorem writeFilesKids_eq_emission (o : POpts) (pfx : Str)
    (ts : List FTree) :
    writeFilesKids o pfx ts =
      (emissionK pfx ts).foldr (fun e acc => renderEmit o e ++ acc) [] := by
  have hfoldr : ∀ (xs ys : List Emit),
      (xs ++ ys).foldr (fun e acc => renderEmit o e ++ acc) [] =
      xs.foldr (fun e acc => renderEmit o e ++ acc) [] ++
        ys.foldr (fun e acc => renderEmit o e ++ acc) [] := by
    intro xs ys
    induction xs with
    | nil => rfl
    | cons x xs ihx =>
      simp only [List.cons_append, List.foldr_cons, ihx, List.append_assoc]
  have main : ∀ (t : FTree) (pfx : Str), writeFilesNode o pfx t =
      (emissionN pfx t).foldr (fun e acc => renderEmit o e ++ acc) [] := by
    intro t
    induction t using FTree.rec (motive_2 := fun ts => ∀ pfx : Str,
        writeFilesKids o pfx ts =
          (emissionK pfx ts).foldr (fun e acc => renderEmit o e ++ acc) [])
      with
    | file n st c sz =>
      intro pfx
      rw [show writeFilesNode o pfx (FTree.file n st c sz) =
        (if st = CheckSt.checked then
          writeSingleFile o n (pfx ++ n) c sz else []) from rfl]
      rw [show emissionN pfx (FTree.file n st c sz) =
        (if st = CheckSt.checked then
          [Emit.mk n (pfx ++ n) c sz] else []) from rfl]
      by_cases hst : st = CheckSt.checked
      · rw [if_pos hst, if_pos hst]
        simp [renderEmit]
      · rw [if_neg hst, if_neg hst]
        rfl
    | dir n st cs ihcs =>
      intro pfx
      rw [show writeFilesNode o pfx (FTree.dir n st cs) =
        (if st ≠ CheckSt.unchecked then
          writeFilesKids o (pfx ++ n ++ lit "/") cs else []) from rfl]
      rw [show emissionN pfx (FTree.dir n st cs) =
        (if st ≠ CheckSt.unchecked then
          emissionK (pfx ++ n ++ lit "/") cs else []) from rfl]
      by_cases hst : st ≠ CheckSt.unchecked
      · rw [if_pos hst, if_pos hst]
        exact ihcs _
      · rw [if_neg hst, if_neg hst]
        rfl
    | nil =>
      rename_i pfx2
      rfl
    | cons t ts iht ihts =>
      rename_i pfx2
      rw [show writeFilesKids o pfx2 (t :: ts) =
        writeFilesNode o pfx2 t ++ writeFilesKids o pfx2 ts from rfl]
      rw [show emissionK pfx2 (t :: ts) =
        emissionN pfx2 t ++ emissionK pfx2 ts from rfl]
      rw [hfoldr, iht, ihts]
  induction ts with
  | nil => rfl
  | cons t ts ihts =>
    rw [show writeFilesKids o pfx (t :: ts) =
      writeFilesNode o pfx t ++ writeFilesKids o pfx ts from rfl]
    rw [show emissionK pfx (t :: ts) =
      emissionN pfx t ++ emissionK pfx ts from rfl]
    rw [hfoldr, main, ihts]

/-- C8 (corrected): deterministic serialization.  First, with the directory
contents and selection unchanged, two serialization passes differ at most in
the generation timestamp of the header: everything from the tree manifest
section on, hence in particular the manifest, is byte-identical.  Second,
the children a directory receives from one chunk of the loader — when the
directory's own item already exists and no pending entry targets it — are
exactly that chunk's items for this parent in chunk sort order: directories
first, then case-insensitive name order; the counterexample shows this
ordering fails when the directory shares a chunk with a child that sorts
before it.  Third, within one pass the content section is the
concatenation, in tree order, of the blocks of the emitted files. -/
theorem c8_deterministic_serialization :
    (∀ (o : POpts) (root ts1 ts2 : Str) (forest : List FTree),
      (mergeOutput o root ts1 forest).drop (writeHeader o root ts1).length =
      (mergeOutput o root ts2 forest).drop (writeHeader o root ts2).length) ∧
    (∀ (root p : Str) (st : TState) (c : List QItem),
      p ∈ st.created → p ≠ root → (∀ pr ∈ st.pending, pr.2 ≠ p) →
      kidsOf (procChunk root st c).kids p =
        kidsOf st.kids p ++
          ((stableSort qLe c).filter
            (fun it => it.parentPath == p)).map QItem.path ∧
      List.Pairwise qOrderedPair
        ((stableSort qLe c).filter (fun it => it.parentPath == p))) ∧
    (∀ (o : POpts) (pfx : Str) (forest : List FTree),
      writeFilesKids o pfx forest =
        (emissionK pfx forest).foldr
          (fun e acc => renderEmit o e ++ acc) []) := by
  refine ⟨?_, ?_, ?_⟩
  · intro o root ts1 ts2 forest
    unfold mergeOutput
    rw [List.append_assoc, List.append_assoc, List.append_assoc,
      List.drop_left, List.append_assoc, List.append_assoc,
      List.append_assoc, List.drop_left]
  · intro root p st c hp hne hpend
    constructor
    · show kidsOf (sweep ((stableSort qLe c).foldl (procItem root) st)).kids
        p = _
      unfold sweep
      rw [kidsOf_sweepGo _ p _ _
        (pending_foldl root p (stableSort qLe c) st hp hpend)]
      exact kidsOf_foldl root p hne (stableSort qLe c) st hp
    · exact ((stableSort_pairwise qLe_total
        (fun h1 h2 => qLe_trans h1 h2) c).imp
        (fun hab => qLe_imp_ordered hab)).filter _
  · intro o pfx forest
    exact writeFilesKids_eq_emission o pfx forest

/-- Counterexample to the literal C8 ordering claim: a directory zdir whose
entries adir (a directory) and zfile.txt (a file) arrive in the same chunk
as zdir itself.  The chunk sort puts adir before zdir, so adir is deferred
to the pending list and attached only after zfile.txt: the resulting child
order is the file before the directory, violating directories-first
case-insensitive name order. -/
theorem c8_counterexample :
    kidsOf (loadState [] true (lit "/r")
        [RawFS.dir (lit "zdir")
          [RawFS.dir (lit "adir") [],
           RawFS.file (lit "zfile.txt") (lit "x") 1]]).kids
      (joinP (lit "/r") (lit "zdir")) =
      [joinP (joinP (lit "/r") (lit "zdir")) (lit "zfile.txt"),
       joinP (joinP (lit "/r") (lit "zdir")) (lit "adir")] ∧
    ¬ qOrderedPair
      (QItem.mk (lit "zfile.txt")
        (joinP (joinP (lit "/r") (lit "zdir")) (lit "zfile.txt"))
        (joinP (lit "/r") (lit "zdir")) false)
      (QItem.mk (lit "adir")
        (joinP (joinP (lit "/r") (lit "zdir")) (lit "adir"))
        (joinP (lit "/r") (lit "zdir")) true) := by
  constructor
  · decide
  · intro h
    exact Bool.noConfusion (h.1 rfl)

-- Round trip (C1): string lemmas.

theorem pyLstrip_cons_ws {c : Char} (hc : isPyWs c = true) (s : Str) :
    pyLstrip (c :: s) = pyLstrip s := by
  unfold pyLstrip
  exact List.dropWhile_cons_of_pos hc

theorem pyLstrip_cons_nws {c : Char} (hc : isPyWs c = false) (s : Str) :
    pyLstrip (c :: s) = c :: s := by
  unfold pyLstrip
  exact List.dropWhile_cons_of_neg (by rw [hc]; exact Bool.false_ne_true)

theorem pyRstrip_append_ws {c : Char} (hc : isPyWs c = true) (s : Str) :
    pyRstrip (s ++ [c]) = pyRstrip s := by
  unfold pyRstrip
  rw [List.reverse_append]
  simp only [List.reverse_cons, List.reverse_nil, List.nil_append,
    List.cons_append, List.nil_append]
  rw [List.dropWhile_cons_of_pos hc]

theorem pyRstrip_append_nws {c : Char} (hc : isPyWs c = false) (s : Str) :
    pyRstrip (s ++ [c]) = s ++ [c] := by
  unfold pyRstrip
  rw [List.reverse_append]
  simp only [List.reverse_cons, List.reverse_nil, List.nil_append,
    List.cons_append, List.nil_append]
  rw [List.dropWhile_cons_of_neg (by rw [hc]; exact Bool.false_ne_true)]
  simp

theorem pyStrip_cons_ws {c : Char} (hc : isPyWs c = true) (s : Str) :
    pyStrip (c :: s) = pyStrip s := by
  unfold pyStrip
  rw [pyLstrip_cons_ws hc]

theorem pyLstrip_append (x y : Str) :
    pyLstrip (x ++ y) =
      if (pyLstrip x).isEmpty then pyLstrip y else pyLstrip x ++ y := by
  unfold pyLstrip
  exact List.dropWhile_append

theorem pyStrip_append_ws {c : Char} (hc : isPyWs c = true) (x : Str) :
    pyStrip (x ++ [c]) = pyStrip x := by
  unfold pyStrip
  rw [pyLstrip_append]
  by_cases hx : (pyLstrip x).isEmpty
  · rw [if_pos hx]
    have : pyLstrip [c] = [] := by
      rw [show [c] = c :: ([] : Str) from rfl, pyLstrip_cons_ws hc]
      rfl
    rw [this]
    have hx2 : pyLstrip x = [] := by
      rwa [List.isEmpty_iff] at hx
    rw [hx2]
  · rw [if_neg hx]
    exact pyRstrip_append_ws hc _

theorem pyLstrip_of_pyStrip {s : Str} (h : pyStrip s = s) :
    pyLstrip s = s := by
  have h1 : List.Sublist (pyLstrip s) s := (List.dropWhile_suffix _).sublist
  apply h1.eq_of_length
  have h2 : (pyStrip s).length ≤ (pyLstrip s).length := by
    unfold pyStrip pyRstrip
    calc ((pyLstrip s).reverse.dropWhile isPyWs).reverse.length
        = ((pyLstrip s).reverse.dropWhile isPyWs).length := by simp
      _ ≤ (pyLstrip s).reverse.length := dropWhile_length_le _ _
      _ = (pyLstrip s).length := by simp
  have h3 : (pyLstrip s).length ≤ s.length := dropWhile_length_le _ _
  rw [h] at h2
  omega

theorem pyRstrip_of_pyStrip {s : Str} (h : pyStrip s = s) :
    pyRstrip s = s := by
  unfold pyStrip at h
  rw [pyLstrip_of_pyStrip h] at h
  exact h

theorem pyLstrip_head_nws {c : Char} {t : Str}
    (h : pyLstrip (c :: t) = c :: t) : isPyWs c = false := by
  by_cases hc : isPyWs c = true
  · exfalso
    rw [pyLstrip_cons_ws hc] at h
    have := dropWhile_length_le isPyWs t
    unfold pyLstrip at h
    have hlen := congrArg List.length h
    simp only [List.length_cons] at hlen
    unfold pyLstrip at this
    omega
  · exact Bool.not_eq_true _ |>.mp hc

theorem pyStrip_append_inv {a b : Str} (ha0 : a ≠ []) (hb0 : b ≠ [])
    (ha : pyStrip a = a) (hb : pyStrip b = b) :
    pyStrip (a ++ b) = a ++ b := by
  have hal := pyLstrip_of_pyStrip ha
  have har := pyRstrip_of_pyStrip ha
  have hbl := pyLstrip_of_pyStrip hb
  have hbr := pyRstrip_of_pyStrip hb
  unfold pyStrip
  rw [pyLstrip_append]
  have hane : ¬(pyLstrip a).isEmpty = true := by
    rw [hal]
    simpa [List.isEmpty_iff] using ha0
  rw [if_neg hane, hal]
  unfold pyRstrip
  rw [List.reverse_append]
  have hbrev : b.reverse.dropWhile isPyWs = b.reverse := by
    unfold pyRstrip at hbr
    have := congrArg List.reverse hbr
    simpa using this
  rw [List.dropWhile_append, hbrev]
  have hbne : ¬(b.reverse).isEmpty = true := by
    simpa [List.isEmpty_iff] using hb0
  rw [if_neg hbne]
  simp

-- Character safety predicates for the artifact.

/-- Characters allowed in names, relative paths and metadata strings: no
newline, no equals sign, no hash, no page emoji (the framing characters of
the artifact). -/
def okChar (c : Char) : Bool :=
  !(c == '\n' || c == '=' || c == '#' || c == '📄')

/-- Characters allowed in embedded file contents: newlines are fine, the
framing characters are not. -/
def okContentChar (c : Char) : Bool := !(c == '=' || c == '#' || c == '📄')

/-- A base name the loader can produce and the round trip preserves:
nonempty, no path separator, framing-free, and with no leading or trailing
whitespace (Python strip leaves it unchanged). -/
def goodNameB (n : Str) : Bool :=
  !n.isEmpty && n.all okChar && !n.contains '/' &&
    (pyStrip n == n)

def goodContentB (c : Str) : Bool := c.all okContentChar

def cleanMetaB (s : Str) : Bool := s.all okChar

/-- No page emoji and no hash anywhere (holds for everything the serializer
writes before the file blocks). -/
def docHashFree (s : Str) : Prop := ∀ c ∈ s, c ≠ '📄' ∧ c ≠ '#'

/-- No hash anywhere (holds for the whole artifact). -/
def hashFree (s : Str) : Prop := ∀ c ∈ s, c ≠ '#'

theorem docHashFree_append {a b : Str} (ha : docHashFree a)
    (hb : docHashFree b) : docHashFree (a ++ b) := by
  unfold docHashFree at *
  rw [List.forall_mem_append]
  exact ⟨ha, hb⟩

theorem hashFree_append {a b : Str} (ha : hashFree a) (hb : hashFree b) :
    hashFree (a ++ b) := by
  unfold hashFree at *
  rw [List.forall_mem_append]
  exact ⟨ha, hb⟩

theorem docHashFree_of_okChar {s : Str} (h : s.all okChar = true) :
    docHashFree s := by
  intro c hc
  have := (List.all_eq_true.mp h) c hc
  unfold okChar at this
  simp only [Bool.not_eq_true', Bool.or_eq_false_iff, beq_eq_false_iff_ne,
    ne_eq] at this
  exact ⟨this.2, this.1.2⟩

theorem docHashFree_of_okContentChar {s : Str}
    (h : s.all okContentChar = true) : docHashFree s := by
  intro c hc
  have := (List.all_eq_true.mp h) c hc
  unfold okContentChar at this
  simp only [Bool.not_eq_true', Bool.or_eq_false_iff, beq_eq_false_iff_ne,
    ne_eq] at this
  exact ⟨this.2, this.1.2⟩

theorem hashFree_of_docHashFree {s : Str} (h : docHashFree s) :
    hashFree s := fun c hc => (h c hc).2

theorem docHashFree_lit_dec (s : Str)
    (h : s.all (fun c => !(c == '📄') && !(c == '#')) = true) :
    docHashFree s := by
  intro c hc
  have := (List.all_eq_true.mp h) c hc
  simp only [Bool.and_eq_true, Bool.not_eq_true', beq_eq_false_iff_ne,
    ne_eq] at this
  exact this

theorem natToStr_digits (n : Nat) :
    ∀ c ∈ natToStr n, ∃ d, d < 10 ∧ c = digitChar d := by
  induction n using Nat.strong_induction_on with
  | _ n ih =>
    intro c hc
    rw [natToStr] at hc
    by_cases hn : n < 10
    · rw [if_pos hn] at hc
      rcases List.mem_singleton.mp hc with rfl
      exact ⟨n, hn, rfl⟩
    · rw [if_neg hn] at hc
      rcases List.mem_append.mp hc with hc | hc
      · exact ih (n / 10) (by omega) c hc
      · rcases List.mem_singleton.mp hc with rfl
        exact ⟨n % 10, Nat.mod_lt _ (by omega), rfl⟩

theorem digitChar_props (d : Nat) :
    okChar (digitChar d) = true ∧ isPyWs (digitChar d) = false := by
  unfold digitChar
  have hd : d % 10 < 10 := Nat.mod_lt _ (by omega)
  set k := d % 10 with hk
  interval_cases k <;> exact ⟨by decide, by decide⟩

theorem natToStr_okChar (n : Nat) : (natToStr n).all okChar = true := by
  rw [List.all_eq_true]
  intro c hc
  rcases natToStr_digits n c hc with ⟨d, _, rfl⟩
  exact (digitChar_props d).1

mutual

/-- Check that a subtree is entirely Unchecked. -/
def allUncheckedN : FTree → Bool
  | .file _ st _ _ => st == CheckSt.unchecked
  | .dir _ st cs => st == CheckSt.unchecked && allUncheckedK cs

def allUncheckedK : List FTree → Bool
  | [] => true
  | t :: ts => allUncheckedN t && allUncheckedK ts

end

mutual

/-- Serialization-time tree on which the round trip is stated: names are
good (nonempty, separator- and framing-free, strip-invariant) and pairwise
distinct among siblings, file contents are framing-free, all file sizes are
within the ceiling and no content looks binary, and the selection states are
consistent (an Excluded directory has an entirely Excluded subtree, the
state downward propagation maintains). -/
def goodTreeB (o : POpts) : FTree → Bool
  | .file n _ c sz =>
    goodNameB n && goodContentB c && decide (sz ≤ o.maxFileSize) &&
      !isBinaryContent c
  | .dir n st cs =>
    goodNameB n &&
      (if st == CheckSt.unchecked then allUncheckedK cs else true) &&
      decide ((cs.map FTree.fname).Nodup) && goodKidsB o cs

def goodKidsB (o : POpts) : List FTree → Bool
  | [] => true
  | t :: ts => goodTreeB o t && goodKidsB o ts

end

def goodForestB (o : POpts) (forest : List FTree) : Bool :=
  decide ((forest.map FTree.fname).Nodup) && goodKidsB o forest

theorem goodKidsB_mem {o : POpts} {ts : List FTree} {t : FTree}
    (h : goodKidsB o ts = true) (ht : t ∈ ts) : goodTreeB o t = true := by
  induction ts with
  | nil => simp at ht
  | cons x xs ih =>
    rw [show goodKidsB o (x :: xs) = (goodTreeB o x && goodKidsB o xs)
      from rfl, Bool.and_eq_true] at h
    rcases List.mem_cons.mp ht with rfl | ht
    · exact h.1
    · exact ih h.2 ht

theorem docHashFree_suffix {a s : Str} (h : List.IsSuffix a s)
    (hs : docHashFree s) : docHashFree a := fun c hc => hs c (h.subset hc)

theorem hasSub_false_of_head {n0 : Char} {rest hay : Str}
    (h : ∀ c ∈ hay, c ≠ n0) : hasSub (n0 :: rest) hay = false := by
  induction hay with
  | nil => rfl
  | cons c t ih =>
    rw [show hasSub (n0 :: rest) (c :: t) =
      ((n0 :: rest).isPrefixOf (c :: t) || hasSub (n0 :: rest) t) from rfl]
    have h1 : (n0 :: rest).isPrefixOf (c :: t) = false := by
      have hne : c ≠ n0 := h c (List.mem_cons_self c t)
      rw [show (n0 :: rest).isPrefixOf (c :: t) =
        ((n0 == c) && rest.isPrefixOf t) from rfl]
      have : (n0 == c) = false := by
        rw [beq_eq_false_iff_ne]
        exact fun hn => hne hn.symm
      rw [this]
      rfl
    rw [h1, ih (fun c hc => h c (List.mem_cons_of_mem _ hc))]
    rfl

theorem docHashFree_center80 {t : Str} (ht : docHashFree t) :
    docHashFree (center80 t) := by
  unfold center80
  by_cases h : 80 ≤ t.length
  · rw [if_pos h]
    exact ht
  · rw [if_neg h]
    intro c hc
    rcases List.mem_append.mp hc with hc | hc
    · rcases List.mem_append.mp hc with hc | hc
      · rcases List.eq_of_mem_replicate hc with rfl
        exact ⟨by decide, by decide⟩
      · exact ht c hc
    · rcases List.eq_of_mem_replicate hc with rfl
      exact ⟨by decide, by decide⟩

theorem docHashFree_eqLine : docHashFree eqLine := by
  intro c hc
  rcases List.eq_of_mem_replicate hc with rfl
  exact ⟨by decide, by decide⟩

theorem docHashFree_natToStr (n : Nat) : docHashFree (natToStr n) :=
  docHashFree_of_okChar (natToStr_okChar n)

theorem docHashFree_fmtOneDecimal (q : ℚ) : docHashFree (fmtOneDecimal q) := by
  unfold fmtOneDecimal
  refine docHashFree_append (docHashFree_natToStr _) ?_
  intro c hc
  rcases List.mem_cons.mp hc with rfl | hc
  · exact ⟨by decide, by decide⟩
  · exact docHashFree_natToStr _ c hc

theorem docHashFree_fmtSizeLoop (q : ℚ) (us : List Str)
    (hus : ∀ u ∈ us, docHashFree u) : docHashFree (fmtSizeLoop q us) := by
  induction us generalizing q with
  | nil =>
    refine docHashFree_append (docHashFree_fmtOneDecimal q) ?_
    exact docHashFree_lit_dec _ (by decide)
  | cons u us ih =>
    rw [show fmtSizeLoop q (u :: us) = (if q < 1024 then
      fmtOneDecimal q ++ u else fmtSizeLoop (q / 1024) us) from rfl]
    by_cases hq : q < 1024
    · rw [if_pos hq]
      exact docHashFree_append (docHashFree_fmtOneDecimal q)
        (hus u (List.mem_cons_self u us))
    · rw [if_neg hq]
      exact ih _ (fun u2 hu2 => hus u2 (List.mem_cons_of_mem _ hu2))

theorem docHashFree_formatFileSize (n : Nat) :
    docHashFree (formatFileSize n) := by
  unfold formatFileSize
  refine docHashFree_fmtSizeLoop _ _ ?_
  intro u hu
  fin_cases hu <;> exact docHashFree_lit_dec _ (by decide)

theorem docHashFree_of_goodName {n : Str} (h : goodNameB n = true) :
    docHashFree n := by
  unfold goodNameB at h
  simp only [Bool.and_eq_true] at h
  exact docHashFree_of_okChar h.1.1.2

theorem summaryKids_docHashFree (o : POpts) :
    ∀ (ts : List FTree), goodKidsB o ts = true →
    ∀ (pfx : Str), docHashFree pfx → docHashFree (summaryKids pfx ts) := by
  have hconn : ∀ (isLast : Bool),
      docHashFree (if isLast then lit "└── " else lit "├── ") := by
    intro isLast
    cases isLast <;> exact docHashFree_lit_dec _ (by decide)
  have hicon : ∀ (st : CheckSt), docHashFree (match st with
      | CheckSt.checked => lit "✓"
      | CheckSt.partiallyChecked => lit "◐"
      | CheckSt.unchecked => lit "✗") := by
    intro st
    cases st <;> exact docHashFree_lit_dec _ (by decide)
  have hnode : ∀ (t : FTree), goodTreeB o t = true → ∀ (pfx : Str),
      docHashFree pfx → ∀ (isLast : Bool),
      docHashFree (summaryNode pfx isLast t) := by
    intro t
    induction t using FTree.rec (motive_2 := fun ts => goodKidsB o ts = true →
        ∀ (pfx : Str), docHashFree pfx →
          docHashFree (summaryKids pfx ts)) with
    | file n st c sz =>
      intro ht pfx hp isLast
      rw [show summaryNode pfx isLast (FTree.file n st c sz) =
        pfx ++ (if isLast then lit "└── " else lit "├── ") ++
        (match (FTree.file n st c sz).fst with
         | CheckSt.checked => lit "✓"
         | CheckSt.partiallyChecked => lit "◐"
         | CheckSt.unchecked => lit "✗") ++ lit " " ++
        (FTree.file n st c sz).fname ++
        (match FTree.file n st c sz with
         | FTree.file _ CheckSt.checked _ size =>
           lit " (" ++ formatFileSize size ++ lit ")"
         | _ => []) ++ lit "\n" ++
        (match FTree.file n st c sz with
         | FTree.dir _ st2 cs =>
           if st2 ≠ CheckSt.unchecked then
             summaryKids (pfx ++ (if isLast then lit "    " else lit "│   "))
               cs
           else []
         | _ => []) from rfl]
      unfold goodTreeB at ht
      simp only [Bool.and_eq_true] at ht
      refine docHashFree_append (docHashFree_append (docHashFree_append
        (docHashFree_append (docHashFree_append (docHashFree_append
          (docHashFree_append hp (hconn isLast)) (hicon _))
          (docHashFree_lit_dec _ (by decide)))
          (docHashFree_of_goodName ht.1.1.1)) ?_)
        (docHashFree_lit_dec _ (by decide))) ?_
      · cases st with
        | checked =>
          refine docHashFree_append (docHashFree_append
            (docHashFree_lit_dec _ (by decide))
            (docHashFree_formatFileSize sz))
            (docHashFree_lit_dec _ (by decide))
        | partiallyChecked => intro c hc; simp at hc
        | unchecked => intro c hc; simp at hc
      · intro c hc
        simp at hc
    | dir n st cs ihcs =>
      intro ht pfx hp isLast
      rw [show summaryNode pfx isLast (FTree.dir n st cs) =
        pfx ++ (if isLast then lit "└── " else lit "├── ") ++
        (match (FTree.dir n st cs).fst with
         | CheckSt.checked => lit "✓"
         | CheckSt.partiallyChecked => lit "◐"
         | CheckSt.unchecked => lit "✗") ++ lit " " ++
        (FTree.dir n st cs).fname ++ [] ++ lit "\n" ++
        (if st ≠ CheckSt.unchecked then
          summaryKids (pfx ++ (if isLast then lit "    " else lit "│   ")) cs
         else []) from rfl]
      unfold goodTreeB at ht
      simp only [Bool.and_eq_true] at ht
      refine docHashFree_append (docHashFree_append (docHashFree_append
        (docHashFree_append (docHashFree_append (docHashFree_append
          (docHashFree_append hp (hconn isLast)) (hicon _))
          (docHashFree_lit_dec _ (by decide)))
          (docHashFree_of_goodName ht.1.1.1)) ?_)
        (docHashFree_lit_dec _ (by decide))) ?_
      · intro c hc
        simp at hc
      · by_cases hst : st ≠ CheckSt.unchecked
        · rw [if_pos hst]
          refine ihcs ht.2 _ ?_
          refine docHashFree_append hp ?_
          cases isLast <;> exact docHashFree_lit_dec _ (by decide)
        · rw [if_neg hst]
          intro c hc
          simp at hc
    | nil =>
      rename_i pfx2 hp2
      intro c hc
      rw [show summaryKids pfx2 [] = [] from rfl] at hc
      simp at hc
    | cons t ts iht ihts =>
      rename_i hg pfx2 hp2
      rw [show goodKidsB o (t :: ts) = (goodTreeB o t && goodKidsB o ts)
        from rfl, Bool.and_eq_true] at hg
      cases ts with
      | nil =>
        rw [show summaryKids pfx2 [t] = summaryNode pfx2 true t from rfl]
        exact iht hg.1 pfx2 hp2 true
      | cons t2 ts2 =>
        rw [show summaryKids pfx2 (t :: t2 :: ts2) =
          summaryNode pfx2 false t ++ summaryKids pfx2 (t2 :: ts2)
          from rfl]
        exact docHashFree_append (iht hg.1 pfx2 hp2 false)
          (ihts hg.2 pfx2 hp2)
  intro ts hg pfx hp
  induction ts with
  | nil =>
    intro c hc
    rw [show summaryKids pfx [] = [] from rfl] at hc
    simp at hc
  | cons t ts ihts =>
    rw [show goodKidsB o (t :: ts) = (goodTreeB o t && goodKidsB o ts)
      from rfl, Bool.and_eq_true] at hg
    cases ts with
    | nil =>
      rw [show summaryKids pfx [t] = summaryNode pfx true t from rfl]
      exact hnode t hg.1 pfx hp true
    | cons t2 ts2 =>
      rw [show summaryKids pfx (t :: t2 :: ts2) =
        summaryNode pfx false t ++ summaryKids pfx (t2 :: ts2) from rfl]
      exact docHashFree_append (hnode t hg.1 pfx hp false) (ihts hg.2)

-- Parsing lemmas for the txt block grammar.

theorem matchLit_self_append (pat s : Str) :
    matchLit pat (pat ++ s) = some s := by
  induction pat with
  | nil => rfl
  | cons p ps ih =>
    rw [show (p :: ps) ++ s = p :: (ps ++ s) from rfl,
      show matchLit (p :: ps) (p :: (ps ++ s)) =
        (if p = p then matchLit ps (ps ++ s) else none) from rfl,
      if_pos rfl]
    exact ih

theorem matchLit_some_append {pat s r : Str} (h : matchLit pat s = some r) :
    s = pat ++ r := by
  induction pat generalizing s with
  | nil =>
    simp only [matchLit, Option.some.injEq] at h
    rw [h]
    rfl
  | cons p ps ih =>
    cases s with
    | nil => exact Option.noConfusion h
    | cons c t =>
      simp only [matchLit] at h
      by_cases hpc : p = c
      · rw [if_pos hpc] at h
        rw [← hpc, List.cons_append]
        exact congrArg (p :: ·) (ih h)
      · rw [if_neg hpc] at h
        exact Option.noConfusion h

theorem matchLit_ne_head {p c : Char} {ps s : Str} (h : p ≠ c) :
    matchLit (p :: ps) (c :: s) = none := by
  simp only [matchLit]
  rw [if_neg h]

theorem splitAtNl_append {g : Str} (hg : '\n' ∉ g) (r : Str) :
    splitAtNl (g ++ '\n' :: r) = some (g, r) := by
  induction g with
  | nil =>
    rw [List.nil_append]
    simp [splitAtNl]
  | cons c t ih =>
    have hc : c ≠ '\n' := fun hcc => hg (hcc ▸ List.mem_cons_self c t)
    rw [List.cons_append]
    simp only [splitAtNl]
    rw [if_neg hc, ih (fun hm => hg (List.mem_cons_of_mem c hm))]
    rfl

theorem takeLine_append {g : Str} (hne : g ≠ []) (hg : '\n' ∉ g) (r : Str) :
    takeLine (g ++ '\n' :: r) = some (g, r) := by
  unfold takeLine
  rw [splitAtNl_append hg, Option.some_bind]
  rw [if_neg (by simpa [List.isEmpty_iff] using hne)]

theorem parseHdrAt_shape {s f p r : Str}
    (h : parseHdrAt s = some (f, p, r)) :
    ∃ t, s = '\n' :: eqLine ++ '\n' :: '📄' :: t := by
  unfold parseHdrAt at h
  cases h1 : matchLit ('\n' :: eqLine ++ ['\n']) s with
  | none => rw [h1] at h; exact Option.noConfusion h
  | some s1 =>
    rw [h1, Option.some_bind] at h
    cases h2 : matchLit (lit "📄 File: ") s1 with
    | none => rw [h2] at h; exact Option.noConfusion h
    | some s2 =>
      have e1 := matchLit_some_append h1
      have e2 := matchLit_some_append h2
      refine ⟨(lit " File: ") ++ s2, ?_⟩
      rw [e1, e2, show lit "📄 File: " = '📄' :: lit " File: " from rfl]
      simp [List.append_assoc]

/-- No header match can begin strictly inside the given text when combined
with the given continuation. -/
def noMatchIn (a b : Str) : Prop :=
  ∀ a', List.IsSuffix a' a → a' ≠ [] → parseHdrAt (a' ++ b) = none

theorem findHdr_append {a b : Str} (hnm : noMatchIn a b) :
    findHdr (a ++ b) =
      (findHdr b).map (fun pr => (a ++ pr.1, pr.2.1, pr.2.2)) := by
  induction a with
  | nil =>
    rw [List.nil_append]
    cases findHdr b with
    | none => rfl
    | some pr => simp
  | cons c a' ih =>
    rw [List.cons_append]
    rw [show findHdr (c :: (a' ++ b)) =
      (match parseHdrAt (c :: (a' ++ b)) with
       | some pr => some ([], pr.2.1, pr.2.2)
       | none => (findHdr (a' ++ b)).map
           (fun r => (c :: r.1, r.2.1, r.2.2))) from rfl]
    have hnone : parseHdrAt (c :: (a' ++ b)) = none := by
      have := hnm (c :: a') (List.suffix_refl _) (by simp)
      rwa [List.cons_append] at this
    rw [hnone]
    have ih2 := ih (fun a'' ha'' hne =>
      hnm a'' (ha''.trans (List.suffix_cons c a')) hne)
    rw [ih2]
    cases findHdr b with
    | none => rfl
    | some pr => simp

theorem get82_of_shape {s : Str} {t : Str}
    (h : s = '\n' :: eqLine ++ '\n' :: '📄' :: t) : s[82]? = some '📄' := by
  rw [h]
  rw [show '\n' :: eqLine ++ '\n' :: '📄' :: t =
    ('\n' :: eqLine ++ ['\n']) ++ '📄' :: t by simp]
  rw [List.getElem?_append_right (by decide),
    show 82 - ('\n' :: eqLine ++ ['\n']).length = 0 from by decide]
  simp

theorem noMatchIn_of_chars {a b : Str} (ha : ∀ c ∈ a, c ≠ '📄')
    (hb : ∀ j, j ≤ 81 → b[j]? ≠ some '📄') : noMatchIn a b := by
  intro a' hsuf hne
  cases hp : parseHdrAt (a' ++ b) with
  | none => rfl
  | some pr =>
    exfalso
    rcases parseHdrAt_shape (f := pr.1) (p := pr.2.1) (r := pr.2.2)
      (by rw [hp]) with ⟨t, hshape⟩
    have h82 := get82_of_shape hshape
    by_cases hlen : 82 < a'.length
    · rw [List.getElem?_append_left hlen] at h82
      have : '📄' ∈ a' := List.getElem?_mem h82
      exact (ha '📄' (hsuf.subset this)) rfl
    · rw [List.getElem?_append_right (by omega)] at h82
      have hlen1 : 1 ≤ a'.length := by
        rcases a' with _ | ⟨c, t2⟩
        · exact absurd rfl hne
        · simp
      exact hb (82 - a'.length) (by omega) h82

/-- One normal (statusless) plain text file block as the serializer emits
it: header plus verbatim content plus blank line separator. -/
def txtBlockStr (n r c : Str) : Str :=
  '\n' :: eqLine ++ '\n' :: lit "📄 File: " ++ n ++ '\n' :: lit "📁 Path: " ++
    r ++ '\n' :: eqLine ++ lit "\n\n" ++ c ++ lit "\n\n"

theorem head82_txtBlock (n r c X : Str) :
    ∀ j, j ≤ 81 → (txtBlockStr n r c ++ X)[j]? ≠ some '📄' := by
  have hlen : ('\n' :: eqLine ++ ['\n']).length = 82 := by decide
  have hall : ∀ k, k ≤ 81 →
      (('\n' :: eqLine ++ ['\n'])[k]? ≠ some '📄') := by decide
  intro j hj
  rw [show txtBlockStr n r c ++ X = ('\n' :: eqLine ++ ['\n']) ++
    (lit "📄 File: " ++ n ++ '\n' :: lit "📁 Path: " ++
      r ++ '\n' :: eqLine ++ lit "\n\n" ++ c ++ lit "\n\n" ++ X) by
    unfold txtBlockStr
    simp [List.append_assoc]]
  rw [List.getElem?_append_left (by omega)]
  exact hall j hj

theorem okChar_props {c : Char} (h : okChar c = true) :
    c ≠ '\n' ∧ c ≠ '=' ∧ c ≠ '#' ∧ c ≠ '📄' := by
  unfold okChar at h
  simp only [Bool.not_eq_true', Bool.or_eq_false_iff, beq_eq_false_iff_ne,
    ne_eq] at h
  exact ⟨h.1.1.1, h.1.1.2, h.1.2, h.2⟩

theorem okContentChar_props {c : Char} (h : okContentChar c = true) :
    c ≠ '=' ∧ c ≠ '#' ∧ c ≠ '📄' := by
  unfold okContentChar at h
  simp only [Bool.not_eq_true', Bool.or_eq_false_iff, beq_eq_false_iff_ne,
    ne_eq] at h
  exact ⟨h.1.1, h.1.2, h.2⟩

theorem mem_pyLstrip {a : Char} {s : Str} (h : a ∈ pyLstrip s) : a ∈ s :=
  (List.dropWhile_suffix _).subset h

theorem mem_pyRstrip {a : Char} {s : Str} (h : a ∈ pyRstrip s) : a ∈ s := by
  unfold pyRstrip at h
  rw [List.mem_reverse] at h
  have := (List.dropWhile_suffix (l := s.reverse) isPyWs).subset h
  rwa [List.mem_reverse] at this

theorem mem_pyStrip {a : Char} {s : Str} (h : a ∈ pyStrip s) : a ∈ s :=
  mem_pyLstrip (mem_pyRstrip h)

theorem pyStrip_wrap (c : Str) :
    pyStrip ('\n' :: (c ++ lit "\n\n")) = pyStrip c := by
  rw [pyStrip_cons_ws (by decide)]
  rw [show c ++ lit "\n\n" = (c ++ ['\n']) ++ ['\n'] by
    simp [lit, List.append_assoc]]
  rw [pyStrip_append_ws (by decide), pyStrip_append_ws (by decide)]

theorem eqTrim_no_eq {s : Str} (h : '=' ∉ s) : eqTrim s = s := by
  rw [eqTrim]
  rw [if_neg ?hc]
  case hc =>
    intro hsuf
    have hsuf2 : List.IsSuffix ('\n' :: eqLine) s :=
      List.isSuffixOf_iff_suffix.mp hsuf
    exact h (hsuf2.subset (by
      show '=' ∈ '\n' :: eqLine
      rw [show eqLine = '=' :: List.replicate 79 '=' from rfl]
      exact List.mem_cons_of_mem _ (List.mem_cons_self _ _)))

theorem cleanChunk_wrap {c : Str} (hc : c.all okContentChar = true) :
    cleanChunk ('\n' :: (c ++ lit "\n\n")) = pyStrip c := by
  unfold cleanChunk
  rw [pyStrip_wrap]
  refine eqTrim_no_eq (fun hmem => ?_)
  have := (List.all_eq_true.mp hc) '=' (mem_pyStrip hmem)
  exact (okContentChar_props this).1 rfl

theorem parseHdrAt_at_block {n r : Str} (c X : Str) (hn : n ≠ [])
    (hnn : '\n' ∉ n) (hr : r ≠ []) (hrn : '\n' ∉ r) :
    parseHdrAt (txtBlockStr n r c ++ X) =
      some (n, r, '\n' :: (c ++ ('\n' :: ('\n' :: X)))) := by
  have hsplit : txtBlockStr n r c ++ X =
      ('\n' :: eqLine ++ ['\n']) ++
      (lit "📄 File: " ++
        (n ++ '\n' ::
          (lit "📁 Path: " ++
            (r ++ '\n' ::
              ((eqLine ++ ['\n']) ++
                ('\n' :: (c ++ ('\n' :: ('\n' :: X))))))))) := by
    unfold txtBlockStr
    rw [show lit "\n\n" = '\n' :: ['\n'] from rfl]
    simp [List.append_assoc]
  rw [hsplit]
  have hst : matchLit (lit "⚠️ Status: ") ((eqLine ++ ['\n']) ++
      ('\n' :: (c ++ ('\n' :: ('\n' :: X))))) = none := by
    rw [show lit "⚠️ Status: " =
      '⚠' :: Char.ofNat 65039 :: lit " Status: " from rfl]
    rw [show (eqLine ++ ['\n']) ++ ('\n' :: (c ++ ('\n' :: ('\n' :: X)))) =
        '=' :: (List.replicate 79 '=' ++ ['\n'] ++
          ('\n' :: (c ++ ('\n' :: ('\n' :: X))))) by
      rw [show eqLine = '=' :: List.replicate 79 '=' from rfl]
      simp]
    exact matchLit_ne_head (by decide)
  simp only [parseHdrAt]
  rw [matchLit_self_append]
  simp only [Option.some_bind]
  rw [matchLit_self_append]
  simp only [Option.some_bind]
  rw [takeLine_append hn hnn]
  simp only [Option.some_bind]
  rw [matchLit_self_append]
  simp only [Option.some_bind]
  rw [takeLine_append hr hrn]
  simp only [Option.some_bind]
  simp only [parseHdrTail, hst]
  rw [matchLit_self_append]
  simp only [Option.map_some']

theorem parseHdrAt_nil : parseHdrAt [] = none := rfl

theorem findHdr_of_parseHdrAt {s : Str} {pr : Str × Str × Str}
    (h : parseHdrAt s = some pr) :
    findHdr s = some ([], pr.2.1, pr.2.2) := by
  cases s with
  | nil => rw [parseHdrAt_nil] at h; exact Option.noConfusion h
  | cons a t => simp only [findHdr, h]

theorem parseHdrAt_mem_doc {s : Str} {pr : Str × Str × Str}
    (h : parseHdrAt s = some pr) : '📄' ∈ s := by
  rcases parseHdrAt_shape (f := pr.1) (p := pr.2.1) (r := pr.2.2)
    (by rw [h]) with ⟨t, hs⟩
  rw [hs]
  simp

theorem findHdr_none_of_no_doc {s : Str} (h : ∀ c ∈ s, c ≠ '📄') :
    findHdr s = none := by
  induction s with
  | nil => rfl
  | cons a t ih =>
    have hp : parseHdrAt (a :: t) = none := by
      cases hq : parseHdrAt (a :: t) with
      | none => rfl
      | some pr =>
        exact absurd rfl (h '📄' (parseHdrAt_mem_doc hq))
    simp only [findHdr, hp,
      ih (fun c hc => h c (List.mem_cons_of_mem a hc)), Option.map_none']

/-- Facts carried by every element of the emission list of a good tree: the
name is good, the relative path is nonempty, framing-free and
strip-invariant, the content is framing-free, and the size and binary checks
pass. -/
def emitOk (o : POpts) (e : Emit) : Prop :=
  goodNameB e.name = true ∧ e.rel ≠ [] ∧ e.rel.all okChar = true ∧
  pyStrip e.rel = e.rel ∧ e.content.all okContentChar = true ∧
  e.size ≤ o.maxFileSize ∧ isBinaryContent e.content = false

/-- Invariant of the relative path prefix along the emission traversal. -/
def pfxOk (p : Str) : Prop := p.all okChar = true ∧ pyStrip p = p

theorem pfxOk_nil : pfxOk [] := ⟨rfl, rfl⟩

theorem goodNameB_props {n : Str} (h : goodNameB n = true) :
    n ≠ [] ∧ n.all okChar = true ∧ pyStrip n = n := by
  unfold goodNameB at h
  simp only [Bool.and_eq_true, Bool.not_eq_true', beq_iff_eq] at h
  refine ⟨?_, h.1.1.2, h.2⟩
  intro hnil
  have h0 := h.1.1.1
  rw [hnil] at h0
  exact absurd h0 (by decide)

theorem relOk_of_pfx_name {p n : Str} (hp : pfxOk p)
    (hn : goodNameB n = true) :
    p ++ n ≠ [] ∧ (p ++ n).all okChar = true ∧ pyStrip (p ++ n) = p ++ n := by
  obtain ⟨hn0, hnok, hns⟩ := goodNameB_props hn
  obtain ⟨hpok, hps⟩ := hp
  refine ⟨fun hc => hn0 (List.append_eq_nil.mp hc).2, ?_, ?_⟩
  · rw [List.all_append, hpok, hnok]
    rfl
  · rcases eq_or_ne p [] with rfl | hp0
    · simpa using hns
    · exact pyStrip_append_inv hp0 hn0 hps hns

theorem pfxOk_extend {p n : Str} (hp : pfxOk p) (hn : goodNameB n = true) :
    pfxOk (p ++ n ++ lit "/") := by
  obtain ⟨hne, hok, hs⟩ := relOk_of_pfx_name hp hn
  constructor
  · rw [List.all_append, hok]
    decide
  · exact pyStrip_append_inv hne (by decide) hs (by decide)

theorem emissionK_props (o : POpts) : ∀ (ts : List FTree) (pfx : Str),
    goodKidsB o ts = true → pfxOk pfx →
      ∀ e ∈ emissionK pfx ts, emitOk o e := by
  have main : ∀ (t : FTree) (pfx : Str), goodTreeB o t = true → pfxOk pfx →
      ∀ e ∈ emissionN pfx t, emitOk o e := by
    intro t
    induction t using FTree.rec (motive_2 := fun cs => ∀ pfx : Str,
        goodKidsB o cs = true → pfxOk pfx →
          ∀ e ∈ emissionK pfx cs, emitOk o e) with
    | file n st c sz =>
      intro pfx ht hp e he
      rw [show emissionN pfx (FTree.file n st c sz) =
        (if st = CheckSt.checked then [Emit.mk n (pfx ++ n) c sz] else [])
        from rfl] at he
      have ht2 : goodNameB n = true ∧ goodContentB c = true ∧
          sz ≤ o.maxFileSize ∧ isBinaryContent c = false := by
        rw [show goodTreeB o (FTree.file n st c sz) =
          (goodNameB n && goodContentB c && decide (sz ≤ o.maxFileSize) &&
            !isBinaryContent c) from rfl] at ht
        simp only [Bool.and_eq_true, Bool.not_eq_true',
          decide_eq_true_eq] at ht
        exact ⟨ht.1.1.1, ht.1.1.2, ht.1.2, ht.2⟩
      by_cases hst : st = CheckSt.checked
      · rw [if_pos hst] at he
        rcases List.mem_singleton.mp he with rfl
        obtain ⟨hr0, hrok, hrs⟩ := relOk_of_pfx_name hp ht2.1
        exact ⟨ht2.1, hr0, hrok, hrs, ht2.2.1, ht2.2.2.1, ht2.2.2.2⟩
      · rw [if_neg hst] at he
        exact absurd he (List.not_mem_nil e)
    | dir n st cs ihcs =>
      intro pfx ht hp e he
      rw [show emissionN pfx (FTree.dir n st cs) =
        (if st ≠ CheckSt.unchecked then emissionK (pfx ++ n ++ lit "/") cs
         else []) from rfl] at he
      have ht2 : goodNameB n = true ∧ goodKidsB o cs = true := by
        rw [show goodTreeB o (FTree.dir n st cs) =
          (goodNameB n &&
            (if st == CheckSt.unchecked then allUncheckedK cs else true) &&
            decide ((cs.map FTree.fname).Nodup) && goodKidsB o cs)
          from rfl] at ht
        simp only [Bool.and_eq_true] at ht
        exact ⟨ht.1.1.1, ht.2⟩
      by_cases hst : st ≠ CheckSt.unchecked
      · rw [if_pos hst] at he
        exact ihcs _ ht2.2 (pfxOk_extend hp ht2.1) e he
      · rw [if_neg hst] at he
        exact absurd he (List.not_mem_nil e)
    | nil =>
      rename_i pfx2 hk hp e2 he
      rw [show emissionK pfx2 ([] : List FTree) = [] from rfl] at he
      exact absurd he (List.not_mem_nil e2)
    | cons t ts iht ihts =>
      rename_i pfx2 hk hp e2 he
      rw [show emissionK pfx2 (t :: ts) =
        emissionN pfx2 t ++ emissionK pfx2 ts from rfl] at he
      rw [show goodKidsB o (t :: ts) = (goodTreeB o t && goodKidsB o ts)
        from rfl, Bool.and_eq_true] at hk
      rcases List.mem_append.mp he with h | h
      · exact iht pfx2 hk.1 hp e2 h
      · exact ihts pfx2 hk.2 hp e2 h
  intro ts
  induction ts with
  | nil =>
    intro pfx hk hp e he
    rw [show emissionK pfx ([] : List FTree) = [] from rfl] at he
    exact absurd he (List.not_mem_nil e)
  | cons t ts ih =>
    intro pfx hk hp e he
    rw [show emissionK pfx (t :: ts) =
      emissionN pfx t ++ emissionK pfx ts from rfl] at he
    rw [show goodKidsB o (t :: ts) = (goodTreeB o t && goodKidsB o ts)
      from rfl, Bool.and_eq_true] at hk
    rcases List.mem_append.mp he with h | h
    · exact main t pfx hk.1 hp e h
    · exact ih pfx hk.2 hp e h

/-- The concatenation of the normal txt blocks of an emission list. -/
def blocksCat : List Emit → Str
  | [] => []
  | e :: es => txtBlockStr e.name e.rel e.content ++ blocksCat es

/-- The pairs the restore block extractor recovers from those blocks: the
relative path together with the stripped content, whenever that strip is
nonempty. -/
def blockPairs (es : List Emit) : List (Str × Str) :=
  es.filterMap (fun e =>
    if pyStrip e.content ≠ [] then some (e.rel, pyStrip e.content) else none)

theorem emitBlock_blockPairs (e : Emit) (es : List Emit) (h : e.rel ≠ []) :
    emitBlock e.rel (pyStrip e.content) (blockPairs es) =
      blockPairs (e :: es) := by
  by_cases hc : pyStrip e.content ≠ []
  · rw [show blockPairs (e :: es) =
      (e.rel, pyStrip e.content) :: blockPairs es by
        unfold blockPairs
        rw [List.filterMap_cons_some (by
          show (if pyStrip e.content ≠ [] then
            some (e.rel, pyStrip e.content) else none) =
            some (e.rel, pyStrip e.content)
          rw [if_pos hc])]]
    unfold emitBlock
    rw [if_pos ⟨h, hc⟩]
  · rw [show blockPairs (e :: es) = blockPairs es by
      unfold blockPairs
      rw [List.filterMap_cons_none (by
        show (if pyStrip e.content ≠ [] then
          some (e.rel, pyStrip e.content) else none) = none
        rw [if_neg hc])]]
    unfold emitBlock
    rw [if_neg (fun hand => hc hand.2)]

theorem renderEmit_normal {o : POpts} {e : Emit} (hfmt : o.fmt = Fmt.txt)
    (h : emitOk o e) :
    renderEmit o e = txtBlockStr e.name e.rel e.content := by
  obtain ⟨hname, hr0, hrok, hrs, hcok, hsz, hbin⟩ := h
  unfold renderEmit writeSingleFile
  rw [if_neg (by omega), if_neg (by rw [hbin]; exact Bool.false_ne_true),
    hfmt]
  simp only [writeFileHeader, writeFileContent, txtBlockStr]
  rw [show lit "\n\n" = '\n' :: ['\n'] from rfl,
    show lit "\n" = ['\n'] from rfl]
  simp [List.append_assoc]

theorem writeFilesKids_eq_blocksCat (o : POpts) (forest : List FTree)
    (hfmt : o.fmt = Fmt.txt)
    (hall : ∀ e ∈ emissionK [] forest, emitOk o e) :
    writeFilesKids o [] forest = blocksCat (emissionK [] forest) := by
  rw [writeFilesKids_eq_emission]
  generalize emissionK ([] : Str) forest = es at hall ⊢
  induction es with
  | nil => rfl
  | cons e es ih =>
    rw [show (e :: es).foldr (fun e acc => renderEmit o e ++ acc) [] =
      renderEmit o e ++ es.foldr (fun e acc => renderEmit o e ++ acc) []
      from rfl]
    rw [renderEmit_normal hfmt (hall e (List.mem_cons_self e es)),
      show blocksCat (e :: es) = txtBlockStr e.name e.rel e.content ++
        blocksCat es from rfl,
      ih (fun x hx => hall x (List.mem_cons_of_mem e hx))]

theorem docHashFree_cons {c : Char} (h1 : c ≠ '📄') (h2 : c ≠ '#')
    {s : Str} (hs : docHashFree s) : docHashFree (c :: s) := by
  intro d hd
  rcases List.mem_cons.mp hd with rfl | hd
  · exact ⟨h1, h2⟩
  · exact hs d hd

theorem allDoc_of_okChar {s : Str} (hs : s.all okChar = true) :
    s.all (fun c => !(c == '📄') && !(c == '#')) = true := by
  rw [List.all_eq_true] at hs ⊢
  intro c hc
  have h2 := okChar_props (hs c hc)
  simp only [Bool.and_eq_true, Bool.not_eq_true', beq_eq_false_iff_ne, ne_eq]
  exact ⟨h2.2.2.2, h2.2.2.1⟩

theorem allDoc_of_docHashFree {s : Str} (hs : docHashFree s) :
    s.all (fun c => !(c == '📄') && !(c == '#')) = true := by
  rw [List.all_eq_true]
  intro c hc
  have h2 := hs c hc
  simp only [Bool.and_eq_true, Bool.not_eq_true', beq_eq_false_iff_ne, ne_eq]
  exact ⟨h2.1, h2.2⟩

theorem docHashFree_settingsRepr (o : POpts)
    (hof : cleanMetaB o.outputFolder = true) :
    docHashFree (settingsRepr o) := by
  apply docHashFree_lit_dec
  unfold settingsRepr
  simp only [List.all_append, List.all_cons, Bool.and_eq_true]
  repeat' apply And.intro
  all_goals first
    | exact allDoc_of_okChar hof
    | exact allDoc_of_okChar (natToStr_okChar o.maxFileSize)
    | (cases o.fmt <;> decide)
    | (cases o.includeBinary <;> decide)
    | (cases o.includeHidden <;> decide)
    | decide

theorem docHashFree_writeHeader (o : POpts) (root ts : Str)
    (hfmt : o.fmt = Fmt.txt) (hroot : cleanMetaB root = true)
    (hts : cleanMetaB ts = true) (hof : cleanMetaB o.outputFolder = true) :
    docHashFree (writeHeader o root ts) := by
  have hW : writeHeader o root ts =
      lit "FILE MERGE REPORT\n" ++ eqLine ++ lit "\n\n" ++
      lit "Generated: " ++ ts ++ lit "\n" ++
      lit "Source Directory: " ++ root ++ lit "\n" ++
      lit "Output Settings: " ++ settingsRepr o ++ lit "\n\n" := by
    unfold writeHeader
    rw [hfmt]
  rw [hW]
  refine docHashFree_append ?_ (docHashFree_lit_dec _ (by decide))
  refine docHashFree_append ?_ (docHashFree_settingsRepr o hof)
  refine docHashFree_append ?_ (docHashFree_lit_dec _ (by decide))
  refine docHashFree_append ?_ (docHashFree_lit_dec _ (by decide))
  refine docHashFree_append ?_ (docHashFree_of_okChar hroot)
  refine docHashFree_append ?_ (docHashFree_lit_dec _ (by decide))
  refine docHashFree_append ?_ (docHashFree_lit_dec _ (by decide))
  refine docHashFree_append ?_ (docHashFree_of_okChar hts)
  refine docHashFree_append ?_ (docHashFree_lit_dec _ (by decide))
  refine docHashFree_append ?_ (docHashFree_lit_dec _ (by decide))
  exact docHashFree_append (docHashFree_lit_dec _ (by decide))
    docHashFree_eqLine

theorem docHashFree_sectionHeader (title : Str) (ht : docHashFree title)
    (b : Bool) : docHashFree (sectionHeader Fmt.txt title b) := by
  apply docHashFree_lit_dec
  simp only [sectionHeader]
  simp only [List.all_append, List.all_cons, Bool.and_eq_true]
  repeat' apply And.intro
  all_goals first
    | exact allDoc_of_docHashFree (docHashFree_center80 ht)
    | decide

theorem hashFree_dec (s : Str) (h : s.all (fun c => !(c == '#')) = true) :
    hashFree s := by
  intro c hc
  have := (List.all_eq_true.mp h) c hc
  simp only [Bool.not_eq_true', beq_eq_false_iff_ne, ne_eq] at this
  exact this

theorem allHash_of_okChar {s : Str} (hs : s.all okChar = true) :
    s.all (fun c => !(c == '#')) = true := by
  rw [List.all_eq_true] at hs ⊢
  intro c hc
  have h2 := okChar_props (hs c hc)
  simp only [Bool.not_eq_true', beq_eq_false_iff_ne, ne_eq]
  exact h2.2.2.1

theorem allHash_of_okContentChar {s : Str} (hs : s.all okContentChar = true) :
    s.all (fun c => !(c == '#')) = true := by
  rw [List.all_eq_true] at hs ⊢
  intro c hc
  have h2 := okContentChar_props (hs c hc)
  simp only [Bool.not_eq_true', beq_eq_false_iff_ne, ne_eq]
  exact h2.2.1

theorem hashFree_txtBlockStr {n r c : Str} (hn : n.all okChar = true)
    (hr : r.all okChar = true) (hc : c.all okContentChar = true) :
    hashFree (txtBlockStr n r c) := by
  apply hashFree_dec
  unfold txtBlockStr
  simp only [List.all_append, List.all_cons, Bool.and_eq_true]
  repeat' apply And.intro
  all_goals first
    | exact allHash_of_okChar hn
    | exact allHash_of_okChar hr
    | exact allHash_of_okContentChar hc
    | decide

theorem hashFree_blocksCat {o : POpts} {es : List Emit}
    (h : ∀ e ∈ es, emitOk o e) : hashFree (blocksCat es) := by
  induction es with
  | nil => intro c hc; exact absurd hc (List.not_mem_nil c)
  | cons e es ih =>
    rw [show blocksCat (e :: es) =
      txtBlockStr e.name e.rel e.content ++ blocksCat es from rfl]
    obtain ⟨hname, _, hrok, _, hcok, _, _⟩ := h e (List.mem_cons_self e es)
    exact hashFree_append
      (hashFree_txtBlockStr (goodNameB_props hname).2.1 hrok hcok)
      (ih (fun x hx => h x (List.mem_cons_of_mem e hx)))

theorem hasSub_append_right {m y : Str} (x : Str) (h : hasSub m y = true) :
    hasSub m (x ++ y) = true := by
  induction x with
  | nil => exact h
  | cons a t ih =>
    rw [show (a :: t) ++ y = a :: (t ++ y) from rfl,
      show hasSub m (a :: (t ++ y)) =
        (m.isPrefixOf (a :: (t ++ y)) || hasSub m (t ++ y)) from rfl, ih]
    simp

theorem sliceFromMarker_append {m : Str} (hm0 : m ≠ []) :
    ∀ (P B : Str), hasSub m P = true →
    ∃ R, R ≠ [] ∧ List.IsSuffix R P ∧
      sliceFromMarker m (P ++ B) = some (R ++ B) := by
  intro P
  induction P with
  | nil =>
    intro B h
    rw [show hasSub m [] = m.isEmpty from rfl] at h
    rw [List.isEmpty_iff] at h
    exact absurd h hm0
  | cons a t ih =>
    intro B h
    by_cases hpre : m.isPrefixOf (a :: (t ++ B)) = true
    · refine ⟨a :: t, by simp, List.suffix_refl _, ?_⟩
      rw [show (a :: t) ++ B = a :: (t ++ B) from rfl]
      rw [show sliceFromMarker m (a :: (t ++ B)) =
        (if m.isPrefixOf (a :: (t ++ B)) then some (a :: (t ++ B))
         else sliceFromMarker m (t ++ B)) from rfl, if_pos hpre]
    · have hsub : hasSub m t = true := by
        rw [show hasSub m (a :: t) = (m.isPrefixOf (a :: t) || hasSub m t)
          from rfl, Bool.or_eq_true] at h
        rcases h with h | h
        · exfalso
          apply hpre
          have h2 : List.IsPrefix m (a :: t) :=
            List.isPrefixOf_iff_prefix.mp h
          exact List.isPrefixOf_iff_prefix.mpr
            (h2.trans (List.prefix_append (a :: t) B))
        · exact h
      rcases ih B hsub with ⟨R, hR0, hRs, hRe⟩
      refine ⟨R, hR0, hRs.trans (List.suffix_cons a t), ?_⟩
      rw [show (a :: t) ++ B = a :: (t ++ B) from rfl,
        show sliceFromMarker m (a :: (t ++ B)) =
          (if m.isPrefixOf (a :: (t ++ B)) then some (a :: (t ++ B))
           else sliceFromMarker m (t ++ B)) from rfl,
        if_neg hpre]
      exact hRe

theorem chunk_no_doc {c0 : Str} (hc : c0.all okContentChar = true) :
    ∀ d ∈ '\n' :: (c0 ++ ['\n', '\n']), d ≠ '📄' := by
  intro d hd
  rcases List.mem_cons.mp hd with rfl | hd
  · decide
  · rcases List.mem_append.mp hd with hd | hd
    · exact (okContentChar_props ((List.all_eq_true.mp hc) d hd)).2.2
    · rcases List.mem_cons.mp hd with rfl | hd
      · decide
      · rcases List.mem_cons.mp hd with rfl | hd
        · decide
        · exact absurd hd (List.not_mem_nil d)

theorem txtBlocksGo_blocks (o : POpts) : ∀ (es : List Emit) (r0 c0 : Str),
    (∀ e ∈ es, emitOk o e) → pyStrip r0 = r0 →
    c0.all okContentChar = true →
    txtBlocksGo r0 ('\n' :: (c0 ++ ('\n' :: ('\n' :: blocksCat es)))) =
      emitBlock r0 (pyStrip c0) (blockPairs es) := by
  intro es
  induction es with
  | nil =>
    intro r0 c0 hall hrs hc
    have hfind : findHdr ('\n' :: (c0 ++ ('\n' :: ('\n' ::
        blocksCat ([] : List Emit))))) = none := by
      apply findHdr_none_of_no_doc
      rw [show blocksCat ([] : List Emit) = [] from rfl]
      exact chunk_no_doc hc
    rw [txtBlocksGo, hfind]
    rw [show blocksCat ([] : List Emit) = [] from rfl,
      show ('\n' :: (c0 ++ ('\n' :: ('\n' :: ([] : Str))))) =
        '\n' :: (c0 ++ lit "\n\n") from rfl]
    rw [cleanChunk_wrap hc, hrs]
    rfl
  | cons e es ih =>
    intro r0 c0 hall hrs hc
    obtain ⟨hname, her0, herok, hers, hecok, hsz, hbin⟩ :=
      hall e (List.mem_cons_self e es)
    obtain ⟨hn0, hnok, hns⟩ := goodNameB_props hname
    have hnnl : '\n' ∉ e.name := fun hm =>
      (okChar_props ((List.all_eq_true.mp hnok) _ hm)).1 rfl
    have hrnl : '\n' ∉ e.rel := fun hm =>
      (okChar_props ((List.all_eq_true.mp herok) _ hm)).1 rfl
    have hparse := parseHdrAt_at_block (n := e.name) (r := e.rel)
      e.content (blocksCat es) hn0 hnnl her0 hrnl
    have hfB := findHdr_of_parseHdrAt hparse
    have hnm : noMatchIn ('\n' :: (c0 ++ ['\n', '\n']))
        (txtBlockStr e.name e.rel e.content ++ blocksCat es) :=
      noMatchIn_of_chars (chunk_no_doc hc) (head82_txtBlock _ _ _ _)
    have hfind : findHdr ('\n' :: (c0 ++ ('\n' :: ('\n' ::
        blocksCat (e :: es))))) =
        some (('\n' :: (c0 ++ ['\n', '\n'])) ++ [], e.rel,
          '\n' :: (e.content ++ ('\n' :: ('\n' :: blocksCat es)))) := by
      rw [show ('\n' :: (c0 ++ ('\n' :: ('\n' :: blocksCat (e :: es))))) =
        ('\n' :: (c0 ++ ['\n', '\n'])) ++
          (txtBlockStr e.name e.rel e.content ++ blocksCat es) by
        rw [show blocksCat (e :: es) =
          txtBlockStr e.name e.rel e.content ++ blocksCat es from rfl]
        simp [List.append_assoc]]
      rw [findHdr_append hnm, hfB]
      rfl
    rw [txtBlocksGo, hfind, List.append_nil]
    show emitBlock (pyStrip r0) (cleanChunk ('\n' :: (c0 ++ ['\n', '\n'])))
        (txtBlocksGo e.rel
          ('\n' :: (e.content ++ '\n' :: '\n' :: blocksCat es))) =
      emitBlock r0 (pyStrip c0) (blockPairs (e :: es))
    rw [show ('\n' :: (c0 ++ ['\n', '\n'])) = '\n' :: (c0 ++ lit "\n\n")
      from rfl]
    rw [cleanChunk_wrap hc, hrs]
    rw [ih e.rel e.content (fun x hx => hall x (List.mem_cons_of_mem e hx))
      hers hecok]
    rw [emitBlock_blockPairs e es her0]

theorem txtBlocks_scan (o : POpts) (R : Str) (es : List Emit)
    (hR : ∀ c ∈ R, c ≠ '📄') (hes : ∀ e ∈ es, emitOk o e) :
    txtBlocks (R ++ blocksCat es) = blockPairs es := by
  cases es with
  | nil =>
    have hfind : findHdr (R ++ blocksCat ([] : List Emit)) = none := by
      apply findHdr_none_of_no_doc
      rw [show blocksCat ([] : List Emit) = [] from rfl, List.append_nil]
      exact hR
    simp only [txtBlocks, hfind]
    rfl
  | cons e es =>
    obtain ⟨hname, her0, herok, hers, hecok, hsz, hbin⟩ :=
      hes e (List.mem_cons_self e es)
    obtain ⟨hn0, hnok, hns⟩ := goodNameB_props hname
    have hnnl : '\n' ∉ e.name := fun hm =>
      (okChar_props ((List.all_eq_true.mp hnok) _ hm)).1 rfl
    have hrnl : '\n' ∉ e.rel := fun hm =>
      (okChar_props ((List.all_eq_true.mp herok) _ hm)).1 rfl
    have hparse := parseHdrAt_at_block (n := e.name) (r := e.rel)
      e.content (blocksCat es) hn0 hnnl her0 hrnl
    have hfB := findHdr_of_parseHdrAt hparse
    have hnm : noMatchIn R (txtBlockStr e.name e.rel e.content ++
        blocksCat es) := noMatchIn_of_chars hR (head82_txtBlock _ _ _ _)
    have hfind : findHdr (R ++ blocksCat (e :: es)) =
        some (R ++ [], e.rel,
          '\n' :: (e.content ++ ('\n' :: ('\n' :: blocksCat es)))) := by
      rw [show blocksCat (e :: es) =
        txtBlockStr e.name e.rel e.content ++ blocksCat es from rfl,
        findHdr_append hnm, hfB]
      rfl
    simp only [txtBlocks, hfind]
    rw [txtBlocksGo_blocks o es e.rel e.content
      (fun x hx => hes x (List.mem_cons_of_mem e hx)) hers hecok]
    exact emitBlock_blockPairs e es her0

-- The leaves of the serialization tree.

mutual

/-- All file leaves below one node, with relative path, state and content,
in tree order. -/
def leavesN (pfx : Str) : FTree → List (Str × CheckSt × Str)
  | .file n st c _ => [(pfx ++ n, st, c)]
  | .dir n _ cs => leavesK (pfx ++ n ++ lit "/") cs

def leavesK (pfx : Str) : List FTree → List (Str × CheckSt × Str)
  | [] => []
  | t :: ts => leavesN pfx t ++ leavesK pfx ts

end

/-- The pair the restore writes for one leaf: its relative path with the
strip of its content, for a checked leaf whose content does not strip to
nothing. -/
def includedPair (x : Str × CheckSt × Str) : Option (Str × Str) :=
  if x.2.1 = CheckSt.checked ∧ pyStrip x.2.2 ≠ [] then
    some (x.1, pyStrip x.2.2) else none

theorem blockPairs_singleton (e : Emit) :
    blockPairs [e] =
      if pyStrip e.content ≠ [] then [(e.rel, pyStrip e.content)] else [] := by
  by_cases hc : pyStrip e.content ≠ []
  · rw [if_pos hc]
    unfold blockPairs
    rw [List.filterMap_cons_some (by
      show (if pyStrip e.content ≠ [] then
        some (e.rel, pyStrip e.content) else none) =
        some (e.rel, pyStrip e.content)
      rw [if_pos hc])]
    rfl
  · rw [if_neg hc]
    unfold blockPairs
    rw [List.filterMap_cons_none (by
      show (if pyStrip e.content ≠ [] then
        some (e.rel, pyStrip e.content) else none) = none
      rw [if_neg hc])]
    rfl

theorem filterMap_inc_singleton (x : Str × CheckSt × Str) :
    [x].filterMap includedPair =
      if x.2.1 = CheckSt.checked ∧ pyStrip x.2.2 ≠ [] then
        [(x.1, pyStrip x.2.2)] else [] := by
  by_cases hc : x.2.1 = CheckSt.checked ∧ pyStrip x.2.2 ≠ []
  · rw [if_pos hc,
      List.filterMap_cons_some (by unfold includedPair; rw [if_pos hc])]
    rfl
  · rw [if_neg hc,
      List.filterMap_cons_none (by unfold includedPair; rw [if_neg hc])]
    rfl

theorem blockPairs_append (a b : List Emit) :
    blockPairs (a ++ b) = blockPairs a ++ blockPairs b := by
  unfold blockPairs
  exact List.filterMap_append a b _

theorem leavesK_unchecked : ∀ (cs : List FTree) (pfx : Str),
    allUncheckedK cs = true → ∀ x ∈ leavesK pfx cs,
      x.2.1 = CheckSt.unchecked := by
  have main : ∀ (t : FTree) (pfx : Str), allUncheckedN t = true →
      ∀ x ∈ leavesN pfx t, x.2.1 = CheckSt.unchecked := by
    intro t
    induction t using FTree.rec (motive_2 := fun cs => ∀ pfx : Str,
        allUncheckedK cs = true → ∀ x ∈ leavesK pfx cs,
          x.2.1 = CheckSt.unchecked) with
    | file n st c sz =>
      intro pfx ht x hx
      rw [show leavesN pfx (FTree.file n st c sz) = [(pfx ++ n, st, c)]
        from rfl] at hx
      rcases List.mem_singleton.mp hx with rfl
      rw [show allUncheckedN (FTree.file n st c sz) =
        (st == CheckSt.unchecked) from rfl, beq_iff_eq] at ht
      exact ht
    | dir n st cs ihcs =>
      intro pfx ht x hx
      rw [show leavesN pfx (FTree.dir n st cs) =
        leavesK (pfx ++ n ++ lit "/") cs from rfl] at hx
      rw [show allUncheckedN (FTree.dir n st cs) =
        (st == CheckSt.unchecked && allUncheckedK cs) from rfl,
        Bool.and_eq_true] at ht
      exact ihcs _ ht.2 x hx
    | nil =>
      rename_i pfx2 hk x2 hx
      rw [show leavesK pfx2 ([] : List FTree) = [] from rfl] at hx
      exact absurd hx (List.not_mem_nil x2)
    | cons t ts iht ihts =>
      rename_i pfx2 hk x2 hx
      rw [show leavesK pfx2 (t :: ts) =
        leavesN pfx2 t ++ leavesK pfx2 ts from rfl] at hx
      rw [show allUncheckedK (t :: ts) =
        (allUncheckedN t && allUncheckedK ts) from rfl,
        Bool.and_eq_true] at hk
      rcases List.mem_append.mp hx with h | h
      · exact iht pfx2 hk.1 x2 h
      · exact ihts pfx2 hk.2 x2 h
  intro cs
  induction cs with
  | nil =>
    intro pfx hk x hx
    rw [show leavesK pfx ([] : List FTree) = [] from rfl] at hx
    exact absurd hx (List.not_mem_nil x)
  | cons t ts ih =>
    intro pfx hk x hx
    rw [show leavesK pfx (t :: ts) =
      leavesN pfx t ++ leavesK pfx ts from rfl] at hx
    rw [show allUncheckedK (t :: ts) =
      (allUncheckedN t && allUncheckedK ts) from rfl,
      Bool.and_eq_true] at hk
    rcases List.mem_append.mp hx with h | h
    · exact main t pfx hk.1 x h
    · exact ih pfx hk.2 x h

theorem emission_eq_included (o : POpts) : ∀ (ts : List FTree) (pfx : Str),
    goodKidsB o ts = true →
    blockPairs (emissionK pfx ts) =
      (leavesK pfx ts).filterMap includedPair := by
  have main : ∀ (t : FTree) (pfx : Str), goodTreeB o t = true →
      blockPairs (emissionN pfx t) =
        (leavesN pfx t).filterMap includedPair := by
    intro t
    induction t using FTree.rec (motive_2 := fun cs => ∀ pfx : Str,
        goodKidsB o cs = true →
          blockPairs (emissionK pfx cs) =
            (leavesK pfx cs).filterMap includedPair) with
    | file n st c sz =>
      intro pfx ht
      rw [show emissionN pfx (FTree.file n st c sz) =
        (if st = CheckSt.checked then [Emit.mk n (pfx ++ n) c sz] else [])
        from rfl,
        show leavesN pfx (FTree.file n st c sz) = [(pfx ++ n, st, c)]
        from rfl, filterMap_inc_singleton]
      by_cases hst : st = CheckSt.checked
      · rw [if_pos hst, blockPairs_singleton]
        by_cases hpc : pyStrip c ≠ []
        · rw [if_pos hpc, if_pos ⟨hst, hpc⟩]
        · rw [if_neg hpc, if_neg (fun hand => hpc hand.2)]
      · rw [if_neg hst, if_neg (fun hand => hst hand.1)]
        rfl
    | dir n st cs ihcs =>
      intro pfx ht
      rw [show emissionN pfx (FTree.dir n st cs) =
        (if st ≠ CheckSt.unchecked then emissionK (pfx ++ n ++ lit "/") cs
         else []) from rfl,
        show leavesN pfx (FTree.dir n st cs) =
          leavesK (pfx ++ n ++ lit "/") cs from rfl]
      have ht2 : (if st == CheckSt.unchecked then allUncheckedK cs
          else true) = true ∧ goodKidsB o cs = true := by
        rw [show goodTreeB o (FTree.dir n st cs) =
          (goodNameB n &&
            (if st == CheckSt.unchecked then allUncheckedK cs else true) &&
            decide ((cs.map FTree.fname).Nodup) && goodKidsB o cs)
          from rfl] at ht
        simp only [Bool.and_eq_true] at ht
        exact ⟨ht.1.1.2, ht.2⟩
      by_cases hst : st ≠ CheckSt.unchecked
      · rw [if_pos hst]
        exact ihcs _ ht2.2
      · rw [if_neg hst]
        push_neg at hst
        have hall : allUncheckedK cs = true := by
          have h3 := ht2.1
          rwa [if_pos (beq_iff_eq.mpr hst)] at h3
        rw [show blockPairs ([] : List Emit) = [] from rfl]
        symm
        rw [List.filterMap_eq_nil]
        intro a ha
        unfold includedPair
        rw [if_neg (fun hand =>
          CheckSt.noConfusion
            ((leavesK_unchecked cs _ hall a ha).symm.trans hand.1))]
    | nil =>
      rename_i pfx2 hk
      rw [show emissionK pfx2 ([] : List FTree) = [] from rfl,
        show leavesK pfx2 ([] : List FTree) = [] from rfl]
      rfl
    | cons t ts iht ihts =>
      rename_i pfx2 hk
      rw [show goodKidsB o (t :: ts) = (goodTreeB o t && goodKidsB o ts)
        from rfl, Bool.and_eq_true] at hk
      rw [show emissionK pfx2 (t :: ts) =
        emissionN pfx2 t ++ emissionK pfx2 ts from rfl,
        show leavesK pfx2 (t :: ts) =
          leavesN pfx2 t ++ leavesK pfx2 ts from rfl,
        blockPairs_append, List.filterMap_append,
        iht pfx2 hk.1, ihts pfx2 hk.2]
  intro ts
  induction ts with
  | nil =>
    intro pfx hk
    rw [show emissionK pfx ([] : List FTree) = [] from rfl,
      show leavesK pfx ([] : List FTree) = [] from rfl]
    rfl
  | cons t ts ih =>
    intro pfx hk
    rw [show goodKidsB o (t :: ts) = (goodTreeB o t && goodKidsB o ts)
      from rfl, Bool.and_eq_true] at hk
    rw [show emissionK pfx (t :: ts) =
      emissionN pfx t ++ emissionK pfx ts from rfl,
      show leavesK pfx (t :: ts) =
        leavesN pfx t ++ leavesK pfx ts from rfl,
      blockPairs_append, List.filterMap_append,
      main t pfx hk.1, ih pfx hk.2]

-- Distinctness of leaf relative paths.

theorem not_mem_of_contains_false {a : Char} {l : Str}
    (h : l.contains a = false) : a ∉ l := by
  intro hm
  rw [show l.contains a = l.elem a from rfl, List.elem_iff.mpr hm] at h
  exact Bool.noConfusion h

theorem goodNameB_no_slash {n : Str} (h : goodNameB n = true) : '/' ∉ n := by
  unfold goodNameB at h
  simp only [Bool.and_eq_true, Bool.not_eq_true'] at h
  exact not_mem_of_contains_false h.1.2

theorem takeWhile_no_slash {n : Str} (hn : '/' ∉ n) {u : Str}
    (hu : u = [] ∨ ∃ v, u = '/' :: v) :
    (n ++ u).takeWhile (fun c => !(c == '/')) = n := by
  induction n with
  | nil =>
    rcases hu with rfl | ⟨v, rfl⟩
    · rfl
    · rw [List.nil_append, List.takeWhile_cons_of_neg (by simp)]
  | cons a t ih =>
    have ha : a ≠ '/' := fun hh => hn (hh ▸ List.mem_cons_self a t)
    rw [List.cons_append, List.takeWhile_cons_of_pos (by simp [ha]),
      ih (fun hm => hn (List.mem_cons_of_mem a hm))]

theorem seg_ne {n1 n2 u1 u2 : Str} (h1 : '/' ∉ n1) (h2 : '/' ∉ n2)
    (hu1 : u1 = [] ∨ ∃ v, u1 = '/' :: v)
    (hu2 : u2 = [] ∨ ∃ v, u2 = '/' :: v)
    (hne : n1 ≠ n2) : n1 ++ u1 ≠ n2 ++ u2 := by
  intro he
  apply hne
  have h3 := congrArg (List.takeWhile (fun c => !(c == '/'))) he
  rwa [takeWhile_no_slash h1 hu1, takeWhile_no_slash h2 hu2] at h3

theorem leavesK_mem : ∀ (ts : List FTree) (pfx : Str) (y : _),
    y ∈ leavesK pfx ts → ∃ t ∈ ts, y ∈ leavesN pfx t := by
  intro ts pfx y
  induction ts with
  | nil =>
    intro h
    rw [show leavesK pfx ([] : List FTree) = [] from rfl] at h
    exact absurd h (List.not_mem_nil y)
  | cons t ts ih =>
    intro h
    rw [show leavesK pfx (t :: ts) = leavesN pfx t ++ leavesK pfx ts
      from rfl] at h
    rcases List.mem_append.mp h with h | h
    · exact ⟨t, List.mem_cons_self t ts, h⟩
    · rcases ih h with ⟨t2, ht2, hy⟩
      exact ⟨t2, List.mem_cons_of_mem t ht2, hy⟩

theorem leavesK_rel_prefix : ∀ (ts : List FTree) (pfx : Str),
    ∀ x ∈ leavesK pfx ts, ∃ w, x.1 = pfx ++ w := by
  have main : ∀ (t : FTree) (pfx : Str), ∀ x ∈ leavesN pfx t,
      ∃ w, x.1 = pfx ++ w := by
    intro t
    induction t using FTree.rec (motive_2 := fun cs => ∀ pfx : Str,
        ∀ x ∈ leavesK pfx cs, ∃ w, x.1 = pfx ++ w) with
    | file n st c sz =>
      intro pfx x hx
      rw [show leavesN pfx (FTree.file n st c sz) = [(pfx ++ n, st, c)]
        from rfl] at hx
      rcases List.mem_singleton.mp hx with rfl
      exact ⟨n, rfl⟩
    | dir n st cs ihcs =>
      intro pfx x hx
      rw [show leavesN pfx (FTree.dir n st cs) =
        leavesK (pfx ++ n ++ lit "/") cs from rfl] at hx
      rcases ihcs _ x hx with ⟨w, hw⟩
      refine ⟨n ++ '/' :: w, ?_⟩
      rw [hw, show lit "/" = ['/'] from rfl]
      simp [List.append_assoc]
    | nil =>
      rename_i pfx2 x2 hx
      rw [show leavesK pfx2 ([] : List FTree) = [] from rfl] at hx
      exact absurd hx (List.not_mem_nil x2)
    | cons t ts iht ihts =>
      rename_i pfx2 x2 hx
      rw [show leavesK pfx2 (t :: ts) =
        leavesN pfx2 t ++ leavesK pfx2 ts from rfl] at hx
      rcases List.mem_append.mp hx with h | h
      · exact iht pfx2 x2 h
      · exact ihts pfx2 x2 h
  intro ts pfx x hx
  rcases leavesK_mem ts pfx x hx with ⟨t, ht, hxt⟩
  exact main t pfx x hxt

theorem leavesN_rel_shape (t : FTree) (pfx : Str) :
    ∀ x ∈ leavesN pfx t, ∃ u, x.1 = pfx ++ (t.fname ++ u) ∧
      (u = [] ∨ ∃ v, u = '/' :: v) := by
  cases t with
  | file n st c sz =>
    intro x hx
    rw [show leavesN pfx (FTree.file n st c sz) = [(pfx ++ n, st, c)]
      from rfl] at hx
    rcases List.mem_singleton.mp hx with rfl
    exact ⟨[], by simp [FTree.fname], Or.inl rfl⟩
  | dir n st cs =>
    intro x hx
    rw [show leavesN pfx (FTree.dir n st cs) =
      leavesK (pfx ++ n ++ lit "/") cs from rfl] at hx
    rcases leavesK_rel_prefix cs (pfx ++ n ++ lit "/") x hx with ⟨w, hw⟩
    refine ⟨'/' :: w, ?_, Or.inr ⟨w, rfl⟩⟩
    rw [hw, show lit "/" = ['/'] from rfl]
    simp [FTree.fname, List.append_assoc]

theorem goodTreeB_name {o : POpts} {t : FTree} (h : goodTreeB o t = true) :
    goodNameB t.fname = true := by
  cases t with
  | file n st c sz =>
    rw [show goodTreeB o (FTree.file n st c sz) =
      (goodNameB n && goodContentB c && decide (sz ≤ o.maxFileSize) &&
        !isBinaryContent c) from rfl] at h
    simp only [Bool.and_eq_true] at h
    exact h.1.1.1
  | dir n st cs =>
    rw [show goodTreeB o (FTree.dir n st cs) =
      (goodNameB n &&
        (if st == CheckSt.unchecked then allUncheckedK cs else true) &&
        decide ((cs.map FTree.fname).Nodup) && goodKidsB o cs) from rfl] at h
    simp only [Bool.and_eq_true] at h
    exact h.1.1.1

theorem leaves_nodup_step (o : POpts) (t : FTree) (ts : List FTree)
    (pfx : Str) (h1 : ((leavesN pfx t).map Prod.fst).Nodup)
    (h2 : ((leavesK pfx ts).map Prod.fst).Nodup)
    (hk1 : goodTreeB o t = true) (hk2 : goodKidsB o ts = true)
    (hnd : t.fname ∉ ts.map FTree.fname) :
    ((leavesK pfx (t :: ts)).map Prod.fst).Nodup := by
  rw [show leavesK pfx (t :: ts) = leavesN pfx t ++ leavesK pfx ts
    from rfl, List.map_append]
  refine List.Nodup.append h1 h2 ?_
  intro a ha1 ha2
  rcases List.mem_map.mp ha1 with ⟨x, hx, rfl⟩
  rcases List.mem_map.mp ha2 with ⟨y, hy, hxy⟩
  rcases leavesN_rel_shape t pfx x hx with ⟨u1, hshape1, hu1⟩
  rcases leavesK_mem ts pfx y hy with ⟨t2, ht2mem, hy2⟩
  rcases leavesN_rel_shape t2 pfx y hy2 with ⟨u2, hshape2, hu2⟩
  have hfn : t.fname ≠ t2.fname := by
    intro hfe
    apply hnd
    rw [hfe]
    exact List.mem_map.mpr ⟨t2, ht2mem, rfl⟩
  have hslash1 : '/' ∉ t.fname := goodNameB_no_slash (goodTreeB_name hk1)
  have hslash2 : '/' ∉ t2.fname :=
    goodNameB_no_slash (goodTreeB_name (goodKidsB_mem hk2 ht2mem))
  have heq : pfx ++ (t.fname ++ u1) = pfx ++ (t2.fname ++ u2) := by
    rw [← hshape1, ← hshape2, hxy]
  exact seg_ne hslash1 hslash2 hu1 hu2 hfn (List.append_cancel_left heq)

theorem leaves_nodup (o : POpts) : ∀ (ts : List FTree) (pfx : Str),
    goodKidsB o ts = true → (ts.map FTree.fname).Nodup →
    ((leavesK pfx ts).map Prod.fst).Nodup := by
  have main : ∀ (t : FTree) (pfx : Str), goodTreeB o t = true →
      ((leavesN pfx t).map Prod.fst).Nodup := by
    intro t
    induction t using FTree.rec (motive_2 := fun cs => ∀ pfx : Str,
        goodKidsB o cs = true → (cs.map FTree.fname).Nodup →
          ((leavesK pfx cs).map Prod.fst).Nodup) with
    | file n st c sz =>
      intro pfx ht
      rw [show leavesN pfx (FTree.file n st c sz) = [(pfx ++ n, st, c)]
        from rfl]
      simp
    | dir n st cs ihcs =>
      intro pfx ht
      rw [show leavesN pfx (FTree.dir n st cs) =
        leavesK (pfx ++ n ++ lit "/") cs from rfl]
      have ht2 : ((cs.map FTree.fname).Nodup) ∧ goodKidsB o cs = true := by
        rw [show goodTreeB o (FTree.dir n st cs) =
          (goodNameB n &&
            (if st == CheckSt.unchecked then allUncheckedK cs else true) &&
            decide ((cs.map FTree.fname).Nodup) && goodKidsB o cs)
          from rfl] at ht
        simp only [Bool.and_eq_true, decide_eq_true_eq] at ht
        exact ⟨ht.1.2, ht.2⟩
      exact ihcs _ ht2.2 ht2.1
    | nil =>
      rename_i pfx2 hk hnd
      rw [show leavesK pfx2 ([] : List FTree) = [] from rfl]
      simp
    | cons t ts iht ihts =>
      rename_i pfx2 hk hnd
      rw [show goodKidsB o (t :: ts) = (goodTreeB o t && goodKidsB o ts)
        from rfl, Bool.and_eq_true] at hk
      rw [show (t :: ts).map FTree.fname = t.fname :: ts.map FTree.fname
        from rfl, List.nodup_cons] at hnd
      exact leaves_nodup_step o t ts pfx2 (iht pfx2 hk.1)
        (ihts pfx2 hk.2 hnd.2) hk.1 hk.2 hnd.1
  intro ts
  induction ts with
  | nil =>
    intro pfx hk hnd
    rw [show leavesK pfx ([] : List FTree) = [] from rfl]
    simp
  | cons t ts ih =>
    intro pfx hk hnd
    rw [show goodKidsB o (t :: ts) = (goodTreeB o t && goodKidsB o ts)
      from rfl, Bool.and_eq_true] at hk
    rw [show (t :: ts).map FTree.fname = t.fname :: ts.map FTree.fname
      from rfl, List.nodup_cons] at hnd
    exact leaves_nodup_step o t ts pfx (main t pfx hk.1)
      (ih pfx hk.2 hnd.2) hk.1 hk.2 hnd.1

-- Restore plumbing.

theorem enum_filter_true_map (l : List (Str × Str)) :
    ((l.enum.filter (fun ib => true)).map (fun ib => ib.2)) = l := by
  rw [List.filter_true]
  exact List.enum_map_snd l

theorem restoreFiles_ok_written {s v : Str} {wok : Nat → Bool}
    (hs : sliceFromMarker (lit "File Contents") s = some v) :
    (restoreFiles (Except.ok s) wok).written =
      ((extractFileBlocks v).enum.filter
        (fun ib => wok ib.1)).map (fun ib => ib.2) := by
  simp only [restoreFiles, hs]
  by_cases he : (extractFileBlocks v).isEmpty
  · rw [if_pos he]
    rw [List.isEmpty_iff] at he
    rw [he]
    rfl
  · rw [if_neg he]

/-- What one restore run writes, computed symbolically: for a txt
serialization of a tree whose kids are all good, the write list is exactly
the block pair list of the emission. -/
theorem restore_written_eq (o : POpts) (root ts : Str) (forest : List FTree)
    (hfmt : o.fmt = Fmt.txt) (hroot : cleanMetaB root = true)
    (hts : cleanMetaB ts = true) (hof : cleanMetaB o.outputFolder = true)
    (hkids : goodKidsB o forest = true) :
    (restoreFiles (Except.ok (mergeOutput o root ts forest))
      (fun i => true)).written = blockPairs (emissionK [] forest) := by
  have hemit : ∀ e ∈ emissionK [] forest, emitOk o e :=
    emissionK_props o forest [] hkids pfxOk_nil
  have hMO : mergeOutput o root ts forest =
      (writeHeader o root ts ++
        sectionHeader o.fmt (lit "File Structure") false ++
        summaryKids [] forest ++
        sectionHeader o.fmt (lit "File Contents") true) ++
      blocksCat (emissionK [] forest) := by
    unfold mergeOutput
    rw [writeFilesKids_eq_blocksCat o forest hfmt hemit]
  have hP : docHashFree (writeHeader o root ts ++
      sectionHeader o.fmt (lit "File Structure") false ++
      summaryKids [] forest ++
      sectionHeader o.fmt (lit "File Contents") true) := by
    rw [hfmt]
    exact docHashFree_append (docHashFree_append (docHashFree_append
      (docHashFree_writeHeader o root ts hfmt hroot hts hof)
      (docHashFree_sectionHeader _ (docHashFree_lit_dec _ (by decide))
        false))
      (summaryKids_docHashFree o forest hkids []
        (fun c hc => absurd hc (List.not_mem_nil c))))
      (docHashFree_sectionHeader _ (docHashFree_lit_dec _ (by decide)) true)
  have hmark : hasSub (lit "File Contents")
      (writeHeader o root ts ++
        sectionHeader o.fmt (lit "File Structure") false ++
        summaryKids [] forest ++
        sectionHeader o.fmt (lit "File Contents") true) = true :=
    hasSub_append_right _ (by rw [hfmt]; decide)
  rcases sliceFromMarker_append (by decide) _
    (blocksCat (emissionK [] forest)) hmark with ⟨R, hR0, hRsuf, hslice⟩
  have hRdoc : ∀ c ∈ R, c ≠ '📄' := fun c hc =>
    (docHashFree_suffix hRsuf hP c hc).1
  have hext : extractFileBlocks (R ++ blocksCat (emissionK [] forest)) =
      blockPairs (emissionK [] forest) := by
    have hchars : ∀ c ∈ R ++ blocksCat (emissionK [] forest), c ≠ '#' := by
      intro c hc
      rcases List.mem_append.mp hc with hc | hc
      · exact (docHashFree_suffix hRsuf hP c hc).2
      · exact hashFree_blocksCat hemit c hc
    unfold extractFileBlocks
    rw [if_neg ?hmd]
    · exact txtBlocks_scan o R _ hRdoc hemit
    case hmd =>
      intro hcontra
      rw [show lit "### 📄 " = '#' :: lit "## 📄 " from rfl,
        hasSub_false_of_head hchars] at hcontra
      exact Bool.noConfusion hcontra
  rw [restoreFiles_ok_written
    (v := R ++ blocksCat (emissionK [] forest))
    (by rw [hMO]; exact hslice), hext]
  exact enum_filter_true_map _

/-- C1 (corrected): amended round trip.  Serializing a good selection tree
to txt (clean metadata, nonempty framing-free strip-invariant names that are
pairwise distinct among siblings, framing-free contents, sizes within the
ceiling, nothing detected binary, selection states consistent) and restoring
the artifact writes exactly one file per Included leaf whose content does
not strip to nothing, at the leaf's relative path, with content equal to the
Python strip of the original content — hence byte-identical exactly when the
content carries no leading or trailing whitespace — and writes no file at
the relative path of any Excluded leaf. -/
theorem c1_round_trip (o : POpts) (root ts : Str) (forest : List FTree)
    (hfmt : o.fmt = Fmt.txt) (hroot : cleanMetaB root = true)
    (hts : cleanMetaB ts = true) (hof : cleanMetaB o.outputFolder = true)
    (hforest : goodForestB o forest = true) :
    (restoreFiles (Except.ok (mergeOutput o root ts forest))
        (fun i => true)).written =
      (leavesK [] forest).filterMap includedPair ∧
    ∀ x ∈ leavesK [] forest, x.2.1 = CheckSt.unchecked →
      ∀ w ∈ (restoreFiles (Except.ok (mergeOutput o root ts forest))
        (fun i => true)).written, w.1 ≠ x.1 := by
  have hsplit0 : goodKidsB o forest = true ∧
      (forest.map FTree.fname).Nodup := by
    unfold goodForestB at hforest
    simp only [Bool.and_eq_true, decide_eq_true_eq] at hforest
    exact ⟨hforest.2, hforest.1⟩
  obtain ⟨hkids, hnodup⟩ := hsplit0
  have hw := restore_written_eq o root ts forest hfmt hroot hts hof hkids
  constructor
  · rw [hw]
    exact emission_eq_included o forest [] hkids
  · intro x hx hst w hwmem hweq
    rw [hw, emission_eq_included o forest [] hkids] at hwmem
    rcases List.mem_filterMap.mp hwmem with ⟨y, hy, hfy⟩
    unfold includedPair at hfy
    by_cases hcond : y.2.1 = CheckSt.checked ∧ pyStrip y.2.2 ≠ []
    · rw [if_pos hcond] at hfy
      have hwe := Option.some.inj hfy
      subst hwe
      have hxyne : y ≠ x := fun he => by
        rw [he, hst] at hcond
        exact CheckSt.noConfusion hcond.1
      exact hxyne (List.inj_on_of_nodup_map
        (leaves_nodup o forest [] hkids hnodup) hy hx hweq)
    · rw [if_neg hcond] at hfy
      exact Option.noConfusion hfy

/-- Witness for C1: one Included 5 byte text file restores to itself. -/
theorem c1_round_trip_witness :
    ((POpts.mk (lit "out") Fmt.txt 1000000 false false).fmt = Fmt.txt ∧
     cleanMetaB (lit "r") = true ∧ cleanMetaB (lit "t") = true ∧
     cleanMetaB (POpts.mk (lit "out") Fmt.txt 1000000 false
       false).outputFolder = true ∧
     goodForestB (POpts.mk (lit "out") Fmt.txt 1000000 false false)
       [FTree.file (lit "a.txt") CheckSt.checked (lit "hello") 5] = true) ∧
    ((restoreFiles (Except.ok (mergeOutput
        (POpts.mk (lit "out") Fmt.txt 1000000 false false) (lit "r")
        (lit "t")
        [FTree.file (lit "a.txt") CheckSt.checked (lit "hello") 5]))
        (fun i => true)).written =
      (leavesK []
        [FTree.file (lit "a.txt") CheckSt.checked (lit "hello") 5]
        ).filterMap includedPair ∧
     ∀ x ∈ leavesK []
        [FTree.file (lit "a.txt") CheckSt.checked (lit "hello") 5],
       x.2.1 = CheckSt.unchecked →
       ∀ w ∈ (restoreFiles (Except.ok (mergeOutput
          (POpts.mk (lit "out") Fmt.txt 1000000 false false) (lit "r")
          (lit "t")
          [FTree.file (lit "a.txt") CheckSt.checked (lit "hello") 5]))
          (fun i => true)).written, w.1 ≠ x.1) :=
  ⟨⟨rfl, by decide, by decide, by decide, by decide⟩,
   c1_round_trip (POpts.mk (lit "out") Fmt.txt 1000000 false false)
     (lit "r") (lit "t")
     [FTree.file (lit "a.txt") CheckSt.checked (lit "hello") 5]
     rfl (by decide) (by decide) (by decide) (by decide)⟩

/-- Counterexample to the literal C1 claim: the Included text file a.txt
with content hello plus a trailing newline is under the size ceiling, yet
restore writes content hello — the final strip of the chunk loses the
trailing newline, so the restored bytes differ from the original. -/
theorem c1_counterexample :
    (restoreFiles (Except.ok (mergeOutput
        (POpts.mk (lit "out") Fmt.txt 1000000 false false) (lit "r")
        (lit "t")
        [FTree.file (lit "a.txt") CheckSt.checked (lit "hello\n") 6]))
      (fun i => true)).written = [(lit "a.txt", lit "hello")] ∧
    lit "hello" ≠ lit "hello\n" := by
  constructor
  · rw [restore_written_eq (POpts.mk (lit "out") Fmt.txt 1000000 false false)
      (lit "r") (lit "t")
      [FTree.file (lit "a.txt") CheckSt.checked (lit "hello\n") 6]
      rfl (by decide) (by decide) (by decide) (by decide)]
    decide
  · decide

/-- Witness for C8: a directory whose item predates the chunk receives a
file and a directory from that chunk in directories-first order. -/
theorem c8_deterministic_serialization_witness :
    ((lit "/r/d") ∈ (TState.mk [lit "/r/d"] [] [lit "/r/d"] []).created ∧
     (lit "/r/d") ≠ lit "/r" ∧
     (∀ pr ∈ (TState.mk [lit "/r/d"] [] [lit "/r/d"] []).pending,
       pr.2 ≠ lit "/r/d")) ∧
    (kidsOf (procChunk (lit "/r")
        (TState.mk [lit "/r/d"] [] [lit "/r/d"] [])
        [QItem.mk (lit "b.txt") (joinP (lit "/r/d") (lit "b.txt"))
          (lit "/r/d") false,
         QItem.mk (lit "a") (joinP (lit "/r/d") (lit "a"))
          (lit "/r/d") true]).kids (lit "/r/d") =
      kidsOf ((TState.mk [lit "/r/d"] [] [lit "/r/d"] []).kids)
        (lit "/r/d") ++
        ((stableSort qLe
          [QItem.mk (lit "b.txt") (joinP (lit "/r/d") (lit "b.txt"))
            (lit "/r/d") false,
           QItem.mk (lit "a") (joinP (lit "/r/d") (lit "a"))
            (lit "/r/d") true]).filter
          (fun it => it.parentPath == lit "/r/d")).map QItem.path ∧
     List.Pairwise qOrderedPair
       ((stableSort qLe
          [QItem.mk (lit "b.txt") (joinP (lit "/r/d") (lit "b.txt"))
            (lit "/r/d") false,
           QItem.mk (lit "a") (joinP (lit "/r/d") (lit "a"))
            (lit "/r/d") true]).filter
         (fun it => it.parentPath == lit "/r/d"))) :=
  ⟨⟨by decide, by decide, by decide⟩,
   c8_deterministic_serialization.2.1 (lit "/r") (lit "/r/d")
     (TState.mk [lit "/r/d"] [] [lit "/r/d"] [])
     [QItem.mk (lit "b.txt") (joinP (lit "/r/d") (lit "b.txt"))
       (lit "/r/d") false,
      QItem.mk (lit "a") (joinP (lit "/r/d") (lit "a"))
       (lit "/r/d") true]
     (by decide) (by decide) (by decide)⟩

end FileMerger
